import Mathlib

/-!
Verification development for the profile-inheritance settings engine
(`src/profiles.ts`, with the scanner / block-splicer functions of the
current `profiles.ts` revision).

The embedding works over:
* `Rec V` — a JavaScript `Record<string, V>` modelled as an association
  list whose assignment operation `recInsert` overwrites in place (JS
  property assignment keeps the original insertion position of a key);
* `CVal α` — a nested configuration tree: a leaf (scalar or array, both
  atomic for flattening purposes) or a plain object;
* `Str` (`List Char`) — raw document text for the JSONC lexical scanner
  and block splicer.
-/

namespace InheritProfile

/-- JS `Record<string, V>` as an association list. -/
abbrev Rec (V : Type) := List (String × V)

/-- JS property test `r.hasOwnProperty(k)` / `k in r` (own keys). -/
def containsKey (r : Rec V) (k : String) : Bool :=
  r.any (fun kv => kv.1 = k)

/-- JS assignment `r[k] = v`: overwrite in place if the key exists
(property assignment keeps the key's original position), else append. -/
def recInsert (r : Rec V) (k : String) (v : V) : Rec V :=
  if containsKey r k then
    r.map (fun kv => if kv.1 = k then (k, v) else kv)
  else r ++ [(k, v)]

/-- The keys of a record. -/
def recKeys (r : Rec V) : List String := r.map Prod.fst

/-- A nested configuration value, as classified by
`value && typeof value === "object" && !Array.isArray(value)`:
a plain object recurses, everything else (scalars, arrays, `null`) is an
atomic leaf. -/
inductive CVal (α : Type) where
  | leaf (a : α)
  | node (entries : List (String × CVal α))

/-- Key extension per nesting level:
`parentKey ? parentKey + "." + key : key` (the empty string is falsy). -/
def mkKey (parentKey key : String) : String :=
  if parentKey = "" then key else parentKey ++ "." ++ key

/-- `flattenSettings(settings, parentKey, result)`: iterate the entries in
order; recurse into plain objects with the extended key, store leaves in
the result record. -/
def flattenSettings : List (String × CVal α) → String → Rec α → Rec α
  | [], _, result => result
  | (key, CVal.leaf v) :: rest, parentKey, result =>
      flattenSettings rest parentKey (recInsert result (mkKey parentKey key) v)
  | (key, CVal.node sub) :: rest, parentKey, result =>
      flattenSettings rest parentKey (flattenSettings sub (mkKey parentKey key) result)

/-- `mergeFlattenedSettings(target, source) = { ...target, ...source }`:
assign every entry of `source`, in order, onto a copy of `target`. -/
def mergeFlattenedSettings (target source : Rec V) : Rec V :=
  source.foldl (fun acc kv => recInsert acc kv.1 kv.2) target

/-- Pure core of `getProfileSettings`: each profile's configuration tree is
flattened and merged left-to-right into the accumulated settings (later
profiles override earlier ones), and the final record is re-flattened. -/
def getProfileSettings (profiles : List (List (String × CVal V))) : Rec V :=
  flattenSettings
    (((profiles.foldl
        (fun settings tree =>
          mergeFlattenedSettings settings (flattenSettings tree "" [])) []).map
      (fun kv => (kv.1, CVal.leaf kv.2)))) "" []

/-- `subtractSettings(base, toRemove)`: iterate `base` in order and keep
exactly the entries whose key is not `in` `toRemove`. -/
def subtractSettings (base : Rec V) (toRemove : Rec W) : Rec V :=
  base.foldl
    (fun result kv =>
      if containsKey toRemove kv.1 then result else recInsert result kv.1 kv.2) []

/-! ### Record lemmas -/

theorem containsKey_eq_mem (r : Rec V) (k : String) :
    containsKey r k = true ↔ k ∈ recKeys r := by
  simp [containsKey, recKeys, List.any_eq_true, List.mem_map]

theorem containsKey_false_iff (r : Rec V) (k : String) :
    containsKey r k = false ↔ k ∉ recKeys r := by
  rw [← containsKey_eq_mem]
  cases h : containsKey r k <;> simp

theorem recInsert_of_not_containsKey (r : Rec V) (k : String) (v : V)
    (h : containsKey r k = false) : recInsert r k v = r ++ [(k, v)] := by
  simp [recInsert, h]

theorem recKeys_append (r s : Rec V) :
    recKeys (r ++ s) = recKeys r ++ recKeys s := by
  simp [recKeys]

/-- Folding `recInsert` over entries with fresh, pairwise-distinct keys is
plain concatenation. -/
theorem foldl_recInsert_eq_append (r : Rec V) : ∀ res : Rec V,
    (recKeys res ++ recKeys r).Nodup →
    r.foldl (fun acc kv => recInsert acc kv.1 kv.2) res = res ++ r := by
  induction r with
  | nil => intro res _; simp
  | cons kv rest ih =>
    intro res h
    obtain ⟨k, v⟩ := kv
    have hKeys : recKeys ((k, v) :: rest) = k :: recKeys rest := rfl
    rw [hKeys] at h
    have hd := (List.nodup_append.mp h).2.2
    have hk : containsKey res k = false := by
      rw [containsKey_false_iff]
      intro hmem
      exact hd hmem (List.mem_cons_self _ _)
    have hstep : recInsert res k v = res ++ [(k, v)] :=
      recInsert_of_not_containsKey _ _ _ hk
    have h' : (recKeys (res ++ [(k, v)]) ++ recKeys rest).Nodup := by
      rw [recKeys_append]
      have : recKeys [(k, v)] = [k] := rfl
      rw [this, List.append_assoc]
      simpa using h
    calc ((k, v) :: rest).foldl (fun acc kv => recInsert acc kv.1 kv.2) res
        = rest.foldl (fun acc kv => recInsert acc kv.1 kv.2) (res ++ [(k, v)]) := by
          simp [List.foldl_cons, hstep]
      _ = (res ++ [(k, v)]) ++ rest := ih _ h'
      _ = res ++ (k, v) :: rest := by simp

theorem subtract_go (toRemove : Rec W) (base : Rec V) : ∀ res : Rec V,
    (recKeys res ++ recKeys base).Nodup →
    base.foldl
      (fun result kv =>
        if containsKey toRemove kv.1 then result else recInsert result kv.1 kv.2) res
    = res ++ base.filter (fun kv => !containsKey toRemove kv.1) := by
  induction base with
  | nil => intro res _; simp
  | cons kv rest ih =>
    intro res h
    obtain ⟨k, v⟩ := kv
    have hKeys : recKeys ((k, v) :: rest) = k :: recKeys rest := rfl
    rw [hKeys] at h
    have hd := (List.nodup_append.mp h).2.2
    by_cases hc : containsKey toRemove k = true
    · have hsub : (recKeys res ++ recKeys rest).Nodup := by
        refine List.Nodup.sublist ?_ h
        exact (List.sublist_cons_self k (recKeys rest)).append_left (recKeys res)
      simp only [List.foldl_cons, hc, if_true, List.filter_cons, Bool.not_eq_true']
      rw [ih res hsub]
      simp [hc]
    · have hc' : containsKey toRemove k = false := by
        cases hcv : containsKey toRemove k
        · rfl
        · exact absurd hcv hc
      have hk : containsKey res k = false := by
        rw [containsKey_false_iff]
        intro hmem
        exact hd hmem (List.mem_cons_self _ _)
      have hstep : recInsert res k v = res ++ [(k, v)] :=
        recInsert_of_not_containsKey _ _ _ hk
      have h' : (recKeys (res ++ [(k, v)]) ++ recKeys rest).Nodup := by
        rw [recKeys_append]
        have hsing : recKeys [(k, v)] = [k] := rfl
        rw [hsing, List.append_assoc]
        simpa using h
      simp only [List.foldl_cons, hc', if_false, hstep, Bool.false_eq_true]
      rw [ih _ h']
      simp [hc']

/-- Under the JS record invariant (unique keys), `subtractSettings` is the
key-based filter of `base`. -/
theorem subtract_eq_filter (base : Rec V) (toRemove : Rec W)
    (h : (recKeys base).Nodup) :
    subtractSettings base toRemove
      = base.filter (fun kv => !containsKey toRemove kv.1) := by
  have := subtract_go toRemove base [] (by simpa using h)
  simpa [subtractSettings] using this

theorem mkKey_empty (k : String) : mkKey "" k = k := if_pos rfl

theorem lookup_cons' (kv : String × V) (rest : Rec V) (k : String) :
    List.lookup k (kv :: rest)
      = if k = kv.1 then some kv.2 else List.lookup k rest := by
  by_cases h : k = kv.1
  · simp [List.lookup, h]
  · have hb : (k == kv.1) = false := by simp [h]
    simp [List.lookup, hb, h]

theorem lookup_append_none (l₁ l₂ : Rec V) (k : String)
    (h : List.lookup k l₁ = none) :
    List.lookup k (l₁ ++ l₂) = List.lookup k l₂ := by
  induction l₁ with
  | nil => simp
  | cons kv rest ih =>
    by_cases he : k = kv.1
    · exfalso
      rw [lookup_cons', if_pos he] at h
      exact Option.noConfusion h
    · rw [lookup_cons', if_neg he] at h
      rw [List.cons_append, lookup_cons', if_neg he]
      exact ih h

theorem lookup_eq_none_of_not_mem (l : Rec V) (k : String)
    (h : k ∉ recKeys l) : List.lookup k l = none := by
  induction l with
  | nil => simp
  | cons kv rest ih =>
    have hne : k ≠ kv.1 := by
      intro he; exact h (by simp [recKeys, he])
    have hrest : k ∉ recKeys rest := by
      intro hm; exact h (by simp [recKeys] at hm ⊢; exact Or.inr hm)
    rw [lookup_cons', if_neg hne]
    exact ih hrest

/-- Looking up in the overwrite-map used by `recInsert` when the key is
different from the overwritten one. -/
theorem lookup_overwrite_ne (r : Rec V) (k k' : String) (v : V) (h : k' ≠ k) :
    List.lookup k' (r.map (fun kv => if kv.1 = k then (k, v) else kv))
      = List.lookup k' r := by
  induction r with
  | nil => simp
  | cons kv rest ih =>
    by_cases he : kv.1 = k
    · simp only [List.map_cons, if_pos he]
      rw [lookup_cons', lookup_cons']
      simp only [if_neg h]
      rw [if_neg (fun hk => h (hk.trans he)), ih]
    · simp only [List.map_cons, if_neg he]
      rw [lookup_cons', lookup_cons']
      by_cases he' : k' = kv.1
      · simp [he']
      · rw [if_neg he', if_neg he', ih]

theorem lookup_overwrite_eq (r : Rec V) (k : String) (v : V)
    (h : containsKey r k = true) :
    List.lookup k (r.map (fun kv => if kv.1 = k then (k, v) else kv))
      = some v := by
  induction r with
  | nil => simp [containsKey] at h
  | cons kv rest ih =>
    by_cases he : kv.1 = k
    · simp [if_pos he]
    · have hrest : containsKey rest k = true := by
        simp only [containsKey, List.any_cons, Bool.or_eq_true] at h
        rcases h with h | h
        · exact absurd (by simpa using h) he
        · exact h
      simp only [List.map_cons, if_neg he]
      rw [lookup_cons', if_neg (fun hk => he hk.symm), ih hrest]

theorem lookup_recInsert (r : Rec V) (k k' : String) (v : V) :
    List.lookup k' (recInsert r k v)
      = if k' = k then some v else List.lookup k' r := by
  by_cases hc : containsKey r k = true
  · rw [recInsert, if_pos hc]
    by_cases he : k' = k
    · rw [if_pos he, he, lookup_overwrite_eq r k v hc]
    · rw [if_neg he, lookup_overwrite_ne r k k' v he]
  · have hc' : containsKey r k = false := by
      cases hcv : containsKey r k
      · rfl
      · exact absurd hcv hc
    rw [recInsert, hc']
    simp only [Bool.false_eq_true, if_false]
    by_cases he : k' = k
    · subst he
      rw [if_pos rfl,
        lookup_append_none r [(k', v)] k'
          (lookup_eq_none_of_not_mem r k' ((containsKey_false_iff r k').mp hc'))]
      simp
    · rw [if_neg he]
      clear hc hc'
      induction r with
      | nil => simp [lookup_cons', he]
      | cons kv rest ih =>
        rw [List.cons_append, lookup_cons', lookup_cons']
        by_cases he' : k' = kv.1
        · rw [if_pos he', if_pos he']
        · rw [if_neg he', if_neg he', ih]

theorem recKeys_overwrite (r : Rec V) (k : String) (v : V) :
    recKeys (r.map (fun kv => if kv.1 = k then (k, v) else kv)) = recKeys r := by
  induction r with
  | nil => rfl
  | cons kv rest ih =>
    by_cases he : kv.1 = k
    · simp only [List.map_cons, if_pos he, recKeys, List.map_cons] at *
      rw [he]
      exact congrArg _ ih
    · simp only [List.map_cons, if_neg he, recKeys, List.map_cons] at *
      exact congrArg _ ih

theorem recKeys_recInsert_nodup (r : Rec V) (k : String) (v : V)
    (h : (recKeys r).Nodup) : (recKeys (recInsert r k v)).Nodup := by
  by_cases hc : containsKey r k = true
  · rw [recInsert, if_pos hc, recKeys_overwrite]; exact h
  · have hc' : containsKey r k = false := by
      cases hcv : containsKey r k
      · rfl
      · exact absurd hcv hc
    rw [recInsert, hc']
    simp only [Bool.false_eq_true, if_false, recKeys_append]
    rw [List.nodup_append]
    refine ⟨h, List.nodup_singleton k, ?_⟩
    intro a ha hb
    have : a = k := by simpa [recKeys] using hb
    subst this
    exact (containsKey_false_iff r a).mp hc' ha

theorem lookup_merge_nodup (t s : Rec V) (k : String)
    (hs : (recKeys s).Nodup) :
    List.lookup k (mergeFlattenedSettings t s)
      = match List.lookup k s with
        | some v => some v
        | none => List.lookup k t := by
  induction s generalizing t with
  | nil => simp [mergeFlattenedSettings]
  | cons kv rest ih =>
    obtain ⟨k0, v0⟩ := kv
    have hs' : (k0 :: recKeys rest).Nodup := hs
    have hcons := List.nodup_cons.mp hs'
    have hstep : mergeFlattenedSettings t ((k0, v0) :: rest)
        = mergeFlattenedSettings (recInsert t k0 v0) rest := rfl
    rw [hstep, ih _ hcons.2, lookup_cons']
    by_cases he : k = k0
    · subst he
      rw [lookup_eq_none_of_not_mem rest k hcons.1]
      rw [if_pos rfl]
      simp [lookup_recInsert]
    · rw [if_neg he, lookup_recInsert, if_neg he]

theorem nodup_flattenSettings (es : List (String × CVal α)) (p : String)
    (res : Rec α) :
    (recKeys res).Nodup → (recKeys (flattenSettings es p res)).Nodup := by
  induction es, p, res using flattenSettings.induct with
  | case1 p res => intro h; simpa [flattenSettings] using h
  | case2 key v rest p res ih =>
    intro h
    rw [flattenSettings]
    exact ih (recKeys_recInsert_nodup _ _ _ h)
  | case3 key sub rest p res ihsub ihrest =>
    intro h
    rw [flattenSettings]
    exact ihrest (ihsub h)

theorem nodup_mergeFlattened (s : Rec V) : ∀ t : Rec V,
    (recKeys t).Nodup → (recKeys (mergeFlattenedSettings t s)).Nodup := by
  induction s with
  | nil => intro t h; simpa [mergeFlattenedSettings] using h
  | cons kv rest ih =>
    intro t h
    have hstep : mergeFlattenedSettings t (kv :: rest)
        = mergeFlattenedSettings (recInsert t kv.1 kv.2) rest := rfl
    rw [hstep]
    exact ih _ (recKeys_recInsert_nodup _ _ _ h)

theorem flatten_map_leaf (r : Rec V) : ∀ res : Rec V,
    flattenSettings (r.map (fun kv => (kv.1, CVal.leaf kv.2))) "" res
      = r.foldl (fun acc kv => recInsert acc kv.1 kv.2) res := by
  induction r with
  | nil => intro res; simp [flattenSettings]
  | cons kv rest ih =>
    intro res
    obtain ⟨k, v⟩ := kv
    simp only [List.map_cons, flattenSettings, List.foldl_cons, mkKey_empty]
    exact ih _

theorem nodup_profile_fold (ps : List (List (String × CVal V))) :
    ∀ S : Rec V, (recKeys S).Nodup →
    (recKeys (ps.foldl
      (fun settings tree =>
        mergeFlattenedSettings settings (flattenSettings tree "" [])) S)).Nodup := by
  induction ps with
  | nil => intro S h; simpa using h
  | cons t rest ih =>
    intro S hS
    simp only [List.foldl_cons]
    exact ih _ (nodup_mergeFlattened _ _ hS)

theorem lookup_profile_fold (ps : List (List (String × CVal V))) (k : String) :
    ∀ S : Rec V, (recKeys S).Nodup →
    List.lookup k (ps.foldl
      (fun settings tree =>
        mergeFlattenedSettings settings (flattenSettings tree "" [])) S)
      = ps.foldl
          (fun acc tree =>
            match List.lookup k (flattenSettings tree "" []) with
            | some v => some v
            | none => acc) (List.lookup k S) := by
  induction ps with
  | nil => intro S _; simp
  | cons t rest ih =>
    intro S hS
    have hflat : (recKeys (flattenSettings t "" ([] : Rec V))).Nodup :=
      nodup_flattenSettings _ _ _ (by simp [recKeys])
    simp only [List.foldl_cons]
    rw [ih _ (nodup_mergeFlattened _ _ hS), lookup_merge_nodup _ _ _ hflat]

/-! ### Claim C1 — the inheritance diff is decided by key presence alone -/

/-- C1: `subtractSettings(parent, own)` returns exactly the key/value pairs
of `parent` whose key is absent from `own`; membership is decided by key
presence alone, never by comparing values, so a key present in `own` with
any value — including one equal to the parent's — is excluded. -/
theorem C1_diff_key_presence {V W : Type} (base : Rec V) (toRemove : Rec W)
    (h : (recKeys base).Nodup) :
    (∀ k v, (k, v) ∈ subtractSettings base toRemove ↔
      ((k, v) ∈ base ∧ containsKey toRemove k = false)) ∧
    subtractSettings [("a", (1 : ℕ)), ("b", 2)] [("a", (1 : ℕ))] = [("b", 2)] ∧
    subtractSettings [("a", (1 : ℕ))] [("a", (2 : ℕ))] = [] := by
  refine ⟨?_, by decide, by decide⟩
  intro k v
  rw [subtract_eq_filter base toRemove h, List.mem_filter]
  constructor
  · rintro ⟨hm, hp⟩
    exact ⟨hm, by simpa using hp⟩
  · rintro ⟨hm, hp⟩
    exact ⟨hm, by simpa using hp⟩

/-- Witness for C1 at a concrete input. -/
theorem C1_diff_key_presence_witness :
    (recKeys [(("a" : String), (1 : ℕ)), ("b", 2)]).Nodup ∧
    ((("b" : String), (2 : ℕ)) ∈
        subtractSettings [("a", (1 : ℕ)), ("b", 2)] [("a", (1 : ℕ))] ↔
      ((("b" : String), (2 : ℕ)) ∈ [(("a" : String), (1 : ℕ)), ("b", 2)] ∧
        containsKey [(("a" : String), (1 : ℕ))] "b" = false)) :=
  ⟨by decide, (C1_diff_key_presence _ _ (by decide)).1 "b" 2⟩

/-! ### Claim C4 — later profiles override earlier ones on merge -/

unseal flattenSettings in
theorem getProfileSettings_ex1 :
    List.lookup "two" (getProfileSettings
      [[("two", CVal.leaf (1 : ℕ))], [("two", CVal.leaf 2)]]) = some 2 := by
  decide

unseal flattenSettings in
theorem getProfileSettings_ex2 :
    List.lookup "two" (getProfileSettings
      [[("two", CVal.leaf (2 : ℕ))], [("two", CVal.leaf 1)]]) = some 1 := by
  decide

/-- C4: merging profile settings folds the flattened overlays
left-to-right, so for every key defined by more than one profile the
merged overlay holds the value from the profile appearing latest in the
list; in particular `[A, B]` with `A = {two: 1}`, `B = {two: 2}` yields
`two = 2` and `[B, A]` yields `two = 1`. -/
theorem C4_merge_order_last_wins :
    (∀ (V : Type) (profiles : List (List (String × CVal V))) (k : String),
      List.lookup k (getProfileSettings profiles)
        = profiles.foldl
            (fun acc tree =>
              match List.lookup k (flattenSettings tree "" []) with
              | some v => some v
              | none => acc) none) ∧
    List.lookup "two" (getProfileSettings
      [[("two", CVal.leaf (1 : ℕ))], [("two", CVal.leaf 2)]]) = some 2 ∧
    List.lookup "two" (getProfileSettings
      [[("two", CVal.leaf (2 : ℕ))], [("two", CVal.leaf 1)]]) = some 1 := by
  refine ⟨?_, getProfileSettings_ex1, getProfileSettings_ex2⟩
  intro V ps k
  have hnod : (recKeys (ps.foldl
      (fun settings tree =>
        mergeFlattenedSettings settings (flattenSettings tree "" [])) [])).Nodup :=
    nodup_profile_fold ps [] (by simp [recKeys])
  rw [getProfileSettings, flatten_map_leaf,
    foldl_recInsert_eq_append _ [] (by simpa [recKeys] using hnod)]
  simpa using lookup_profile_fold ps k [] (by simp [recKeys])

/-! ### Claim C2 — flattening: leaf count and dot-prefix freedom -/

/-- Number of leaf values (scalars and arrays) in a configuration tree. -/
def leafCountL : List (String × CVal α) → ℕ
  | [] => 0
  | (_, CVal.leaf _) :: rest => 1 + leafCountL rest
  | (_, CVal.node sub) :: rest => leafCountL sub + leafCountL rest

/-- A key contains no `'.'`. -/
def dotFree (s : String) : Bool := !s.data.contains '.'

/-- Well-formedness of a configuration tree's keys: every key (at every
level) is non-empty, dot-free, and unique within its level. -/
def goodKeys : List (String × CVal α) → Bool
  | [] => true
  | (k, CVal.leaf _) :: rest =>
      dotFree k && !(k == "") && !((rest.map Prod.fst).contains k) &&
      goodKeys rest
  | (k, CVal.node sub) :: rest =>
      dotFree k && !(k == "") && !((rest.map Prod.fst).contains k) &&
      goodKeys sub && goodKeys rest

/-- Accumulator-free flattening (proof companion of `flattenSettings`). -/
def flattenF : List (String × CVal α) → String → Rec α
  | [], _ => []
  | (k, CVal.leaf v) :: rest, p => (mkKey p k, v) :: flattenF rest p
  | (k, CVal.node sub) :: rest, p => flattenF sub (mkKey p k) ++ flattenF rest p

/-- Key paths of the leaves of a configuration tree. -/
def pathsL : List (String × CVal α) → List (List String)
  | [] => []
  | (k, CVal.leaf _) :: rest => [k] :: pathsL rest
  | (k, CVal.node sub) :: rest => (pathsL sub).map (k :: ·) ++ pathsL rest

/-- Dotted join of a non-empty key path. -/
def dotJoin : List String → String
  | [] => ""
  | [k] => k
  | k :: rest => k ++ "." ++ dotJoin rest

theorem flattenSettings_eq_foldF (es : List (String × CVal α)) (p : String)
    (res : Rec α) :
    flattenSettings es p res
      = (flattenF es p).foldl (fun acc kv => recInsert acc kv.1 kv.2) res := by
  induction es, p, res using flattenSettings.induct with
  | case1 p res => simp [flattenSettings, flattenF]
  | case2 key v rest p res ih =>
    rw [flattenSettings, flattenF, ih, List.foldl_cons]
  | case3 key sub rest p res ihsub ihrest =>
    rw [flattenSettings, flattenF, ihrest, ihsub, List.foldl_append]

theorem length_flattenF (es : List (String × CVal α)) (p : String) :
    (flattenF es p).length = leafCountL es := by
  induction es, p using flattenF.induct with
  | case1 _ => simp [flattenF, leafCountL]
  | case2 k v rest p ih =>
    simp only [flattenF, leafCountL, List.length_cons, ih]
    omega
  | case3 k sub rest p ihsub ihrest =>
    simp [flattenF, leafCountL, ihsub, ihrest]

theorem map_fst_flattenF (es : List (String × CVal α)) (p : String) :
    (flattenF es p).map Prod.fst
      = (pathsL es).map (fun path => path.foldl mkKey p) := by
  induction es, p using flattenF.induct with
  | case1 _ => simp [flattenF, pathsL]
  | case2 k v rest p ih =>
    simp only [flattenF, pathsL, List.map_cons, ih]
    rfl
  | case3 k sub rest p ihsub ihrest =>
    simp only [flattenF, pathsL, List.map_append, List.map_map, ihsub, ihrest]
    rfl

theorem length_pathsL (es : List (String × CVal α)) :
    (pathsL es).length = leafCountL es := by
  induction es using pathsL.induct with
  | case1 => simp [pathsL, leafCountL]
  | case2 k v rest ih =>
    simp only [pathsL, leafCountL, List.length_cons, ih]
    omega
  | case3 k sub rest ihsub ihrest => simp [pathsL, leafCountL, ihsub, ihrest]

/-- Splitting at the first dot: if `a` and `b` are dot-free and
`a ++ '.' :: x` is a prefix of `b ++ '.' :: y` then `a = b` and
`x` is a prefix of `y`. -/
theorem dot_split_prefix : ∀ (a b x y : List Char), '.' ∉ a → '.' ∉ b →
    (a ++ '.' :: x) <+: (b ++ '.' :: y) → a = b ∧ x <+: y := by
  intro a
  induction a with
  | nil =>
    intro b x y _ hb hp
    cases b with
    | nil =>
      simp only [List.nil_append, List.cons_prefix_cons] at hp
      exact ⟨rfl, hp.2⟩
    | cons c b' =>
      exfalso
      simp only [List.nil_append, List.cons_append, List.cons_prefix_cons] at hp
      exact hb (by rw [← hp.1]; exact List.mem_cons_self _ _)
  | cons c a' ih =>
    intro b x y ha hb hp
    cases b with
    | nil =>
      exfalso
      simp only [List.cons_append, List.nil_append, List.cons_prefix_cons] at hp
      exact ha (by rw [hp.1]; exact List.mem_cons_self _ _)
    | cons c' b' =>
      simp only [List.cons_append, List.cons_prefix_cons] at hp
      have ha' : '.' ∉ a' := fun hm => ha (List.mem_cons_of_mem _ hm)
      have hb' : '.' ∉ b' := fun hm => hb (List.mem_cons_of_mem _ hm)
      obtain ⟨he, hpre⟩ := ih b' x y ha' hb' hp.2
      exact ⟨by rw [hp.1, he], hpre⟩

theorem dot_split_eq (a b x y : List Char) (ha : '.' ∉ a) (hb : '.' ∉ b)
    (h : a ++ '.' :: x = b ++ '.' :: y) : a = b ∧ x = y := by
  have hp : (a ++ '.' :: x) <+: (b ++ '.' :: y) := h ▸ List.prefix_refl _
  obtain ⟨he, _⟩ := dot_split_prefix a b x y ha hb hp
  subst he
  have := List.append_cancel_left h
  exact ⟨rfl, by injection this⟩

theorem dotFree_iff (s : String) : dotFree s = true ↔ '.' ∉ s.data := by
  simp [dotFree]

theorem dotJoin_cons (k r : String) (t : List String) :
    dotJoin (k :: r :: t) = k ++ "." ++ dotJoin (r :: t) := rfl

theorem dotJoin_cons_data (k r : String) (t : List String) :
    (dotJoin (k :: r :: t)).data = k.data ++ '.' :: (dotJoin (r :: t)).data := by
  rw [dotJoin_cons, String.data_append, String.data_append]
  have hdot : ("." : String).data = ['.'] := rfl
  rw [hdot, List.append_assoc]
  rfl

theorem string_ne_empty_iff (s : String) : s ≠ "" ↔ s.data ≠ [] := by
  have : s = "" ↔ s.data = [] :=
    ⟨fun h => by rw [h], fun h => String.ext (by rw [h])⟩
  exact not_congr this

theorem mkKey_ne_empty (p k : String) (hk : k ≠ "") : mkKey p k ≠ "" := by
  rw [mkKey]
  by_cases hp : p = ""
  · rwa [if_pos hp]
  · rw [if_neg hp, string_ne_empty_iff, String.data_append, String.data_append]
    intro h
    have : ("." : String).data = [] := by
      have := List.append_eq_nil.mp h
      exact (List.append_eq_nil.mp this.1).2
    exact absurd this (by decide)

/-- Folding `mkKey` along a non-empty path of non-empty components is
prefixing the dotted join. -/
theorem foldl_mkKey_eq (path : List String) :
    path ≠ [] → (∀ k ∈ path, k ≠ "") → ∀ p : String,
    path.foldl mkKey p = if p = "" then dotJoin path else p ++ "." ++ dotJoin path := by
  induction path with
  | nil => intro h; exact absurd rfl h
  | cons k rest ih =>
    intro _ hcomp p
    cases rest with
    | nil =>
      simp only [List.foldl_cons, List.foldl_nil, dotJoin, mkKey]
    | cons r t =>
      have hk : k ≠ "" := hcomp k (List.mem_cons_self _ _)
      have hcomp' : ∀ k' ∈ r :: t, k' ≠ "" :=
        fun k' hm => hcomp k' (List.mem_cons_of_mem _ hm)
      have hmk : mkKey p k ≠ "" := mkKey_ne_empty p k hk
      rw [List.foldl_cons, ih (List.cons_ne_nil r t) hcomp' (mkKey p k),
        if_neg hmk, dotJoin_cons]
      by_cases hp : p = ""
      · rw [if_pos hp, mkKey, if_pos hp]
      · rw [if_neg hp, mkKey, if_neg hp]
        simp [String.append_assoc]

/-- `dotJoin` is injective on non-empty paths of dot-free, non-empty
components. -/
theorem dotJoin_inj : ∀ q r : List String, q ≠ [] → r ≠ [] →
    (∀ k ∈ q, dotFree k = true ∧ k ≠ "") →
    (∀ k ∈ r, dotFree k = true ∧ k ≠ "") →
    dotJoin q = dotJoin r → q = r := by
  intro q
  induction q with
  | nil => intro r h; exact absurd rfl h
  | cons k q' ih =>
    intro r _ hr hq hrc he
    cases r with
    | nil => exact absurd rfl hr
    | cons k' r' =>
      have hkdf : '.' ∉ k.data :=
        (dotFree_iff k).mp (hq k (List.mem_cons_self _ _)).1
      have hkdf' : '.' ∉ k'.data :=
        (dotFree_iff k').mp (hrc k' (List.mem_cons_self _ _)).1
      cases q' with
      | nil =>
        cases r' with
        | nil =>
          have : k = k' := by simpa [dotJoin] using he
          rw [this]
        | cons r1 t1 =>
          exfalso
          have hd : k.data = k'.data ++ '.' :: (dotJoin (r1 :: t1)).data := by
            rw [← dotJoin_cons_data]
            exact congrArg String.data (by simpa [dotJoin] using he)
          exact hkdf (hd ▸ List.mem_append_right _ (List.mem_cons_self _ _))
      | cons q1 tq =>
        cases r' with
        | nil =>
          exfalso
          have hd : k'.data = k.data ++ '.' :: (dotJoin (q1 :: tq)).data := by
            rw [← dotJoin_cons_data]
            exact congrArg String.data (by simpa [dotJoin] using he.symm)
          exact hkdf' (hd ▸ List.mem_append_right _ (List.mem_cons_self _ _))
        | cons r1 t1 =>
          have hd : k.data ++ '.' :: (dotJoin (q1 :: tq)).data
              = k'.data ++ '.' :: (dotJoin (r1 :: t1)).data := by
            rw [← dotJoin_cons_data, ← dotJoin_cons_data]
            exact congrArg String.data he
          obtain ⟨h1, h2⟩ := dot_split_eq _ _ _ _ hkdf hkdf' hd
          have hk : k = k' := String.ext h1
          have htail : dotJoin (q1 :: tq) = dotJoin (r1 :: t1) := String.ext h2
          have := ih (r1 :: t1) (List.cons_ne_nil _ _) (List.cons_ne_nil _ _)
            (fun x hm => hq x (List.mem_cons_of_mem _ hm))
            (fun x hm => hrc x (List.mem_cons_of_mem _ hm)) htail
          rw [hk, this]

/-- If the dotted join of `q` followed by a dot is a prefix of the dotted
join of `r` (components dot-free and non-empty), then `q` is a path prefix
of `r`. -/
theorem dotJoin_dot_prefix : ∀ q r : List String, q ≠ [] → r ≠ [] →
    (∀ k ∈ q, dotFree k = true ∧ k ≠ "") →
    (∀ k ∈ r, dotFree k = true ∧ k ≠ "") →
    ((dotJoin q).data ++ ['.']) <+: (dotJoin r).data → q <+: r := by
  intro q
  induction q with
  | nil => intro r h; exact absurd rfl h
  | cons k q' ih =>
    intro r _ hr hq hrc hp
    cases r with
    | nil => exact absurd rfl hr
    | cons k' r' =>
      have hkdf : '.' ∉ k.data :=
        (dotFree_iff k).mp (hq k (List.mem_cons_self _ _)).1
      have hkdf' : '.' ∉ k'.data :=
        (dotFree_iff k').mp (hrc k' (List.mem_cons_self _ _)).1
      cases q' with
      | nil =>
        cases r' with
        | nil =>
          exfalso
          have hp' : (k.data ++ ['.']) <+: k'.data := by
            simpa [dotJoin] using hp
          obtain ⟨t, ht⟩ := hp'
          exact hkdf' (by
            rw [← ht, List.append_assoc]
            exact List.mem_append_right _ (List.mem_append_left _ (by simp)))
        | cons r1 t1 =>
          have hp' : (k.data ++ '.' :: ([] : List Char))
              <+: (k'.data ++ '.' :: (dotJoin (r1 :: t1)).data) := by
            rw [← dotJoin_cons_data]
            simpa [dotJoin] using hp
          obtain ⟨h1, _⟩ := dot_split_prefix _ _ _ _ hkdf hkdf' hp'
          have : k = k' := String.ext h1
          rw [this, List.cons_prefix_cons]
          exact ⟨rfl, List.nil_prefix⟩
      | cons q1 tq =>
        cases r' with
        | nil =>
          exfalso
          have hd : ((dotJoin (k :: q1 :: tq)).data ++ ['.']) <+: k'.data := by
            simpa [dotJoin] using hp
          rw [dotJoin_cons_data] at hd
          obtain ⟨t, ht⟩ := hd
          exact hkdf' (by
            rw [← ht]
            exact List.mem_append_left _
              (List.mem_append_left _
                (List.mem_append_right _ (List.mem_cons_self _ _))))
        | cons r1 t1 =>
          have hp' : (k.data ++ '.' :: ((dotJoin (q1 :: tq)).data ++ ['.']))
              <+: (k'.data ++ '.' :: (dotJoin (r1 :: t1)).data) := by
            rw [← dotJoin_cons_data]
            have := hp
            rw [dotJoin_cons_data, List.append_assoc] at this
            exact this
          obtain ⟨h1, h2⟩ := dot_split_prefix _ _ _ _ hkdf hkdf' hp'
          have hk : k = k' := String.ext h1
          have := ih (r1 :: t1) (List.cons_ne_nil _ _) (List.cons_ne_nil _ _)
            (fun x hm => hq x (List.mem_cons_of_mem _ hm))
            (fun x hm => hrc x (List.mem_cons_of_mem _ hm)) h2
          rw [hk, List.cons_prefix_cons]
          exact ⟨rfl, this⟩

theorem goodKeys_cons {α : Type} (k : String) (v : CVal α)
    (rest : List (String × CVal α)) (h : goodKeys ((k, v) :: rest) = true) :
    dotFree k = true ∧ k ≠ "" ∧ k ∉ rest.map Prod.fst ∧
    (∀ sub, v = CVal.node sub → goodKeys sub = true) ∧ goodKeys rest = true := by
  cases v with
  | leaf a =>
    rw [goodKeys] at h
    simp only [Bool.and_eq_true, Bool.not_eq_true'] at h
    obtain ⟨⟨⟨h1, h2⟩, h3⟩, h5⟩ := h
    refine ⟨h1, by simpa using h2, ?_, ?_, h5⟩
    · intro hm
      have : (rest.map Prod.fst).contains k = true := by
        simpa [List.elem_iff] using hm
      rw [this] at h3
      exact Bool.noConfusion h3
    · intro sub hv
      exact absurd hv (by intro hv; exact CVal.noConfusion hv)
  | node sub =>
    rw [goodKeys] at h
    simp only [Bool.and_eq_true, Bool.not_eq_true'] at h
    obtain ⟨⟨⟨⟨h1, h2⟩, h3⟩, h4⟩, h5⟩ := h
    refine ⟨h1, by simpa using h2, ?_, ?_, h5⟩
    · intro hm
      have : (rest.map Prod.fst).contains k = true := by
        simpa [List.elem_iff] using hm
      rw [this] at h3
      exact Bool.noConfusion h3
    · intro sub' hv
      have : sub' = sub := by injection hv.symm
      rw [this]
      exact h4

theorem pathsL_head (es : List (String × CVal α)) :
    ∀ q ∈ pathsL es, ∃ k t, q = k :: t ∧ k ∈ es.map Prod.fst := by
  induction es using pathsL.induct with
  | case1 => intro q hq; rw [pathsL] at hq; exact absurd hq (List.not_mem_nil q)
  | case2 k v rest ih =>
    intro q hq
    rw [pathsL] at hq
    rcases List.mem_cons.mp hq with h | h
    · exact ⟨k, [], h, by simp⟩
    · obtain ⟨k', t, he, hm⟩ := ih q h
      exact ⟨k', t, he, by simp [hm]⟩
  | case3 k sub rest ihsub ihrest =>
    intro q hq
    rw [pathsL] at hq
    rcases List.mem_append.mp hq with h | h
    · obtain ⟨path, _, he⟩ := List.mem_map.mp h
      exact ⟨k, path, he.symm, by simp⟩
    · obtain ⟨k', t, he, hm⟩ := ihrest q h
      exact ⟨k', t, he, by simp [hm]⟩

theorem pathsL_comps_good (es : List (String × CVal α))
    (h : goodKeys es = true) :
    ∀ q ∈ pathsL es, ∀ k ∈ q, dotFree k = true ∧ k ≠ "" := by
  induction es using pathsL.induct with
  | case1 => intro q hq; rw [pathsL] at hq; exact absurd hq (List.not_mem_nil q)
  | case2 k v rest ih =>
    obtain ⟨h1, h2, _, _, h5⟩ := goodKeys_cons k _ rest h
    intro q hq x hx
    rw [pathsL] at hq
    rcases List.mem_cons.mp hq with hc | hc
    · subst hc
      have : x = k := by simpa using hx
      subst this
      exact ⟨h1, h2⟩
    · exact ih h5 q hc x hx
  | case3 k sub rest ihsub ihrest =>
    obtain ⟨h1, h2, _, h4, h5⟩ := goodKeys_cons k _ rest h
    intro q hq x hx
    rw [pathsL] at hq
    rcases List.mem_append.mp hq with hc | hc
    · obtain ⟨path, hpm, he⟩ := List.mem_map.mp hc
      subst he
      rcases List.mem_cons.mp hx with hx | hx
      · subst hx; exact ⟨h1, h2⟩
      · exact ihsub (h4 sub rfl) path hpm x hx
    · exact ihrest h5 q hc x hx

theorem pathsL_pairwise (es : List (String × CVal α))
    (h : goodKeys es = true) :
    (pathsL es).Pairwise (fun q r => ¬ q <+: r ∧ ¬ r <+: q) := by
  induction es using pathsL.induct with
  | case1 => rw [pathsL]; exact List.Pairwise.nil
  | case2 k v rest ih =>
    obtain ⟨_, _, h3, _, h5⟩ := goodKeys_cons k _ rest h
    rw [pathsL]
    refine List.Pairwise.cons ?_ (ih h5)
    intro r hr
    obtain ⟨k', t, he, hm⟩ := pathsL_head rest r hr
    subst he
    have hne : k ≠ k' := fun hk => h3 (hk ▸ hm)
    constructor
    · intro hp
      exact hne (List.cons_prefix_cons.mp hp).1
    · intro hp
      exact hne (List.cons_prefix_cons.mp hp).1.symm
  | case3 k sub rest ihsub ihrest =>
    obtain ⟨_, _, h3, h4, h5⟩ := goodKeys_cons k _ rest h
    rw [pathsL, List.pairwise_append]
    refine ⟨?_, ihrest h5, ?_⟩
    · rw [List.pairwise_map]
      refine (ihsub (h4 sub rfl)).imp ?_
      intro q r hqr
      constructor
      · intro hp
        exact hqr.1 (List.cons_prefix_cons.mp hp).2
      · intro hp
        exact hqr.2 (List.cons_prefix_cons.mp hp).2
    · intro a ha b hb
      obtain ⟨path, _, he⟩ := List.mem_map.mp ha
      subst he
      obtain ⟨k', t, he, hm⟩ := pathsL_head rest b hb
      subst he
      have hne : k ≠ k' := fun hk => h3 (hk ▸ hm)
      constructor
      · intro hp
        exact hne (List.cons_prefix_cons.mp hp).1
      · intro hp
        exact hne (List.cons_prefix_cons.mp hp).1.symm

theorem pathsL_nodup (es : List (String × CVal α)) (h : goodKeys es = true) :
    (pathsL es).Nodup := by
  refine (pathsL_pairwise es h).imp ?_
  intro q r hqr he
  exact hqr.1 (he ▸ List.prefix_refl q)

/-- Under `goodKeys`, the accumulator-based `flattenSettings` coincides
with the accumulator-free `flattenF`, and its keys are the dotted joins of
the leaf paths. -/
theorem flattenSettings_good (es : List (String × CVal α))
    (h : goodKeys es = true) :
    flattenSettings es "" [] = flattenF es "" ∧
    recKeys (flattenSettings es "" []) = (pathsL es).map dotJoin := by
  have hkeysF : (flattenF es "").map Prod.fst = (pathsL es).map dotJoin := by
    rw [map_fst_flattenF]
    refine List.map_congr_left ?_
    intro q hq
    obtain ⟨k, t, he, _⟩ := pathsL_head es q hq
    have hne : q ≠ [] := by rw [he]; exact List.cons_ne_nil _ _
    have hcomp : ∀ x ∈ q, x ≠ "" :=
      fun x hx => (pathsL_comps_good es h q hq x hx).2
    rw [foldl_mkKey_eq q hne hcomp "", if_pos rfl]
  have hnodup : ((flattenF es "").map Prod.fst).Nodup := by
    rw [hkeysF]
    refine List.Nodup.map_on ?_ (pathsL_nodup es h)
    intro q hq r hr he
    obtain ⟨_, _, heq, _⟩ := pathsL_head es q hq
    obtain ⟨_, _, her, _⟩ := pathsL_head es r hr
    exact dotJoin_inj q r (by rw [heq]; exact List.cons_ne_nil _ _)
      (by rw [her]; exact List.cons_ne_nil _ _)
      (pathsL_comps_good es h q hq) (pathsL_comps_good es h r hr) he
  have heq : flattenSettings es "" [] = flattenF es "" := by
    rw [flattenSettings_eq_foldF,
      foldl_recInsert_eq_append _ [] (by simpa [recKeys] using hnodup)]
    simp
  refine ⟨heq, ?_⟩
  rw [heq]
  exact hkeysF

/-! #### Claim C2 theorems -/

set_option maxRecDepth 4096 in
unseal flattenSettings in
theorem flatten_dot_key_example :
    flattenSettings [("a", CVal.leaf (1 : ℕ)), ("a.b", CVal.leaf 2)] "" []
      = [("a", 1), ("a.b", 2)] := by
  decide

/-- C2 counterexample: keys may themselves contain dots.  On the tree
`{"a": 1, "a.b": 2}` (a perfectly ordinary settings object — VS Code
settings files use dotted keys at the top level), `flattenSettings`
produces both `"a"` and `"a.b"`, and `"a" ++ "."` is a prefix of
`"a.b"` — so "no result key is a strict prefix (followed by a dot) of
another result key" fails as stated. -/
theorem C2_flatten_prefix_counterexample :
    flattenSettings [("a", CVal.leaf (1 : ℕ)), ("a.b", CVal.leaf 2)] "" []
      = [("a", 1), ("a.b", 2)] ∧
    "a" ∈ recKeys (flattenSettings [("a", CVal.leaf (1 : ℕ)), ("a.b", CVal.leaf 2)] "" []) ∧
    "a.b" ∈ recKeys (flattenSettings [("a", CVal.leaf (1 : ℕ)), ("a.b", CVal.leaf 2)] "" []) ∧
    ("a" ++ ".").data <+: ("a.b" : String).data := by
  refine ⟨flatten_dot_key_example, ?_, ?_, ?_⟩
  · rw [flatten_dot_key_example]; simp [recKeys]
  · rw [flatten_dot_key_example]; simp [recKeys]
  · decide

/-- C2 (amended): for every configuration tree whose keys are non-empty,
dot-free, and unique within each level, `flattenSettings` produces exactly
one entry per leaf value (so the key count equals the leaf count), and no
result key followed by a dot is a prefix of another result key. -/
theorem C2_flatten_count_and_prefix_free (es : List (String × CVal α))
    (h : goodKeys es = true) :
    (flattenSettings es "" []).length = leafCountL es ∧
    ∀ k1 ∈ recKeys (flattenSettings es "" []),
      ∀ k2 ∈ recKeys (flattenSettings es "" []),
        ¬ ((k1 ++ ".").data <+: k2.data) := by
  obtain ⟨heq, hkeys⟩ := flattenSettings_good es h
  constructor
  · rw [heq, length_flattenF]
  · intro k1 hk1 k2 hk2 hp
    rw [hkeys] at hk1 hk2
    obtain ⟨q, hq, he1⟩ := List.mem_map.mp hk1
    obtain ⟨r, hr, he2⟩ := List.mem_map.mp hk2
    subst he1; subst he2
    have hqne : q ≠ [] := by
      obtain ⟨_, _, he, _⟩ := pathsL_head es q hq
      rw [he]; exact List.cons_ne_nil _ _
    have hrne : r ≠ [] := by
      obtain ⟨_, _, he, _⟩ := pathsL_head es r hr
      rw [he]; exact List.cons_ne_nil _ _
    have hp' : ((dotJoin q).data ++ ['.']) <+: (dotJoin r).data := by
      have hd : (dotJoin q ++ ".").data = (dotJoin q).data ++ ['.'] := by
        rw [String.data_append]
      rw [← hd]
      exact hp
    have hqr : q <+: r :=
      dotJoin_dot_prefix q r hqne hrne
        (pathsL_comps_good es h q hq) (pathsL_comps_good es h r hr) hp'
    by_cases he : q = r
    · subst he
      have := hp'.length_le
      simp at this
    · exact ((pathsL_pairwise es h).forall
        (fun a b hab => ⟨hab.2, hab.1⟩) hq hr he).1 hqr

set_option maxRecDepth 4096 in
unseal goodKeys in
theorem goodKeys_concrete_check :
    goodKeys [("a", CVal.node [("b", CVal.leaf (1 : ℕ))]), ("c", CVal.leaf 2)] = true := by
  decide

/-- Witness for the amended C2 at a concrete well-formed tree. -/
theorem C2_flatten_count_and_prefix_free_witness :
    goodKeys [("a", CVal.node [("b", CVal.leaf (1 : ℕ))]), ("c", CVal.leaf 2)] = true ∧
    ((flattenSettings [("a", CVal.node [("b", CVal.leaf (1 : ℕ))]), ("c", CVal.leaf 2)] "" []).length
        = leafCountL [("a", CVal.node [("b", CVal.leaf (1 : ℕ))]), ("c", CVal.leaf 2)] ∧
      ∀ k1 ∈ recKeys (flattenSettings [("a", CVal.node [("b", CVal.leaf (1 : ℕ))]), ("c", CVal.leaf 2)] "" []),
        ∀ k2 ∈ recKeys (flattenSettings [("a", CVal.node [("b", CVal.leaf (1 : ℕ))]), ("c", CVal.leaf 2)] "" []),
          ¬ ((k1 ++ ".").data <+: k2.data)) :=
  ⟨goodKeys_concrete_check, C2_flatten_count_and_prefix_free _ goodKeys_concrete_check⟩

/-! ### Claim C9 — the guarded structural search terminates on cyclic
object graphs -/

/-- A JavaScript primitive (`typeof v !== "object"`, or `null`). -/
inductive JsPrim where
  | str (s : String)
  | num (n : Int)
  | bool (b : Bool)
  | null
deriving DecidableEq

/-- A JavaScript value: a primitive, or a reference to a heap node.
Object graphs (including cyclic ones) are spelled out as an explicit heap
so that the JS `Set`-of-identities guard can be embedded. -/
inductive JsVal where
  | prim (p : JsPrim)
  | ref (a : Nat)
deriving DecidableEq

/-- A heap node: a plain object (ordered fields) or an array. -/
inductive HNode where
  | obj (fields : List (String × JsVal))
  | arr (items : List JsVal)

abbrev Heap := List HNode

/-- JS strict equality `x === v` between a property value and a primitive
(an object reference is never `===` a primitive). -/
def valEqPrim : JsVal → JsPrim → Bool
  | JsVal.prim p, q => p == q
  | JsVal.ref _, _ => false

/-- `Object.prototype.hasOwnProperty.call(node, key) && node[key] === value`
for an object node. -/
def objHit (fields : List (String × JsVal)) (key : String)
    (value : JsPrim) : Bool :=
  match List.lookup key fields with
  | some v => valEqPrim v value
  | none => false

mutual
/-- Depth-fuelled embedding of the inner `dfs` of `findByKeyValuePair`:
a primitive yields nothing; an already-`seen` node yields nothing; a fresh
object node is added to `seen`, checked with `objHit`, and otherwise its
property values (or array items) are searched in order, with the one
shared `seen` set threaded through the whole search exactly as the JS
`Set` is. -/
def dfsNode (heap : Heap) (key : String) (value : JsPrim) :
    Nat → JsVal → List Nat → Option Nat × List Nat
  | 0, _, seen => (none, seen)
  | _ + 1, JsVal.prim _, seen => (none, seen)
  | fuel + 1, JsVal.ref a, seen =>
    if a ∈ seen then (none, seen)
    else
      match heap.get? a with
      | none => (none, a :: seen)
      | some (HNode.obj fields) =>
          if objHit fields key value then (some a, a :: seen)
          else dfsNode.goList heap key value fuel (fields.map Prod.snd) (a :: seen)
      | some (HNode.arr items) =>
          dfsNode.goList heap key value fuel items (a :: seen)
termination_by fuel node seen => (fuel, 0)

/-- Sequential search over a node's children, threading `seen`. -/
def dfsNode.goList (heap : Heap) (key : String) (value : JsPrim) :
    Nat → List JsVal → List Nat → Option Nat × List Nat
  | _, [], seen => (none, seen)
  | fuel, x :: xs, seen =>
    match dfsNode heap key value fuel x seen with
    | (some r, seen') => (some r, seen')
    | (none, seen') => dfsNode.goList heap key value fuel xs seen'
termination_by fuel l seen => (fuel, l.length + 1)
end

/-- `findByKeyValuePair(input, key, value)`: run the guarded DFS with a
fresh `seen` set.  The runtime function carries no fuel — its termination
is exactly what claim C9 asserts — so the embedding passes
`heap.length + 1` and `C9_search_terminates` proves the result is the
same for every fuel at least that bound. -/
def findByKeyValuePair (heap : Heap) (input : JsVal) (key : String)
    (value : JsPrim) : Option Nat :=
  (dfsNode heap key value (heap.length + 1) input []).1

/-- Heap addresses not yet visited. -/
def unvisited (heap : Heap) (seen : List Nat) : Nat :=
  ((Finset.range heap.length).filter (fun a => a ∉ seen)).card

theorem unvisited_le (heap : Heap) (seen : List Nat) :
    unvisited heap seen ≤ heap.length := by
  calc ((Finset.range heap.length).filter (fun a => a ∉ seen)).card
      ≤ (Finset.range heap.length).card := Finset.card_filter_le _ _
    _ = heap.length := Finset.card_range _

theorem unvisited_cons (heap : Heap) (seen : List Nat) (a : Nat)
    (ha : a < heap.length) (hn : a ∉ seen) :
    unvisited heap (a :: seen) + 1 = unvisited heap seen := by
  have h1 : (Finset.range heap.length).filter (fun x => x ∉ a :: seen)
      = ((Finset.range heap.length).filter (fun x => x ∉ seen)).erase a := by
    ext x
    simp only [Finset.mem_filter, Finset.mem_erase, Finset.mem_range,
      List.mem_cons, not_or]
    tauto
  have hmem : a ∈ (Finset.range heap.length).filter (fun x => x ∉ seen) := by
    simp [Finset.mem_filter, Finset.mem_range, ha, hn]
  rw [unvisited, unvisited, h1, Finset.card_erase_of_mem hmem]
  have := Finset.card_pos.mpr ⟨a, hmem⟩
  omega

theorem unvisited_append (heap : Heap) (pre seen : List Nat) :
    unvisited heap (pre ++ seen) ≤ unvisited heap seen := by
  apply Finset.card_le_card
  intro x hx
  simp only [Finset.mem_filter, Finset.mem_range] at hx ⊢
  exact ⟨hx.1, fun hm => hx.2 (List.mem_append_right _ hm)⟩

theorem dfs_seen_mono (heap : Heap) (key : String) (value : JsPrim) :
    ∀ fuel : Nat,
    (∀ node seen, ∃ pre,
        (dfsNode heap key value fuel node seen).2 = pre ++ seen) ∧
    (∀ l seen, ∃ pre,
        (dfsNode.goList heap key value fuel l seen).2 = pre ++ seen) := by
  intro fuel
  induction fuel with
  | zero =>
    constructor
    · intro node seen
      exact ⟨[], by simp [dfsNode]⟩
    · intro l seen
      induction l generalizing seen with
      | nil => exact ⟨[], by simp [dfsNode.goList]⟩
      | cons x xs ih =>
        rw [dfsNode.goList, dfsNode]
        exact ih seen
  | succ f ihf =>
    have hnode : ∀ node seen, ∃ pre,
        (dfsNode heap key value (f + 1) node seen).2 = pre ++ seen := by
      intro node seen
      match node with
      | JsVal.prim p => exact ⟨[], by simp [dfsNode]⟩
      | JsVal.ref a =>
        rw [dfsNode]
        by_cases hs : a ∈ seen
        · rw [if_pos hs]; exact ⟨[], rfl⟩
        · rw [if_neg hs]
          match hga : heap.get? a with
          | none => exact ⟨[a], rfl⟩
          | some (HNode.obj fields) =>
            dsimp only
            by_cases hf : objHit fields key value = true
            · rw [if_pos hf]
              exact ⟨[a], rfl⟩
            · rw [if_neg hf]
              obtain ⟨pre, hp⟩ := (ihf).2 (fields.map Prod.snd) (a :: seen)
              exact ⟨pre ++ [a], by rw [hp, List.append_assoc]; rfl⟩
          | some (HNode.arr items) =>
            obtain ⟨pre, hp⟩ := (ihf).2 items (a :: seen)
            exact ⟨pre ++ [a], by rw [hp, List.append_assoc]; rfl⟩
    refine ⟨hnode, ?_⟩
    intro l
    induction l with
    | nil => intro seen; exact ⟨[], by simp [dfsNode.goList]⟩
    | cons x xs ih =>
      intro seen
      rw [dfsNode.goList]
      obtain ⟨pre1, hp1⟩ := hnode x seen
      match hres : dfsNode heap key value (f + 1) x seen with
      | (some r, seen2) =>
        refine ⟨pre1, ?_⟩
        rw [hres] at hp1
        exact hp1
      | (none, seen2) =>
        obtain ⟨pre2, hp2⟩ := ih seen2
        rw [hres] at hp1
        exact ⟨pre2 ++ pre1, by
          simp only at hp1
          rw [hp2, hp1, List.append_assoc]⟩

theorem dfs_stable (heap : Heap) (key : String) (value : JsPrim) :
    ∀ fuel : Nat,
    (∀ node seen, unvisited heap seen < fuel →
        dfsNode heap key value fuel node seen
          = dfsNode heap key value (fuel + 1) node seen) ∧
    (∀ l seen, unvisited heap seen < fuel →
        dfsNode.goList heap key value fuel l seen
          = dfsNode.goList heap key value (fuel + 1) l seen) := by
  intro fuel
  induction fuel with
  | zero =>
    constructor
    · intro node seen h; exact absurd h (Nat.not_lt_zero _)
    · intro l seen h; exact absurd h (Nat.not_lt_zero _)
  | succ f ihf =>
    have hnode : ∀ node seen, unvisited heap seen < f + 1 →
        dfsNode heap key value (f + 1) node seen
          = dfsNode heap key value (f + 2) node seen := by
      intro node seen hu
      match node with
      | JsVal.prim p => rw [dfsNode, dfsNode]
      | JsVal.ref a =>
        rw [dfsNode, dfsNode]
        by_cases hs : a ∈ seen
        · rw [if_pos hs, if_pos hs]
        · rw [if_neg hs, if_neg hs]
          match hga : heap.get? a with
          | none => rfl
          | some (HNode.obj fields) =>
            dsimp only
            obtain ⟨ha, _⟩ := List.get?_eq_some.mp hga
            have hu' : unvisited heap (a :: seen) < f := by
              have := unvisited_cons heap seen a ha hs
              omega
            by_cases hf : objHit fields key value = true
            · rw [if_pos hf, if_pos hf]
            · rw [if_neg hf, if_neg hf]
              exact ihf.2 _ _ hu'
          | some (HNode.arr items) =>
            dsimp only
            obtain ⟨ha, _⟩ := List.get?_eq_some.mp hga
            have hu' : unvisited heap (a :: seen) < f := by
              have := unvisited_cons heap seen a ha hs
              omega
            exact ihf.2 _ _ hu'
    refine ⟨hnode, ?_⟩
    intro l
    induction l with
    | nil => intro seen _; rw [dfsNode.goList, dfsNode.goList]
    | cons x xs ih =>
      intro seen hu
      rw [dfsNode.goList, dfsNode.goList, ← hnode x seen hu]
      match hres : dfsNode heap key value (f + 1) x seen with
      | (some r, seen2) => rfl
      | (none, seen2) =>
        dsimp only
        obtain ⟨pre, hp⟩ := (dfs_seen_mono heap key value (f + 1)).1 x seen
        rw [hres] at hp
        simp only at hp
        have hle : unvisited heap seen2 ≤ unvisited heap seen := by
          rw [hp]
          exact unvisited_append heap pre seen
        exact ih seen2 (lt_of_le_of_lt hle hu)

theorem dfs_seen_nodup (heap : Heap) (key : String) (value : JsPrim) :
    ∀ fuel : Nat,
    (∀ node seen, seen.Nodup →
        ((dfsNode heap key value fuel node seen).2).Nodup) ∧
    (∀ l seen, seen.Nodup →
        ((dfsNode.goList heap key value fuel l seen).2).Nodup) := by
  intro fuel
  induction fuel with
  | zero =>
    constructor
    · intro node seen h
      rw [dfsNode]; exact h
    · intro l seen h
      induction l generalizing seen with
      | nil => rw [dfsNode.goList]; exact h
      | cons x xs ih =>
        rw [dfsNode.goList, dfsNode]
        exact ih seen h
  | succ f ihf =>
    have hnode : ∀ node seen, seen.Nodup →
        ((dfsNode heap key value (f + 1) node seen).2).Nodup := by
      intro node seen h
      match node with
      | JsVal.prim p => rw [dfsNode]; exact h
      | JsVal.ref a =>
        rw [dfsNode]
        by_cases hs : a ∈ seen
        · rw [if_pos hs]; exact h
        · rw [if_neg hs]
          have hcons : (a :: seen).Nodup := List.nodup_cons.mpr ⟨hs, h⟩
          match hga : heap.get? a with
          | none => exact hcons
          | some (HNode.obj fields) =>
            dsimp only
            by_cases hf : objHit fields key value = true
            · rw [if_pos hf]; exact hcons
            · rw [if_neg hf]
              exact ihf.2 _ _ hcons
          | some (HNode.arr items) =>
            exact ihf.2 _ _ hcons
    refine ⟨hnode, ?_⟩
    intro l
    induction l with
    | nil => intro seen h; rw [dfsNode.goList]; exact h
    | cons x xs ih =>
      intro seen h
      rw [dfsNode.goList]
      have hn := hnode x seen h
      match hres : dfsNode heap key value (f + 1) x seen with
      | (some r, seen2) =>
        rw [hres] at hn
        exact hn
      | (none, seen2) =>
        rw [hres] at hn
        exact ih seen2 hn

theorem dfsNode_fuel_ge (heap : Heap) (key : String) (value : JsPrim)
    (node : JsVal) (fuel : Nat) (h : heap.length + 1 ≤ fuel) :
    dfsNode heap key value fuel node []
      = dfsNode heap key value (heap.length + 1) node [] := by
  induction fuel, h using Nat.le_induction with
  | base => rfl
  | succ n hn ih =>
    have hu : unvisited heap [] < n :=
      lt_of_le_of_lt (unvisited_le heap []) (by omega)
    rw [← (dfs_stable heap key value n).1 node [] hu]
    exact ih

/-! #### Claim C9 theorem -/

/-- C9: the structural search of `findByKeyValuePair` terminates on every
input object graph, including cyclic ones, because the shared `seen` set
never lets it revisit an object node: a recursion depth of
`heap.length + 1` can never be exhausted, so the fuelled embedding
computes the same answer for every fuel of at least that bound (the
shallow-embedding statement of termination), and the visited set never
holds a node twice. -/
theorem C9_search_terminates (heap : Heap) (input : JsVal) (key : String)
    (value : JsPrim) (fuel : Nat) (h : heap.length + 1 ≤ fuel) :
    (dfsNode heap key value fuel input []).1
        = findByKeyValuePair heap input key value ∧
    ((dfsNode heap key value fuel input []).2).Nodup := by
  constructor
  · rw [findByKeyValuePair, dfsNode_fuel_ge heap key value input fuel h]
  · exact (dfs_seen_nodup heap key value fuel).1 input [] List.nodup_nil

/-- Witness for C9 on a concrete cyclic heap (an object whose `self`
property points back at itself). -/
theorem C9_search_terminates_witness :
    ([HNode.obj [("self", JsVal.ref 0)]] : Heap).length + 1 ≤ 7 ∧
    ((dfsNode [HNode.obj [("self", JsVal.ref 0)]] "x" JsPrim.null 7
        (JsVal.ref 0) []).1
      = findByKeyValuePair [HNode.obj [("self", JsVal.ref 0)]]
          (JsVal.ref 0) "x" JsPrim.null ∧
      ((dfsNode [HNode.obj [("self", JsVal.ref 0)]] "x" JsPrim.null 7
          (JsVal.ref 0) []).2).Nodup) :=
  ⟨by decide, C9_search_terminates _ _ _ _ 7 (by decide)⟩

/-! ### The JSONC lexical scanner and block splicer

Raw document text is a `List Char`.  The two scanning loops of the source
(`getLastMeaningfulCharacterIndex` and the one inside
`removeTrailingComma`) are embedded as one character-at-a-time state
machine: the loops' one-character lookahead (`//`, `/*`, `*/`) becomes
the `slash` / `blockStar` modes, and the jump over a `//` comment to the
next newline becomes the `line` mode.  The `marks` field is a proof-side
ghost (the ordered list of every meaningful index); the `last2` / `last`
fields are exactly the source's `secondToLastMeaningfulIndex` /
`lastMeaningfulIndex` variables (`none` for `-1`). -/

/-- Raw document text. -/
abbrev Str := List Char

/-- Embed a Lean string literal as raw text. -/
def str (s : String) : Str := s.data

/-- JS `\s` (as used by `/\s/.test`, `trim`, and `trimEnd`): the
WhiteSpace and LineTerminator code points. -/
def jsIsSpace (c : Char) : Bool :=
  c.toNat = 0x20 || c.toNat = 0x09 || c.toNat = 0x0a || c.toNat = 0x0d ||
  c.toNat = 0x0b || c.toNat = 0x0c || c.toNat = 0xa0 || c.toNat = 0x1680 ||
  (0x2000 <= c.toNat && c.toNat <= 0x200a) || c.toNat = 0x2028 ||
  c.toNat = 0x2029 || c.toNat = 0x202f || c.toNat = 0x205f ||
  c.toNat = 0x3000 || c.toNat = 0xfeff

inductive ScanMode where
  /-- default scanning state -/
  | normal
  /-- just saw a `'/'` (at index `p`) in the default state -/
  | slash (p : Nat)
  /-- inside a `//` comment -/
  | line
  /-- inside a `/* */` comment -/
  | block
  /-- inside a block comment, just saw `'*'` -/
  | blockStar
  /-- inside a string with quote `q`; `pb` records whether the previous
  character was a backslash -/
  | strLit (q : Char) (pb : Bool)
deriving DecidableEq

structure ScanState where
  mode : ScanMode
  i : Nat
  last2 : Option Nat
  last : Option Nat
  marks : List Nat
deriving DecidableEq

def initScan : ScanState := ⟨ScanMode.normal, 0, none, none, []⟩

/-- Record index `j` as meaningful. -/
def mark (s : ScanState) (j : Nat) : ScanState :=
  { s with last2 := s.last, last := some j, marks := s.marks ++ [j] }

def scanStep (s : ScanState) (c : Char) : ScanState :=
  let i := s.i
  let next :=
    match s.mode with
    | ScanMode.normal =>
        if c = '/' then { s with mode := ScanMode.slash i }
        else if c = '"' || c = '\'' then
          { mark s i with mode := ScanMode.strLit c false }
        else if jsIsSpace c then s
        else mark s i
    | ScanMode.slash p =>
        if c = '/' then { s with mode := ScanMode.line }
        else if c = '*' then { s with mode := ScanMode.block }
        else
          let s1 := { mark s p with mode := ScanMode.normal }
          if c = '"' || c = '\'' then
            { mark s1 i with mode := ScanMode.strLit c false }
          else if jsIsSpace c then s1
          else mark s1 i
    | ScanMode.line => if c = '\n' then { s with mode := ScanMode.normal } else s
    | ScanMode.block =>
        if c = '*' then { s with mode := ScanMode.blockStar } else s
    | ScanMode.blockStar =>
        if c = '/' then { s with mode := ScanMode.normal }
        else if c = '*' then s
        else { s with mode := ScanMode.block }
    | ScanMode.strLit q pb =>
        let s1 := mark s i
        if c = q && !pb then { s1 with mode := ScanMode.normal }
        else { s1 with mode := ScanMode.strLit q (c = '\\') }
  { next with i := i + 1 }

def rawScan (t : Str) : ScanState := t.foldl scanStep initScan

/-- End of input: a pending lone `'/'` is meaningful (the source marks it
in the loop; the lookahead-free machine resolves it here). -/
def finalizeScan (s : ScanState) : ScanState :=
  match s.mode with
  | ScanMode.slash p => { mark s p with mode := ScanMode.normal }
  | _ => s

def scanOf (t : Str) : ScanState := finalizeScan (rawScan t)

/-- `getLastMeaningfulCharacterIndex(text)` (`none` for `-1`). -/
def getLastMeaningfulCharacterIndex (t : Str) : Option Nat := (scanOf t).last

/-- `removeTrailingComma(text)`. -/
def removeTrailingComma (t : Str) : Str :=
  let st := scanOf t
  match st.last with
  | none => t
  | some li =>
    let lastMeaningfulChar := t.getD li ' '
    if lastMeaningfulChar = ',' then t.take li ++ t.drop (li + 1)
    else if lastMeaningfulChar = '}' ∨ lastMeaningfulChar = ']' then
      match st.last2 with
      | some si =>
          if t.getD si ' ' = ',' then t.take si ++ t.drop (si + 1) else t
      | none => t
    else t

/-- JS `trimEnd()`. -/
def jsTrimEnd (t : Str) : Str := (t.reverse.dropWhile jsIsSpace).reverse

/-- JS `trim()`. -/
def jsTrim (t : Str) : Str :=
  ((t.dropWhile jsIsSpace).reverse.dropWhile jsIsSpace).reverse

/-- JS `s.replace(/\s*$/, "\n")` (used by `insertBeforeClose`). -/
def replaceTrailingWsWithNewline (t : Str) : Str := jsTrimEnd t ++ ['\n']

/-- Helper of `strIndexOf`: first position (counting from `q`) where
`pat` occurs. -/
def indexOfAux (pat : Str) : Str → Nat → Option Nat
  | [], q => if pat.isPrefixOf ([] : Str) then some q else none
  | c :: rest, q =>
    if pat.isPrefixOf (c :: rest) then some q
    else indexOfAux pat rest (q + 1)

/-- JS `text.indexOf(pat)` (`none` for `-1`). -/
def strIndexOf (t pat : Str) : Option Nat := indexOfAux pat t 0

/-- JS `text.lastIndexOf(c)` for a single character (`none` for `-1`). -/
def lastIndexOfChar : Str → Char → Option Nat
  | [], _ => none
  | x :: rest, c =>
    match lastIndexOfChar rest c with
    | some j => some (j + 1)
    | none => if x = c then some 0 else none

/-- JS `raw.split(/\r?\n/)`. -/
def splitLines : Str → List Str
  | [] => [[]]
  | '\r' :: '\n' :: rest => [] :: splitLines rest
  | '\n' :: rest => [] :: splitLines rest
  | c :: rest =>
    match splitLines rest with
    | [] => [[c]]
    | l :: ls => (c :: l) :: ls

/-- Length of the leading space run of a line. -/
def leadingSpaces : Str → Nat
  | ' ' :: rest => leadingSpaces rest + 1
  | _ => 0

/-- Scan lines for the first non-blank one starting with a space or tab:
the regex `^( +|\t+)` on a line whose `trim()` is non-empty. -/
def findTabGo : List Str → Str
  | [] => str "    "
  | line :: rest =>
    if jsTrim line = [] then findTabGo rest
    else
      match line with
      | [] => findTabGo rest
      | c :: _ =>
        if c = '\t' then ['\t']
        else if c = ' ' then List.replicate (leadingSpaces line) ' '
        else findTabGo rest

/-- `findTabValue(raw)`: detect the indentation unit; fall back to four
spaces. -/
def findTabValue (raw : Str) : Str := findTabGo (splitLines raw)

def INHERITED_SETTINGS_START_MARKER : Str :=
  str "// --- INHERITED SETTINGS MARKER START --- //"
def INHERITED_SETTINGS_END_MARKER : Str :=
  str "// --- INHERITED SETTINGS MARKER END --- //"
def WARNING_COMMENT : Str :=
  str "// WARNING: Do not remove the inherited settings start and end markers."
def WARNING_EXPLAIN : Str :=
  str "//          The markers are used to identify inserted inherited settings."

/-- Pure text core of `removeInheritedSettingsFromFile`: the rewritten
document together with whether a warning was logged.  The early-return
branches leave the file byte-unchanged; the main branch deletes from the
start marker through the end marker inclusive, trims both sides, removes
a trailing comma, guarantees a final `}`, and appends a newline. -/
def removeInheritedSettingsFromFile (raw : Str) : Str × Bool :=
  let startIndex := strIndexOf raw INHERITED_SETTINGS_START_MARKER
  let endIndex := strIndexOf raw INHERITED_SETTINGS_END_MARKER
  match startIndex, endIndex with
  | some s, some e =>
    if e < s then (raw, true)
    else
      let before := raw.take s
      let after := raw.drop (e + INHERITED_SETTINGS_END_MARKER.length)
      let cleaned := removeTrailingComma (jsTrimEnd before ++ jsTrimEnd after)
      let ensured :=
        if (['}'] : Str).isSuffixOf cleaned then cleaned
        else cleaned ++ str "\n\x7d"
      (ensured ++ ['\n'], false)
  | none, none => (raw, false)
  | _, _ => (raw, true)

/-- `splitRawSettingsByClosingBrace(raw)`. -/
def splitRawSettingsByClosingBrace (raw : Str) : Str × Str :=
  match lastIndexOfChar raw '}' with
  | none => (str "\x7b\n", str "\x7d\n")
  | some closingIndex => (raw.take closingIndex, raw.drop closingIndex)

/-- `buildInheritedSettingsBlock(flattened, tab)`.  Each entry value is
taken pre-rendered (the `JSON.stringify(value)` output), since the
splicer treats it as opaque text. -/
def buildInheritedSettingsBlock (flattened : List (Str × Str)) (tab : Str) : Str :=
  let entries :=
    List.intercalate (str ",\n")
      (flattened.map (fun kv => tab ++ ['"'] ++ kv.1 ++ str "\": " ++ kv.2))
  tab ++ INHERITED_SETTINGS_START_MARKER ++ ['\n'] ++
  tab ++ WARNING_COMMENT ++ ['\n'] ++
  tab ++ WARNING_EXPLAIN ++ ['\n'] ++
  entries ++ (if entries.isEmpty then [] else ['\n']) ++
  tab ++ INHERITED_SETTINGS_END_MARKER ++ ['\n']

/-- `insertBeforeClose(beforeClose, block)`. -/
def insertBeforeClose (beforeClose block : Str) : Str :=
  match getLastMeaningfulCharacterIndex beforeClose with
  | none => replaceTrailingWsWithNewline beforeClose ++ block
  | some m =>
    let meaningfulChar := beforeClose.getD m ' '
    let needsComma := beforeClose.any (fun c => !jsIsSpace c)
        && !(meaningfulChar = '{' : Bool) && !(meaningfulChar = ',' : Bool)
    if needsComma then
      beforeClose.take (m + 1) ++ [','] ++
        replaceTrailingWsWithNewline (beforeClose.drop (m + 1)) ++ block
    else replaceTrailingWsWithNewline beforeClose ++ block

/-- Pure text core of `writeInheritedSettings`: no-op on an empty
overlay, else split at the last closing brace, sniff the indentation,
render the block, and splice it in. -/
def writeInheritedSettings (raw : Str) (flattened : List (Str × Str)) : Str :=
  if flattened.isEmpty then raw
  else
    let parts := splitRawSettingsByClosingBrace raw
    let tab := findTabValue raw
    let block := buildInheritedSettingsBlock flattened tab
    insertBeforeClose parts.1 block ++ parts.2

/-- The remove-then-insert sequence of `applyInheritedSettings` on a
document's text. -/
def applyInheritedSettingsToText (raw : Str) (flattened : List (Str × Str)) : Str :=
  writeInheritedSettings (removeInheritedSettingsFromFile raw).1 flattened

/-! ### Scanner invariants -/

theorem getLast?_mem' {l : List Nat} {a : Nat} (h : l.getLast? = some a) :
    a ∈ l := by
  have hm : a ∈ l.getLast? := by rw [h]; rfl
  obtain ⟨h1, h2⟩ := List.mem_getLast?_eq_getLast hm
  rw [h2]
  exact List.getLast_mem h1

theorem getD_mem' {l : Str} {n : Nat} {d : Char} (h : n < l.length) :
    l.getD n d ∈ l := by
  rw [List.getD_eq_getElem?_getD, List.getElem?_eq_getElem h]
  exact List.getElem_mem h

theorem chain_append_lt (l : List Nat) (j : Nat) (hc : l.Chain' (· < ·))
    (hj : ∀ x ∈ l, x < j) : (l ++ [j]).Chain' (· < ·) := by
  rw [List.chain'_append]
  refine ⟨hc, List.chain'_singleton j, ?_⟩
  intro x hx y hy
  obtain rfl := (by simpa using hy : j = y)
  exact hj x (getLast?_mem' hx)

/-- The joint structural invariant of the scanner state: `marks` is the
increasing list of meaningful indices below `i`, `last` / `last2` are its
last two entries, a pending slash sits below `i` and above every mark,
and string mode only ever holds a quote character. -/
def ScanInv (s : ScanState) : Prop :=
  (∀ j ∈ s.marks, j < s.i) ∧
  s.last = s.marks.getLast? ∧
  s.last2 = s.marks.dropLast.getLast? ∧
  s.marks.Chain' (· < ·) ∧
  (∀ p, s.mode = ScanMode.slash p → p < s.i ∧ ∀ j ∈ s.marks, j < p) ∧
  (∀ q pb, s.mode = ScanMode.strLit q pb → q = '"' ∨ q = '\'')

theorem scanInv_init : ScanInv initScan := by
  refine ⟨?_, rfl, rfl, List.chain'_nil, ?_, ?_⟩
  · intro j hj; exact absurd hj (List.not_mem_nil j)
  · intro p hp; exact ScanMode.noConfusion hp
  · intro q pb hp; exact ScanMode.noConfusion hp

/-- The four mark/mode facts preserved by appending a fresh top mark. -/
theorem mark_facts (s : ScanState) (j : Nat)
    (h1 : ∀ x ∈ s.marks, x < s.i) (h2 : s.last = s.marks.getLast?)
    (h3 : s.last2 = s.marks.dropLast.getLast?)
    (h4 : s.marks.Chain' (· < ·)) (hj : ∀ x ∈ s.marks, x < j) :
    (mark s j).last = (mark s j).marks.getLast? ∧
    (mark s j).last2 = (mark s j).marks.dropLast.getLast? ∧
    (mark s j).marks.Chain' (· < ·) ∧
    (∀ x ∈ (mark s j).marks, x ∈ s.marks ∨ x = j) := by
  refine ⟨?_, ?_, ?_, ?_⟩
  · show some j = (s.marks ++ [j]).getLast?
    rw [List.getLast?_concat]
  · show s.last = (s.marks ++ [j]).dropLast.getLast?
    rw [List.dropLast_concat]
    exact h2
  · exact chain_append_lt s.marks j h4 hj
  · intro x hx
    rcases List.mem_append.mp hx with h | h
    · exact Or.inl h
    · exact Or.inr (by simpa using h)

theorem scanStep_i (s : ScanState) (c : Char) : (scanStep s c).i = s.i + 1 := rfl

theorem scanStep_inv (s : ScanState) (c : Char) (h : ScanInv s) :
    ScanInv (scanStep s c) := by
  obtain ⟨h1, h2, h3, h4, h5, h6⟩ := h
  have hstep : (scanStep s c).i = s.i + 1 := scanStep_i s c
  cases hm : s.mode with
  | normal =>
    rw [scanStep, hm]
    dsimp only
    by_cases hc1 : c = '/'
    · rw [if_pos hc1]
      refine ⟨?_, h2, h3, h4, ?_, ?_⟩
      · intro j hj; exact Nat.lt_succ_of_lt (h1 j hj)
      · intro p hp
        have : ScanMode.slash s.i = ScanMode.slash p := hp
        have hpi : p = s.i := by injection this.symm
        subst hpi
        exact ⟨Nat.lt_succ_self _, h1⟩
      · intro q pb hp; exact ScanMode.noConfusion hp
    · rw [if_neg hc1]
      by_cases hc2 : (c = '"' || c = '\'') = true
      · rw [if_pos hc2]
        obtain ⟨m1, m2, m3, m4⟩ := mark_facts s s.i h1 h2 h3 h4 h1
        refine ⟨?_, m1, m2, m3, ?_, ?_⟩
        · intro j hj
          rcases m4 j hj with hj' | hj'
          · exact Nat.lt_succ_of_lt (h1 j hj')
          · rw [hj']; exact Nat.lt_succ_self _
        · intro p hp; exact ScanMode.noConfusion hp
        · intro q pb hp
          have hq : q = c := by injection hp.symm
          subst hq
          simpa using hc2
      · rw [if_neg hc2]
        by_cases hc3 : jsIsSpace c = true
        · rw [if_pos hc3]
          refine ⟨?_, h2, h3, h4, ?_, ?_⟩
          · intro j hj; exact Nat.lt_succ_of_lt (h1 j hj)
          · intro p hp
            have hp2 : s.mode = ScanMode.slash p := hp
            rw [hm] at hp2
            exact ScanMode.noConfusion hp2
          · intro q pb hp
            have hp2 : s.mode = ScanMode.strLit q pb := hp
            rw [hm] at hp2
            exact ScanMode.noConfusion hp2
        · rw [if_neg hc3]
          obtain ⟨m1, m2, m3, m4⟩ := mark_facts s s.i h1 h2 h3 h4 h1
          refine ⟨?_, m1, m2, m3, ?_, ?_⟩
          · intro j hj
            rcases m4 j hj with hj' | hj'
            · exact Nat.lt_succ_of_lt (h1 j hj')
            · rw [hj']; exact Nat.lt_succ_self _
          · intro p hp
            have hp2 : s.mode = ScanMode.slash p := hp
            rw [hm] at hp2
            exact ScanMode.noConfusion hp2
          · intro q pb hp
            have hp2 : s.mode = ScanMode.strLit q pb := hp
            rw [hm] at hp2
            exact ScanMode.noConfusion hp2
  | slash p0 =>
    obtain ⟨hp0i, hp0m⟩ := h5 p0 hm
    rw [scanStep, hm]
    dsimp only
    by_cases hc1 : c = '/'
    · rw [if_pos hc1]
      refine ⟨?_, h2, h3, h4, ?_, ?_⟩
      · intro j hj; exact Nat.lt_succ_of_lt (h1 j hj)
      · intro p hp; exact ScanMode.noConfusion hp
      · intro q pb hp; exact ScanMode.noConfusion hp
    · rw [if_neg hc1]
      by_cases hc2 : c = '*'
      · rw [if_pos hc2]
        refine ⟨?_, h2, h3, h4, ?_, ?_⟩
        · intro j hj; exact Nat.lt_succ_of_lt (h1 j hj)
        · intro p hp; exact ScanMode.noConfusion hp
        · intro q pb hp; exact ScanMode.noConfusion hp
      · rw [if_neg hc2]
        obtain ⟨m1, m2, m3, m4⟩ := mark_facts s p0 h1 h2 h3 h4 hp0m
        have hb1 : ∀ j ∈ (mark s p0).marks, j < s.i := by
          intro j hj
          rcases m4 j hj with hj' | hj'
          · exact h1 j hj'
          · rw [hj']; exact hp0i
        by_cases hc3 : (c = '"' || c = '\'') = true
        · rw [if_pos hc3]
          obtain ⟨n1, n2, n3, n4⟩ :=
            mark_facts { mark s p0 with mode := ScanMode.normal } s.i hb1 m1 m2 m3 hb1
          refine ⟨?_, n1, n2, n3, ?_, ?_⟩
          · intro j hj
            rcases n4 j hj with hj' | hj'
            · exact Nat.lt_succ_of_lt (hb1 j hj')
            · rw [hj']; exact Nat.lt_succ_self _
          · intro p hp; exact ScanMode.noConfusion hp
          · intro q pb hp
            have hq : q = c := by injection hp.symm
            subst hq
            simpa using hc3
        · rw [if_neg hc3]
          by_cases hc4 : jsIsSpace c = true
          · rw [if_pos hc4]
            refine ⟨?_, m1, m2, m3, ?_, ?_⟩
            · intro j hj; exact Nat.lt_succ_of_lt (hb1 j hj)
            · intro p hp; exact ScanMode.noConfusion hp
            · intro q pb hp; exact ScanMode.noConfusion hp
          · rw [if_neg hc4]
            obtain ⟨n1, n2, n3, n4⟩ :=
              mark_facts { mark s p0 with mode := ScanMode.normal } s.i hb1 m1 m2 m3 hb1
            refine ⟨?_, n1, n2, n3, ?_, ?_⟩
            · intro j hj
              rcases n4 j hj with hj' | hj'
              · exact Nat.lt_succ_of_lt (hb1 j hj')
              · rw [hj']; exact Nat.lt_succ_self _
            · intro p hp; exact ScanMode.noConfusion hp
            · intro q pb hp; exact ScanMode.noConfusion hp
  | line =>
    rw [scanStep, hm]
    dsimp only
    by_cases hc1 : c = '\n'
    · rw [if_pos hc1]
      refine ⟨?_, h2, h3, h4, ?_, ?_⟩
      · intro j hj; exact Nat.lt_succ_of_lt (h1 j hj)
      · intro p hp; exact ScanMode.noConfusion hp
      · intro q pb hp; exact ScanMode.noConfusion hp
    · rw [if_neg hc1]
      refine ⟨?_, h2, h3, h4, ?_, ?_⟩
      · intro j hj; exact Nat.lt_succ_of_lt (h1 j hj)
      · intro p hp
        have hp2 : s.mode = ScanMode.slash p := hp
        rw [hm] at hp2
        exact ScanMode.noConfusion hp2
      · intro q pb hp
        have hp2 : s.mode = ScanMode.strLit q pb := hp
        rw [hm] at hp2
        exact ScanMode.noConfusion hp2
  | block =>
    rw [scanStep, hm]
    dsimp only
    by_cases hc1 : c = '*'
    · rw [if_pos hc1]
      refine ⟨?_, h2, h3, h4, ?_, ?_⟩
      · intro j hj; exact Nat.lt_succ_of_lt (h1 j hj)
      · intro p hp; exact ScanMode.noConfusion hp
      · intro q pb hp; exact ScanMode.noConfusion hp
    · rw [if_neg hc1]
      refine ⟨?_, h2, h3, h4, ?_, ?_⟩
      · intro j hj; exact Nat.lt_succ_of_lt (h1 j hj)
      · intro p hp
        have hp2 : s.mode = ScanMode.slash p := hp
        rw [hm] at hp2
        exact ScanMode.noConfusion hp2
      · intro q pb hp
        have hp2 : s.mode = ScanMode.strLit q pb := hp
        rw [hm] at hp2
        exact ScanMode.noConfusion hp2
  | blockStar =>
    rw [scanStep, hm]
    dsimp only
    by_cases hc1 : c = '/'
    · rw [if_pos hc1]
      refine ⟨?_, h2, h3, h4, ?_, ?_⟩
      · intro j hj; exact Nat.lt_succ_of_lt (h1 j hj)
      · intro p hp; exact ScanMode.noConfusion hp
      · intro q pb hp; exact ScanMode.noConfusion hp
    · rw [if_neg hc1]
      by_cases hc2 : c = '*'
      · rw [if_pos hc2]
        refine ⟨?_, h2, h3, h4, ?_, ?_⟩
        · intro j hj; exact Nat.lt_succ_of_lt (h1 j hj)
        · intro p hp
          have hp2 : s.mode = ScanMode.slash p := hp
          rw [hm] at hp2
          exact ScanMode.noConfusion hp2
        · intro q pb hp
          have hp2 : s.mode = ScanMode.strLit q pb := hp
          rw [hm] at hp2
          exact ScanMode.noConfusion hp2
      · rw [if_neg hc2]
        refine ⟨?_, h2, h3, h4, ?_, ?_⟩
        · intro j hj; exact Nat.lt_succ_of_lt (h1 j hj)
        · intro p hp; exact ScanMode.noConfusion hp
        · intro q pb hp; exact ScanMode.noConfusion hp
  | strLit q0 pb0 =>
    have hq0 := h6 q0 pb0 hm
    rw [scanStep, hm]
    dsimp only
    obtain ⟨m1, m2, m3, m4⟩ := mark_facts s s.i h1 h2 h3 h4 h1
    have hb1 : ∀ j ∈ (mark s s.i).marks, j < s.i + 1 := by
      intro j hj
      rcases m4 j hj with hj' | hj'
      · exact Nat.lt_succ_of_lt (h1 j hj')
      · rw [hj']; exact Nat.lt_succ_self _
    by_cases hc1 : (c = q0 && !pb0) = true
    · rw [if_pos hc1]
      refine ⟨hb1, m1, m2, m3, ?_, ?_⟩
      · intro p hp; exact ScanMode.noConfusion hp
      · intro q pb hp; exact ScanMode.noConfusion hp
    · rw [if_neg hc1]
      refine ⟨hb1, m1, m2, m3, ?_, ?_⟩
      · intro p hp; exact ScanMode.noConfusion hp
      · intro q pb hp
        have : q = q0 := by injection hp.symm
        rw [this]
        exact hq0

theorem scanFrom_inv (t : Str) : ∀ s : ScanState, ScanInv s →
    ScanInv (t.foldl scanStep s) := by
  induction t with
  | nil => intro s h; exact h
  | cons c rest ih =>
    intro s h
    exact ih _ (scanStep_inv s c h)

theorem foldl_scanStep_i (t : Str) : ∀ s : ScanState,
    (t.foldl scanStep s).i = s.i + t.length := by
  induction t with
  | nil => intro s; simp
  | cons c rest ih =>
    intro s
    rw [List.foldl_cons, ih, scanStep_i]
    simp [Nat.add_comm, Nat.add_assoc]
    omega

theorem rawScan_inv (t : Str) : ScanInv (rawScan t) :=
  scanFrom_inv t initScan scanInv_init

theorem rawScan_i (t : Str) : (rawScan t).i = t.length := by
  rw [rawScan, foldl_scanStep_i]
  simp [initScan]

theorem finalizeScan_inv (s : ScanState) (h : ScanInv s) :
    ScanInv (finalizeScan s) ∧ (finalizeScan s).i = s.i := by
  obtain ⟨h1, h2, h3, h4, h5, h6⟩ := h
  rw [finalizeScan]
  cases hm : s.mode with
  | slash p =>
    obtain ⟨hpi, hpm⟩ := h5 p hm
    obtain ⟨m1, m2, m3, m4⟩ := mark_facts s p h1 h2 h3 h4 hpm
    refine ⟨⟨?_, m1, m2, m3, ?_, ?_⟩, rfl⟩
    · intro j hj
      rcases m4 j hj with hj' | hj'
      · exact h1 j hj'
      · rw [hj']; exact hpi
    · intro p' hp; exact ScanMode.noConfusion hp
    · intro q pb hp; exact ScanMode.noConfusion hp
  | normal => exact ⟨⟨h1, h2, h3, h4, h5, h6⟩, rfl⟩
  | line => exact ⟨⟨h1, h2, h3, h4, h5, h6⟩, rfl⟩
  | block => exact ⟨⟨h1, h2, h3, h4, h5, h6⟩, rfl⟩
  | blockStar => exact ⟨⟨h1, h2, h3, h4, h5, h6⟩, rfl⟩
  | strLit q pb => exact ⟨⟨h1, h2, h3, h4, h5, h6⟩, rfl⟩

theorem scanOf_inv (t : Str) : ScanInv (scanOf t) ∧ (scanOf t).i = t.length := by
  obtain ⟨hi, he⟩ := finalizeScan_inv (rawScan t) (rawScan_inv t)
  exact ⟨hi, by rw [scanOf, he, rawScan_i]⟩

theorem scanOf_last_lt (t : Str) {j : Nat} (h : (scanOf t).last = some j) :
    j < t.length := by
  obtain ⟨⟨h1, h2, _, _, _, _⟩, hlen⟩ := scanOf_inv t
  rw [h2] at h
  rw [← hlen]
  exact h1 j (getLast?_mem' h)

theorem scanOf_last2_lt (t : Str) {j : Nat} (h : (scanOf t).last2 = some j) :
    j < t.length := by
  obtain ⟨⟨h1, _, h3, _, _, _⟩, hlen⟩ := scanOf_inv t
  rw [h3] at h
  rw [← hlen]
  exact h1 j ((List.dropLast_sublist _).subset (getLast?_mem' h))

/-! ### Claim C10 — removeTrailingComma changes at most one character -/

/-- C10: for every input text, `removeTrailingComma` returns either the
input unchanged, or the input with exactly one comma character deleted
(no other character is inserted, removed, or reordered). -/
theorem C10_remove_comma_frame (t : Str) :
    removeTrailingComma t = t ∨
    ∃ i, i < t.length ∧ t.getD i ' ' = ',' ∧
      removeTrailingComma t = t.take i ++ t.drop (i + 1) := by
  rw [removeTrailingComma]
  cases hl : (scanOf t).last with
  | none => exact Or.inl rfl
  | some li =>
    dsimp only
    by_cases hc : t.getD li ' ' = ','
    · rw [if_pos hc]
      exact Or.inr ⟨li, scanOf_last_lt t hl, hc, rfl⟩
    · rw [if_neg hc]
      by_cases hb : t.getD li ' ' = '}' ∨ t.getD li ' ' = ']'
      · rw [if_pos hb]
        cases h2 : (scanOf t).last2 with
        | none => exact Or.inl rfl
        | some si =>
          dsimp only
          by_cases hc2 : t.getD si ' ' = ','
          · rw [if_pos hc2]
            exact Or.inr ⟨si, scanOf_last2_lt t h2, hc2, rfl⟩
          · rw [if_neg hc2]
            exact Or.inl rfl
      · rw [if_neg hb]
        exact Or.inl rfl

/-! ### Claim C8 — indentation sniffing -/

/-- A line that determines the indentation unit: non-blank (`trim()`
non-empty) and starting with a space or tab (the regex `^( +|\t+)`). -/
def sniffsIndent (l : Str) : Bool :=
  !(decide (jsTrim l = [])) &&
  (match l with
   | [] => false
   | c :: _ => c = '\t' || c = ' ')

/-- The indentation unit a sniffing line selects. -/
def indentOf (l : Str) : Str :=
  match l with
  | [] => List.replicate (leadingSpaces l) ' '
  | c :: _ =>
    if c = '\t' then ['\t'] else List.replicate (leadingSpaces l) ' '

theorem findTabGo_skip (l' : Str) (rest : List Str)
    (h : sniffsIndent l' = false) :
    findTabGo (l' :: rest) = findTabGo rest := by
  rw [findTabGo.eq_def]
  dsimp only
  by_cases ht : jsTrim l' = []
  · rw [if_pos ht]
  · rw [if_neg ht]
    rw [sniffsIndent.eq_def] at h
    simp only [Bool.and_eq_false_iff, Bool.not_eq_false',
      decide_eq_true_eq] at h
    match l' with
    | [] => rfl
    | c :: cs =>
      dsimp only
      rcases h with h | h
      · exact absurd h ht
      · simp only [Bool.or_eq_false_iff, decide_eq_false_iff_not] at h
        rw [if_neg h.1, if_neg h.2]

theorem findTabGo_hit (l : Str) (rest : List Str)
    (h : sniffsIndent l = true) :
    findTabGo (l :: rest) = indentOf l := by
  rw [sniffsIndent.eq_def] at h
  simp only [Bool.and_eq_true, Bool.not_eq_true', decide_eq_false_iff_not] at h
  obtain ⟨h1, h2⟩ := h
  rw [findTabGo.eq_def]
  dsimp only
  rw [if_neg h1]
  match l with
  | [] => exact Bool.noConfusion h2
  | c :: cs =>
    dsimp only
    rw [indentOf.eq_def]
    dsimp only
    by_cases hc : c = '\t'
    · rw [if_pos hc, if_pos hc]
    · rw [if_neg hc, if_neg hc]
      simp only [Bool.or_eq_true, decide_eq_true_eq] at h2
      rcases h2 with h2 | h2
      · exact absurd h2 hc
      · rw [if_pos h2]

theorem findTabGo_all_skip (ls : List Str)
    (h : ∀ l ∈ ls, sniffsIndent l = false) : findTabGo ls = str "    " := by
  induction ls with
  | nil => rw [findTabGo]
  | cons l rest ih =>
    rw [findTabGo_skip l rest (h l (List.mem_cons_self _ _))]
    exact ih (fun l' hl' => h l' (List.mem_cons_of_mem _ hl'))

/-- C8 counterexample: a whitespace-only line is skipped by
`findTabValue` even though it is "the first line with leading
whitespace".  On `"  \n\tx"` the first line with leading whitespace is
the blank two-space line (the claim would yield two spaces), but the
code skips it and returns a tab from the second line. -/
theorem C8_find_tab_counterexample :
    splitLines (str "  \n\tx") = [str "  ", str "\tx"] ∧
    (str "  ").headD 'x' = ' ' ∧
    findTabValue (str "  \n\tx") = str "\t" ∧
    str "\t" ≠ str "  " := by
  refine ⟨by decide, by decide, by decide, by decide⟩

/-- C8 (amended): `findTabValue` is determined by the first line that is
non-blank (`trim()` non-empty) and starts with a space or a tab: a
leading tab yields `"\t"`, otherwise the run of leading spaces; when no
such line exists the result is exactly four spaces. -/
theorem C8_find_tab_characterization (raw : Str) :
    (∀ (pre : List Str) (l : Str) (post : List Str),
        splitLines raw = pre ++ l :: post →
        (∀ l' ∈ pre, sniffsIndent l' = false) →
        sniffsIndent l = true →
        findTabValue raw = indentOf l) ∧
    ((∀ l ∈ splitLines raw, sniffsIndent l = false) →
        findTabValue raw = str "    ") := by
  constructor
  · intro pre l post hsplit hpre hl
    rw [findTabValue, hsplit]
    clear hsplit
    induction pre with
    | nil => exact findTabGo_hit l post hl
    | cons l' pre' ih =>
      rw [List.cons_append,
        findTabGo_skip l' _ (hpre l' (List.mem_cons_self _ _))]
      exact ih (fun x hx => hpre x (List.mem_cons_of_mem _ hx))
  · intro h
    rw [findTabValue]
    exact findTabGo_all_skip _ h

/-- Witness for the amended C8 at a concrete document. -/
theorem C8_find_tab_characterization_witness :
    (splitLines (str "\x7b\n  \"a\": 1\n\x7d") = [str "\x7b", str "  \"a\": 1", str "\x7d"] ∧
      sniffsIndent (str "\x7b") = false ∧
      sniffsIndent (str "  \"a\": 1") = true) ∧
    findTabValue (str "\x7b\n  \"a\": 1\n\x7d") = indentOf (str "  \"a\": 1") := by
  refine ⟨⟨by decide, by decide, by decide⟩, ?_⟩
  exact (C8_find_tab_characterization _).1 [str "\x7b"] (str "  \"a\": 1") [str "\x7d"]
    (by decide)
    (by
      intro l' hl'
      have : l' = str "\x7b" := by simpa using hl'
      rw [this]
      decide)
    (by decide)

/-! ### Claim C6 — removeBlock leaves the document unchanged when the
markers are missing or out of order -/

/-- C6 counterexample: when both markers are present but the end marker
precedes the start marker, the code leaves the file alone but still logs
the warning — the claim's "logs a warning only when exactly one marker is
present" is too narrow. -/
theorem C6_remove_warn_counterexample :
    (strIndexOf (INHERITED_SETTINGS_END_MARKER ++ ['\n'] ++
        INHERITED_SETTINGS_START_MARKER) INHERITED_SETTINGS_START_MARKER).isSome
      = true ∧
    (strIndexOf (INHERITED_SETTINGS_END_MARKER ++ ['\n'] ++
        INHERITED_SETTINGS_START_MARKER) INHERITED_SETTINGS_END_MARKER).isSome
      = true ∧
    (removeInheritedSettingsFromFile (INHERITED_SETTINGS_END_MARKER ++ ['\n'] ++
        INHERITED_SETTINGS_START_MARKER)).2 = true := by
  refine ⟨by decide, by decide, by decide⟩

/-- C6 (amended): `removeInheritedSettingsFromFile` leaves the document
byte-unchanged whenever the start marker is missing, the end marker is
missing, or the first end-marker occurrence precedes the first
start-marker occurrence; it logs a warning exactly when one of the two
markers is present and the other missing, or when both are present with
the end marker first. -/
theorem C6_remove_untouched_and_warning (raw : Str) :
    ((strIndexOf raw INHERITED_SETTINGS_START_MARKER = none ∨
      strIndexOf raw INHERITED_SETTINGS_END_MARKER = none ∨
      (∃ si ei, strIndexOf raw INHERITED_SETTINGS_START_MARKER = some si ∧
        strIndexOf raw INHERITED_SETTINGS_END_MARKER = some ei ∧ ei < si)) →
      (removeInheritedSettingsFromFile raw).1 = raw) ∧
    ((removeInheritedSettingsFromFile raw).2 = true ↔
      ((strIndexOf raw INHERITED_SETTINGS_START_MARKER).isSome = true ∧
        strIndexOf raw INHERITED_SETTINGS_END_MARKER = none) ∨
      (strIndexOf raw INHERITED_SETTINGS_START_MARKER = none ∧
        (strIndexOf raw INHERITED_SETTINGS_END_MARKER).isSome = true) ∨
      (∃ si ei, strIndexOf raw INHERITED_SETTINGS_START_MARKER = some si ∧
        strIndexOf raw INHERITED_SETTINGS_END_MARKER = some ei ∧ ei < si)) := by
  rw [removeInheritedSettingsFromFile]
  cases hs : strIndexOf raw INHERITED_SETTINGS_START_MARKER with
  | none =>
    cases he : strIndexOf raw INHERITED_SETTINGS_END_MARKER with
    | none =>
      refine ⟨fun _ => rfl, ?_⟩
      simp
    | some ei =>
      refine ⟨fun _ => rfl, ?_⟩
      simp
  | some si =>
    cases he : strIndexOf raw INHERITED_SETTINGS_END_MARKER with
    | none =>
      refine ⟨fun _ => rfl, ?_⟩
      simp
    | some ei =>
      dsimp only
      by_cases hlt : ei < si
      · rw [if_pos hlt]
        refine ⟨fun _ => rfl,
          ⟨fun _ => Or.inr (Or.inr ⟨si, ei, rfl, rfl, hlt⟩), fun _ => rfl⟩⟩
      · rw [if_neg hlt]
        constructor
        · intro hcase
          rcases hcase with hc | hc | hc
          · exact Option.noConfusion hc
          · exact Option.noConfusion hc
          · obtain ⟨si', ei', hsi, hei, hlt'⟩ := hc
            have h1 : si = si' := by injection hsi
            have h2 : ei = ei' := by injection hei
            rw [← h1, ← h2] at hlt'
            exact absurd hlt' hlt
        · simp only [Bool.false_eq_true, false_iff, not_or]
          refine ⟨?_, ?_, ?_⟩
          · rintro ⟨_, hc⟩
            exact Option.noConfusion hc
          · rintro ⟨hc, _⟩
            exact Option.noConfusion hc
          · rintro ⟨si', ei', hsi, hei, hlt'⟩
            have h1 : si = si' := by injection hsi
            have h2 : ei = ei' := by injection hei
            rw [← h1, ← h2] at hlt'
            exact absurd hlt' hlt

/-- Witness for the amended C6: a document with no markers at all is left
unchanged and unwarned. -/
theorem C6_remove_untouched_and_warning_witness :
    (strIndexOf (str "\x7b\n\x7d") INHERITED_SETTINGS_START_MARKER = none) ∧
    (removeInheritedSettingsFromFile (str "\x7b\n\x7d")).1 = str "\x7b\n\x7d" :=
  ⟨by decide,
    (C6_remove_untouched_and_warning (str "\x7b\n\x7d")).1 (Or.inl (by decide))⟩

/-! ### Claim C5 — which commas removeTrailingComma may remove -/

/-- The index `removeTrailingComma` deletes, if any (the code's two
cases: the last meaningful character is a comma, or it is a closing
brace/bracket and the second-to-last meaningful character is a comma). -/
def rtcSecondCase (t : Str) (l2 : Option Nat) : Option Nat :=
  match l2 with
  | some si => if t.getD si ' ' = ',' then some si else none
  | none => none

def rtcDeletedIndex (t : Str) : Option Nat :=
  match (scanOf t).last with
  | none => none
  | some li =>
    if t.getD li ' ' = ',' then some li
    else if t.getD li ' ' = '}' ∨ t.getD li ' ' = ']' then
      rtcSecondCase t (scanOf t).last2
    else none

theorem removeTrailingComma_eq_deleted (t : Str) :
    removeTrailingComma t
      = match rtcDeletedIndex t with
        | none => t
        | some i => t.take i ++ t.drop (i + 1) := by
  rw [removeTrailingComma, rtcDeletedIndex]
  cases hl : (scanOf t).last with
  | none => rfl
  | some li =>
    dsimp only
    by_cases hc : t.getD li ' ' = ','
    · rw [if_pos hc, if_pos hc]
    · rw [if_neg hc, if_neg hc]
      by_cases hb : t.getD li ' ' = '}' ∨ t.getD li ' ' = ']'
      · rw [if_pos hb, if_pos hb, rtcSecondCase.eq_def]
        cases h2 : (scanOf t).last2 with
        | none => rfl
        | some si =>
          dsimp only
          by_cases hc2 : t.getD si ' ' = ','
          · rw [if_pos hc2, if_pos hc2]
          · rw [if_neg hc2, if_neg hc2]
      · rw [if_neg hb, if_neg hb]

/-- In a `Pairwise (<)` list, every member is at most the last element. -/
theorem pairwise_lt_le_getLast (l : List Nat) (hpw : l.Pairwise (· < ·))
    (x : Nat) (hx : x ∈ l) (g : Nat) (hg : l.getLast? = some g) : x ≤ g := by
  have hne : l ≠ [] := by intro he; rw [he] at hg; exact Option.noConfusion hg
  have hms : g = l.getLast hne := by
    have h1 := List.getLast?_eq_getLast l hne
    rw [hg] at h1; exact Option.some.inj h1
  have hsplit : l.dropLast ++ [l.getLast hne] = l := List.dropLast_concat_getLast hne
  rw [← hsplit] at hx hpw
  rcases List.mem_append.mp hx with hx1 | hx2
  · have hlt := (List.pairwise_append.mp hpw).2.2 x hx1 (l.getLast hne)
      (List.mem_singleton_self _)
    rw [hms]; exact Nat.le_of_lt hlt
  · rw [hms]; exact Nat.le_of_eq (List.mem_singleton.mp hx2)

/-- Under the scan invariant, the recorded `last` index is the maximum mark. -/
theorem scanInv_last_max (s : ScanState) (h : ScanInv s) {m : Nat}
    (hm : s.last = some m) : ∀ x ∈ s.marks, x ≤ m := by
  obtain ⟨_, h2, _, h4, _, _⟩ := h
  rw [h2] at hm
  intro x hx
  exact pairwise_lt_le_getLast s.marks (List.chain'_iff_pairwise.mp h4) x hx m hm

/-- Under the scan invariant, every mark other than the maximum is at most the
recorded second-to-last index. -/
theorem scanInv_last2_max (s : ScanState) (h : ScanInv s) {m : Nat}
    (hm : s.last = some m) :
    ∀ x ∈ s.marks, x ≠ m → ∃ m2, s.last2 = some m2 ∧ x ≤ m2 := by
  obtain ⟨_, h2, h3, h4, _, _⟩ := h
  rw [h2] at hm
  intro x hx hne
  have hpw : s.marks.Pairwise (· < ·) := List.chain'_iff_pairwise.mp h4
  have hnel : s.marks ≠ [] := by intro he; rw [he] at hm; exact Option.noConfusion hm
  have hms : m = s.marks.getLast hnel := by
    have h1 := List.getLast?_eq_getLast s.marks hnel
    rw [hm] at h1; exact Option.some.inj h1
  have hsplit : s.marks.dropLast ++ [s.marks.getLast hnel] = s.marks :=
    List.dropLast_concat_getLast hnel
  have hx' : x ∈ s.marks.dropLast := by
    rw [← hsplit] at hx
    rcases List.mem_append.mp hx with hx1 | hx2
    · exact hx1
    · exact absurd (by rw [hms]; exact List.mem_singleton.mp hx2) hne
  have hne2 : s.marks.dropLast ≠ [] := List.ne_nil_of_mem hx'
  have hpw2 : s.marks.dropLast.Pairwise (· < ·) := by
    rw [← hsplit] at hpw
    exact (List.pairwise_append.mp hpw).1
  refine ⟨s.marks.dropLast.getLast hne2, ?_, ?_⟩
  · rw [h3]; exact List.getLast?_eq_getLast _ hne2
  · exact pairwise_lt_le_getLast _ hpw2 x hx' _ (List.getLast?_eq_getLast _ hne2)

/-- Any index deleted by `removeTrailingComma` is a recorded mark, and the
character there is a comma. -/
theorem rtcDeletedIndex_mem_marks (t : Str) {i : Nat}
    (h : rtcDeletedIndex t = some i) :
    i ∈ (scanOf t).marks ∧ t.getD i ' ' = ',' := by
  obtain ⟨⟨_, h2, h3, _, _, _⟩, _⟩ := scanOf_inv t
  rw [rtcDeletedIndex] at h
  rcases Option.eq_none_or_eq_some ((scanOf t).last) with hl | ⟨li, hl⟩
  · rw [hl] at h; exact Option.noConfusion h
  · rw [hl] at h
    dsimp only at h
    by_cases hc : t.getD li ' ' = ','
    · rw [if_pos hc] at h
      have hi : li = i := Option.some.inj h
      subst hi
      refine ⟨?_, hc⟩
      rw [h2] at hl
      exact List.mem_of_mem_getLast? hl
    · rw [if_neg hc] at h
      by_cases hb : t.getD li ' ' = '}' ∨ t.getD li ' ' = ']'
      · rw [if_pos hb] at h
        rw [rtcSecondCase.eq_def] at h
        rcases Option.eq_none_or_eq_some ((scanOf t).last2) with h2' | ⟨si, h2'⟩
        · rw [h2'] at h; exact Option.noConfusion h
        · rw [h2'] at h
          dsimp only at h
          by_cases hc2 : t.getD si ' ' = ','
          · rw [if_pos hc2] at h
            have hi : si = i := Option.some.inj h
            subst hi
            refine ⟨?_, hc2⟩
            rw [h3] at h2'
            exact (List.dropLast_sublist _).subset (List.mem_of_mem_getLast? h2')
          · rw [if_neg hc2] at h; exact Option.noConfusion h
      · rw [if_neg hb] at h; exact Option.noConfusion h

/-! Single-step scanner lemmas, one per branch of `scanStep`. -/

/-- JS whitespace is none of the characters the scanner treats specially. -/
theorem jsIsSpace_ne (c : Char) (h : jsIsSpace c = true) :
    c ≠ '/' ∧ c ≠ '"' ∧ c ≠ '\'' ∧ c ≠ '{' ∧ c ≠ ',' ∧ c ≠ '}' ∧ c ≠ ']' := by
  refine ⟨?_, ?_, ?_, ?_, ?_, ?_, ?_⟩ <;>
    (intro he; subst he; exact absurd h (by decide))

theorem scanStep_normal_slash (s : ScanState) (hm : s.mode = ScanMode.normal) :
    scanStep s '/' = { s with mode := ScanMode.slash s.i, i := s.i + 1 } := by
  rw [scanStep, hm]
  dsimp only
  rw [if_pos rfl]

theorem scanStep_normal_quote (s : ScanState) (c : Char)
    (hm : s.mode = ScanMode.normal) (hq : c = '"' ∨ c = '\'') :
    scanStep s c = { mark s s.i with mode := ScanMode.strLit c false, i := s.i + 1 } := by
  rw [scanStep, hm]
  dsimp only
  have h1 : ¬(c = '/') := by rcases hq with rfl | rfl <;> decide
  have h2 : (c = '"' || c = '\'') = true := by rcases hq with rfl | rfl <;> decide
  rw [if_neg h1, if_pos h2]

theorem scanStep_normal_ws (s : ScanState) (c : Char)
    (hm : s.mode = ScanMode.normal) (hw : jsIsSpace c = true) :
    scanStep s c = { s with i := s.i + 1 } := by
  obtain ⟨hs, hq1, hq2, _, _, _, _⟩ := jsIsSpace_ne c hw
  rw [scanStep, hm]
  dsimp only
  have h2 : ¬((c = '"' || c = '\'') = true) := by
    simp only [Bool.or_eq_true, decide_eq_true_eq]
    rintro (rfl | rfl)
    · exact hq1 rfl
    · exact hq2 rfl
  rw [if_neg hs, if_neg h2, if_pos hw, hm]

theorem scanStep_normal_mark (s : ScanState) (c : Char)
    (hm : s.mode = ScanMode.normal) (hs : ¬(c = '/'))
    (hq : ¬((c = '"' || c = '\'') = true)) (hw : ¬(jsIsSpace c = true)) :
    scanStep s c = { mark s s.i with i := s.i + 1 } := by
  rw [scanStep, hm]
  dsimp only
  rw [if_neg hs, if_neg hq, if_neg hw]

theorem scanStep_slash_line (s : ScanState) (p : Nat)
    (hm : s.mode = ScanMode.slash p) :
    scanStep s '/' = { s with mode := ScanMode.line, i := s.i + 1 } := by
  rw [scanStep, hm]
  dsimp only
  rw [if_pos rfl]

theorem scanStep_line (s : ScanState) (c : Char) (hm : s.mode = ScanMode.line) :
    scanStep s c =
      if c = '\n' then { s with mode := ScanMode.normal, i := s.i + 1 }
      else { s with i := s.i + 1 } := by
  rw [scanStep, hm]
  dsimp only
  by_cases hc : c = '\n'
  · rw [if_pos hc, if_pos hc]
  · rw [if_neg hc, if_neg hc, hm]

theorem scanStep_slash_block (s : ScanState) (p : Nat)
    (hm : s.mode = ScanMode.slash p) :
    scanStep s '*' = { s with mode := ScanMode.block, i := s.i + 1 } := by
  rw [scanStep, hm]
  dsimp only
  have h1 : ¬(('*' : Char) = '/') := by decide
  rw [if_neg h1, if_pos rfl]

theorem scanStep_block (s : ScanState) (c : Char) (hm : s.mode = ScanMode.block) :
    scanStep s c =
      if c = '*' then { s with mode := ScanMode.blockStar, i := s.i + 1 }
      else { s with i := s.i + 1 } := by
  rw [scanStep, hm]
  dsimp only
  by_cases hc : c = '*'
  · rw [if_pos hc, if_pos hc]
  · rw [if_neg hc, if_neg hc, hm]

theorem scanStep_blockStar (s : ScanState) (c : Char)
    (hm : s.mode = ScanMode.blockStar) :
    scanStep s c =
      if c = '/' then { s with mode := ScanMode.normal, i := s.i + 1 }
      else if c = '*' then { s with i := s.i + 1 }
      else { s with mode := ScanMode.block, i := s.i + 1 } := by
  rw [scanStep, hm]
  dsimp only
  by_cases hc : c = '/'
  · rw [if_pos hc, if_pos hc]
  · rw [if_neg hc, if_neg hc]
    by_cases hc2 : c = '*'
    · rw [if_pos hc2, if_pos hc2, hm]
    · rw [if_neg hc2, if_neg hc2]

theorem scanStep_str_stay (s : ScanState) (q : Char) (pb : Bool) (c : Char)
    (hm : s.mode = ScanMode.strLit q pb) (hc : ¬((c = q && !pb) = true)) :
    scanStep s c
      = { mark s s.i with mode := ScanMode.strLit q (c = '\\'), i := s.i + 1 } := by
  rw [scanStep, hm]
  dsimp only
  rw [if_neg hc]

theorem scanStep_str_close (s : ScanState) (q : Char)
    (hm : s.mode = ScanMode.strLit q false) :
    scanStep s q = { mark s s.i with mode := ScanMode.normal, i := s.i + 1 } := by
  rw [scanStep, hm]
  dsimp only
  rw [if_pos (by simp)]

/-! Consecutive index spans, used to describe the marks of a string literal. -/

def spanList (a n : Nat) : List Nat := (List.range n).map (a + ·)

theorem spanList_zero (a : Nat) : spanList a 0 = [] := rfl

theorem spanList_succ (a n : Nat) :
    spanList a (n + 1) = a :: spanList (a + 1) n := by
  unfold spanList
  rw [List.range_succ_eq_map, List.map_cons, List.map_map]
  congr 1
  refine List.map_congr_left ?_
  intro x _
  simp only [Function.comp_apply]
  omega

theorem mem_spanList {a n x : Nat} : x ∈ spanList a n ↔ a ≤ x ∧ x < a + n := by
  unfold spanList
  simp only [List.mem_map, List.mem_range]
  constructor
  · rintro ⟨y, hy, rfl⟩
    omega
  · rintro ⟨h1, h2⟩
    exact ⟨x - a, by omega, by omega⟩

/-! Segment lemmas: the effect of scanning a whole region of the input. -/

/-- Scanning whitespace from default mode changes nothing but the index. -/
theorem scan_ws_seg :
    ∀ (w : Str) (s : ScanState), s.mode = ScanMode.normal →
      (∀ c ∈ w, jsIsSpace c = true) →
      w.foldl scanStep s = { s with i := s.i + w.length } := by
  intro w
  induction w with
  | nil => intro s hm _; rw [List.foldl_nil, List.length_nil, Nat.add_zero]
  | cons c v ih =>
    intro s hm hv
    rw [List.foldl_cons, scanStep_normal_ws s c hm (hv c (List.mem_cons_self c v))]
    rw [ih { s with i := s.i + 1 } hm (fun d hd => hv d (List.mem_cons_of_mem c hd))]
    have hlen : s.i + 1 + v.length = s.i + (c :: v).length := by
      rw [List.length_cons]; omega
    rw [hlen]

/-- Scanning line-comment body characters (no newline) changes nothing but
the index. -/
theorem scan_line_seg :
    ∀ (w : Str) (s : ScanState), s.mode = ScanMode.line → '\n' ∉ w →
      w.foldl scanStep s = { s with i := s.i + w.length } := by
  intro w
  induction w with
  | nil => intro s hm _; rw [List.foldl_nil, List.length_nil, Nat.add_zero]
  | cons c v ih =>
    intro s hm hv
    have hc : ¬(c = '\n') := fun h => hv (h ▸ List.mem_cons_self c v)
    rw [List.foldl_cons, scanStep_line s c hm, if_neg hc]
    rw [ih { s with i := s.i + 1 } hm (fun h => hv (List.mem_cons_of_mem c h))]
    have hlen : s.i + 1 + v.length = s.i + (c :: v).length := by
      rw [List.length_cons]; omega
    rw [hlen]

/-- Scanning the body of a string literal (no quote, no backslash): every
character is marked, consecutively, and the mode is unchanged. -/
theorem scan_str_seg (q : Char) :
    ∀ (v : Str) (s : ScanState), s.mode = ScanMode.strLit q false →
      (∀ c ∈ v, c ≠ q ∧ c ≠ '\\') →
      (v.foldl scanStep s).mode = ScanMode.strLit q false ∧
      (v.foldl scanStep s).i = s.i + v.length ∧
      (v.foldl scanStep s).marks = s.marks ++ spanList s.i v.length := by
  intro v
  induction v with
  | nil =>
    intro s hm _
    exact ⟨hm, by rw [List.foldl_nil, List.length_nil, Nat.add_zero],
      by rw [List.foldl_nil, List.length_nil, spanList_zero, List.append_nil]⟩
  | cons c v ih =>
    intro s hm hv
    obtain ⟨hcq, hcb⟩ := hv c (List.mem_cons_self c v)
    have hcond : ¬((c = q && !false) = true) := by
      simp only [Bool.not_false, Bool.and_true, decide_eq_true_eq]
      exact hcq
    have hstep := scanStep_str_stay s q false c hm hcond
    have hmode2 : (scanStep s c).mode = ScanMode.strLit q false := by
      rw [hstep]
      dsimp only
      rw [decide_eq_false hcb]
    rw [List.foldl_cons]
    obtain ⟨ih1, ih2, ih3⟩ := ih (scanStep s c) hmode2
      (fun d hd => hv d (List.mem_cons_of_mem c hd))
    refine ⟨ih1, ?_, ?_⟩
    · rw [ih2, hstep]
      dsimp only
      rw [List.length_cons]
      omega
    · rw [ih3, hstep]
      dsimp only [mark]
      rw [List.length_cons, spanList_succ, List.append_assoc]
      rfl

/-- Scanning the body of a block comment (no `*/` pair inside, and no
leading `/` if the scanner has just seen a `*`): the mode stays in the
block-comment family and nothing but the index changes. -/
theorem scan_block_seg :
    ∀ (w : Str) (s : ScanState),
      (s.mode = ScanMode.block ∨ s.mode = ScanMode.blockStar) →
      (s.mode = ScanMode.blockStar → w.getD 0 ' ' ≠ '/') →
      (∀ k, k + 1 < w.length → ¬(w.getD k ' ' = '*' ∧ w.getD (k + 1) ' ' = '/')) →
      ((w.foldl scanStep s).mode = ScanMode.block ∨
        (w.foldl scanStep s).mode = ScanMode.blockStar) ∧
      (w.foldl scanStep s).i = s.i + w.length ∧
      (w.foldl scanStep s).marks = s.marks ∧
      (w.foldl scanStep s).last = s.last ∧
      (w.foldl scanStep s).last2 = s.last2 := by
  intro w
  induction w with
  | nil =>
    intro s hm _ _
    exact ⟨hm, by rw [List.foldl_nil, List.length_nil, Nat.add_zero], rfl, rfl, rfl⟩
  | cons c v ih =>
    intro s hm hfirst hadj
    have hv0 : c = '*' → v.getD 0 ' ' ≠ '/' := by
      intro hc hv0'
      rcases v with _ | ⟨d, v'⟩
      · exact absurd hv0' (by decide)
      · refine hadj 0 (by rw [List.length_cons, List.length_cons]; omega) ?_
        refine ⟨by rw [List.getD_cons_zero]; exact hc, ?_⟩
        rw [List.getD_cons_succ, List.getD_cons_zero]
        rw [List.getD_cons_zero] at hv0'
        exact hv0'
    have hadj' : ∀ k, k + 1 < v.length →
        ¬(v.getD k ' ' = '*' ∧ v.getD (k + 1) ' ' = '/') := by
      intro k hk
      have h := hadj (k + 1) (by rw [List.length_cons]; omega)
      rw [List.getD_cons_succ, List.getD_cons_succ] at h
      exact h
    rcases hm with hm | hm
    · have hstep := scanStep_block s c hm
      by_cases hc : c = '*'
      · rw [List.foldl_cons, hstep, if_pos hc]
        obtain ⟨m1, m2, m3, m4, m5⟩ :=
          ih { s with mode := ScanMode.blockStar, i := s.i + 1 } (Or.inr rfl)
            (fun _ => hv0 hc) hadj'
        refine ⟨m1, ?_, m3, m4, m5⟩
        rw [m2, List.length_cons]
        show s.i + 1 + v.length = s.i + (v.length + 1)
        omega
      · rw [List.foldl_cons, hstep, if_neg hc]
        obtain ⟨m1, m2, m3, m4, m5⟩ :=
          ih { s with i := s.i + 1 } (Or.inl hm)
            (fun hmode => absurd (hm.symm.trans hmode)
              (fun h => ScanMode.noConfusion h)) hadj'
        refine ⟨m1, ?_, m3, m4, m5⟩
        rw [m2, List.length_cons]
        show s.i + 1 + v.length = s.i + (v.length + 1)
        omega
    · have hstep := scanStep_blockStar s c hm
      have hcslash : ¬(c = '/') := by
        intro hcs
        exact hfirst hm (by rw [List.getD_cons_zero]; exact hcs)
      rw [List.foldl_cons, hstep, if_neg hcslash]
      by_cases hc : c = '*'
      · rw [if_pos hc]
        obtain ⟨m1, m2, m3, m4, m5⟩ :=
          ih { s with i := s.i + 1 } (Or.inr hm) (fun _ => hv0 hc) hadj'
        refine ⟨m1, ?_, m3, m4, m5⟩
        rw [m2, List.length_cons]
        show s.i + 1 + v.length = s.i + (v.length + 1)
        omega
      · rw [if_neg hc]
        obtain ⟨m1, m2, m3, m4, m5⟩ :=
          ih { s with mode := ScanMode.block, i := s.i + 1 } (Or.inl rfl)
            (fun hmode => absurd hmode (fun h => ScanMode.noConfusion h)) hadj'
        refine ⟨m1, ?_, m3, m4, m5⟩
        rw [m2, List.length_cons]
        show s.i + 1 + v.length = s.i + (v.length + 1)
        omega

/-- `getD` through a left append. -/
theorem getD_append_left' (l1 l2 : Str) (k : Nat) (h : k < l1.length) (d : Char) :
    (l1 ++ l2).getD k d = l1.getD k d := by
  rw [List.getD_eq_getElem?_getD, List.getD_eq_getElem?_getD,
    List.getElem?_append_left h]

/-- `getD` through a right append, at offset `l1.length + k`. -/
theorem getD_append_right' (l1 l2 : Str) (k : Nat) (d : Char) :
    (l1 ++ l2).getD (l1.length + k) d = l2.getD k d := by
  rw [List.getD_eq_getElem?_getD, List.getD_eq_getElem?_getD,
    List.getElem?_append_right (by omega)]
  have h : l1.length + k - l1.length = k := by omega
  rw [h]

/-- Every mark a single step adds is the current index or a pending slash. -/
theorem scanStep_marks_cases (s : ScanState) (c : Char) :
    (∀ x ∈ (scanStep s c).marks,
        x ∈ s.marks ∨ x = s.i ∨ ∃ p, s.mode = ScanMode.slash p ∧ x = p) ∧
    (∀ p', (scanStep s c).mode = ScanMode.slash p' → p' = s.i) := by
  cases hm : s.mode with
  | normal =>
    rw [scanStep, hm]
    dsimp only
    by_cases h1 : c = '/'
    · rw [if_pos h1]
      refine ⟨fun x hx => Or.inl hx, fun p' hp' => ?_⟩
      have h2 : ScanMode.slash s.i = ScanMode.slash p' := hp'
      injection h2 with h3
      exact h3.symm
    · rw [if_neg h1]
      by_cases h2 : (c = '"' || c = '\'') = true
      · rw [if_pos h2]
        refine ⟨fun x hx => ?_, fun p' hp' => ScanMode.noConfusion hp'⟩
        simp only [mark, List.mem_append, List.mem_singleton] at hx
        rcases hx with hx | rfl
        · exact Or.inl hx
        · exact Or.inr (Or.inl rfl)
      · rw [if_neg h2]
        by_cases h3 : jsIsSpace c = true
        · rw [if_pos h3]
          exact ⟨fun x hx => Or.inl hx, fun p' hp' => ScanMode.noConfusion (hm ▸ hp')⟩
        · rw [if_neg h3]
          refine ⟨fun x hx => ?_, fun p' hp' => ScanMode.noConfusion (hm ▸ hp')⟩
          simp only [mark, List.mem_append, List.mem_singleton] at hx
          rcases hx with hx | rfl
          · exact Or.inl hx
          · exact Or.inr (Or.inl rfl)
  | slash p =>
    rw [scanStep, hm]
    dsimp only
    by_cases h1 : c = '/'
    · rw [if_pos h1]
      exact ⟨fun x hx => Or.inl hx, fun p' hp' => ScanMode.noConfusion hp'⟩
    · rw [if_neg h1]
      by_cases h2 : c = '*'
      · rw [if_pos h2]
        exact ⟨fun x hx => Or.inl hx, fun p' hp' => ScanMode.noConfusion hp'⟩
      · rw [if_neg h2]
        by_cases h3 : (c = '"' || c = '\'') = true
        · rw [if_pos h3]
          refine ⟨fun x hx => ?_, fun p' hp' => ScanMode.noConfusion hp'⟩
          simp only [mark, List.mem_append, List.mem_singleton] at hx
          rcases hx with (hx | rfl) | rfl
          · exact Or.inl hx
          · exact Or.inr (Or.inr ⟨_, rfl, rfl⟩)
          · exact Or.inr (Or.inl rfl)
        · rw [if_neg h3]
          by_cases h4 : jsIsSpace c = true
          · rw [if_pos h4]
            refine ⟨fun x hx => ?_, fun p' hp' => ScanMode.noConfusion hp'⟩
            simp only [mark, List.mem_append, List.mem_singleton] at hx
            rcases hx with hx | rfl
            · exact Or.inl hx
            · exact Or.inr (Or.inr ⟨_, rfl, rfl⟩)
          · rw [if_neg h4]
            refine ⟨fun x hx => ?_, fun p' hp' => ScanMode.noConfusion hp'⟩
            simp only [mark, List.mem_append, List.mem_singleton] at hx
            rcases hx with (hx | rfl) | rfl
            · exact Or.inl hx
            · exact Or.inr (Or.inr ⟨_, rfl, rfl⟩)
            · exact Or.inr (Or.inl rfl)
  | line =>
    rw [scanStep, hm]
    dsimp only
    by_cases h1 : c = '\n'
    · rw [if_pos h1]
      exact ⟨fun x hx => Or.inl hx, fun p' hp' => ScanMode.noConfusion hp'⟩
    · rw [if_neg h1]
      exact ⟨fun x hx => Or.inl hx, fun p' hp' => ScanMode.noConfusion (hm ▸ hp')⟩
  | block =>
    rw [scanStep, hm]
    dsimp only
    by_cases h1 : c = '*'
    · rw [if_pos h1]
      exact ⟨fun x hx => Or.inl hx, fun p' hp' => ScanMode.noConfusion hp'⟩
    · rw [if_neg h1]
      exact ⟨fun x hx => Or.inl hx, fun p' hp' => ScanMode.noConfusion (hm ▸ hp')⟩
  | blockStar =>
    rw [scanStep, hm]
    dsimp only
    by_cases h1 : c = '/'
    · rw [if_pos h1]
      exact ⟨fun x hx => Or.inl hx, fun p' hp' => ScanMode.noConfusion hp'⟩
    · rw [if_neg h1]
      by_cases h2 : c = '*'
      · rw [if_pos h2]
        exact ⟨fun x hx => Or.inl hx, fun p' hp' => ScanMode.noConfusion (hm ▸ hp')⟩
      · rw [if_neg h2]
        exact ⟨fun x hx => Or.inl hx, fun p' hp' => ScanMode.noConfusion hp'⟩
  | strLit q pb =>
    rw [scanStep, hm]
    dsimp only
    by_cases h1 : (c = q && !pb) = true
    · rw [if_pos h1]
      refine ⟨fun x hx => ?_, fun p' hp' => ScanMode.noConfusion hp'⟩
      simp only [mark, List.mem_append, List.mem_singleton] at hx
      rcases hx with hx | rfl
      · exact Or.inl hx
      · exact Or.inr (Or.inl rfl)
    · rw [if_neg h1]
      refine ⟨fun x hx => ?_, fun p' hp' => ScanMode.noConfusion hp'⟩
      simp only [mark, List.mem_append, List.mem_singleton] at hx
      rcases hx with hx | rfl
      · exact Or.inl hx
      · exact Or.inr (Or.inl rfl)

/-- Marks added while scanning from a state with index at least `n` (and no
older pending slash) are themselves at least `n`. -/
theorem scan_marks_ge (w : Str) :
    ∀ (s : ScanState) (n : Nat), n ≤ s.i →
      (∀ p, s.mode = ScanMode.slash p → n ≤ p) →
      (∀ x ∈ (w.foldl scanStep s).marks, x ∈ s.marks ∨ n ≤ x) ∧
      (∀ p, (w.foldl scanStep s).mode = ScanMode.slash p → n ≤ p) := by
  induction w with
  | nil => intro s n _ hp; exact ⟨fun x hx => Or.inl hx, hp⟩
  | cons c v ih =>
    intro s n hn hp
    rw [List.foldl_cons]
    obtain ⟨c1, c2⟩ := scanStep_marks_cases s c
    have hn' : n ≤ (scanStep s c).i := by
      rw [scanStep_i]
      omega
    have hp' : ∀ p, (scanStep s c).mode = ScanMode.slash p → n ≤ p := by
      intro p hpm
      rw [c2 p hpm]
      exact hn
    obtain ⟨ih1, ih2⟩ := ih (scanStep s c) n hn' hp'
    refine ⟨?_, ih2⟩
    intro x hx
    rcases ih1 x hx with hx' | hge
    · rcases c1 x hx' with hmem | hxi | ⟨p, hpm, rfl⟩
      · exact Or.inl hmem
      · subst hxi
        exact Or.inr hn
      · exact Or.inr (hp _ hpm)
    · exact Or.inr hge

/-- Finalizing either keeps the marks or appends the pending slash index. -/
theorem finalizeScan_marks (s : ScanState) :
    (finalizeScan s).marks = s.marks ∨
      ∃ p, s.mode = ScanMode.slash p ∧ (finalizeScan s).marks = s.marks ++ [p] := by
  rw [finalizeScan]
  cases hm : s.mode with
  | slash p => exact Or.inr ⟨p, rfl, rfl⟩
  | normal => exact Or.inl rfl
  | line => exact Or.inl rfl
  | block => exact Or.inl rfl
  | blockStar => exact Or.inl rfl
  | strLit q pb => exact Or.inl rfl

/-- A scan that ends in default mode needs no finalization. -/
theorem finalizeScan_of_normal (s : ScanState) (h : s.mode = ScanMode.normal) :
    finalizeScan s = s := by
  rw [finalizeScan, h]

/-- A scan step never discards existing marks. -/
theorem scanStep_marks_subset (s : ScanState) (c : Char) :
    s.marks ⊆ (scanStep s c).marks := by
  cases hm : s.mode <;> rw [scanStep, hm] <;> dsimp only <;> split_ifs <;>
    first
      | exact List.Subset.refl _
      | exact List.subset_append_left _ _
      | exact (List.subset_append_left _ _).trans (List.subset_append_left _ _)

/-- Scanning never discards existing marks. -/
theorem scan_marks_subset (w : Str) :
    ∀ s : ScanState, s.marks ⊆ (w.foldl scanStep s).marks := by
  induction w with
  | nil => intro s; exact List.Subset.refl _
  | cons c v ih =>
    intro s
    rw [List.foldl_cons]
    exact (scanStep_marks_subset s c).trans (ih (scanStep s c))

/-- Finalizing never discards marks. -/
theorem finalizeScan_marks_subset (s : ScanState) :
    s.marks ⊆ (finalizeScan s).marks := by
  rcases finalizeScan_marks s with h | ⟨p, _, h⟩
  · rw [h]
    exact List.Subset.refl _
  · rw [h]
    exact List.subset_append_left _ _

/-- The character right after a left part, through an append. -/
theorem getD_concat_at (l1 : Str) (c : Char) (rest : Str) :
    (l1 ++ c :: rest).getD l1.length ' ' = c := by
  have h := getD_append_right' l1 (c :: rest) 0 ' '
  rw [Nat.add_zero] at h
  rw [h, List.getD_cons_zero]

/-- Inversion: a deleted index is either the last meaningful index, or the
second-to-last with a closing brace/bracket at the last. -/
theorem rtcDeletedIndex_inv (t : Str) {i : Nat} (h : rtcDeletedIndex t = some i) :
    (scanOf t).last = some i ∨
      ∃ b, (scanOf t).last = some b ∧ (t.getD b ' ' = '}' ∨ t.getD b ' ' = ']') ∧
        (scanOf t).last2 = some i := by
  rw [rtcDeletedIndex] at h
  rcases Option.eq_none_or_eq_some ((scanOf t).last) with hl | ⟨li, hl⟩
  · rw [hl] at h
    exact Option.noConfusion h
  · rw [hl] at h
    dsimp only at h
    by_cases hc : t.getD li ' ' = ','
    · rw [if_pos hc] at h
      exact Or.inl (hl.trans (congrArg some (Option.some.inj h)))
    · rw [if_neg hc] at h
      by_cases hb : t.getD li ' ' = '}' ∨ t.getD li ' ' = ']'
      · rw [if_pos hb, rtcSecondCase.eq_def] at h
        rcases Option.eq_none_or_eq_some ((scanOf t).last2) with h2 | ⟨si, h2⟩
        · rw [h2] at h
          exact Option.noConfusion h
        · rw [h2] at h
          dsimp only at h
          by_cases hc2 : t.getD si ' ' = ','
          · rw [if_pos hc2] at h
            exact Or.inr ⟨li, hl, hb, h2.trans (congrArg some (Option.some.inj h))⟩
          · rw [if_neg hc2] at h
            exact Option.noConfusion h
      · rw [if_neg hb] at h
        exact Option.noConfusion h

/-- A comma strictly inside a closed simple string literal is never the
deleted index: the scanner marks the whole literal, so the closing quote
dominates both recorded indices. -/
theorem rtc_string_safe (u v w : Str) (q : Char)
    (hq : q = '"' ∨ q = '\'') (hu : (rawScan u).mode = ScanMode.normal)
    (hv : ∀ c ∈ v, c ≠ q ∧ c ≠ '\\') (j : Nat)
    (hj1 : u.length + 1 ≤ j) (hj2 : j ≤ u.length + v.length) :
    rtcDeletedIndex (u ++ [q] ++ v ++ [q] ++ w) ≠ some j := by
  intro h
  set t := u ++ [q] ++ v ++ [q] ++ w with ht
  have hsplit : rawScan t = w.foldl scanStep
      (scanStep (v.foldl scanStep (scanStep (rawScan u) q)) q) := by
    rw [ht]
    simp only [rawScan, List.foldl_append, List.foldl_cons, List.foldl_nil]
  have h0i : (rawScan u).i = u.length := rawScan_i u
  have h1 := scanStep_normal_quote (rawScan u) q hu hq
  have h1mode : (scanStep (rawScan u) q).mode = ScanMode.strLit q false := by
    rw [h1]
  have h1i : (scanStep (rawScan u) q).i = u.length + 1 := by
    rw [h1]
    dsimp only
    rw [h0i]
  obtain ⟨h2mode, h2i, h2marks⟩ := scan_str_seg q v (scanStep (rawScan u) q) h1mode hv
  have h3 := scanStep_str_close (v.foldl scanStep (scanStep (rawScan u) q)) q h2mode
  have h3marks : (scanStep (v.foldl scanStep (scanStep (rawScan u) q)) q).marks
      = (v.foldl scanStep (scanStep (rawScan u) q)).marks
        ++ [u.length + 1 + v.length] := by
    rw [h3]
    dsimp only [mark]
    rw [h2i, h1i]
  have hcloseMem : (u.length + 1 + v.length) ∈ (scanOf t).marks := by
    refine finalizeScan_marks_subset (rawScan t) ?_
    rw [hsplit]
    refine scan_marks_subset w _ ?_
    rw [h3marks]
    exact List.mem_append.mpr (Or.inr (List.mem_singleton_self _))
  have hspanMem : ∀ x, u.length + 1 ≤ x → x ≤ u.length + v.length →
      x ∈ (scanOf t).marks := by
    intro x hx1 hx2
    have hx : x ∈ (v.foldl scanStep (scanStep (rawScan u) q)).marks := by
      rw [h2marks, h1i]
      refine List.mem_append.mpr (Or.inr ?_)
      rw [mem_spanList]
      omega
    have hx3 : x ∈ (scanStep (v.foldl scanStep (scanStep (rawScan u) q)) q).marks := by
      rw [h3marks]
      exact List.mem_append.mpr (Or.inl hx)
    have hx4 : x ∈ (rawScan t).marks := by
      rw [hsplit]
      exact scan_marks_subset w _ hx3
    exact finalizeScan_marks_subset _ hx4
  have hcloseChar : t.getD (u.length + 1 + v.length) ' ' = q := by
    have ht2 : t = (u ++ q :: v) ++ q :: w := by
      rw [ht]
      simp [List.append_assoc]
    have hlen : (u ++ q :: v).length = u.length + 1 + v.length := by
      rw [List.length_append, List.length_cons]
      omega
    rw [ht2, ← hlen]
    exact getD_concat_at _ q w
  have hinv := (scanOf_inv t).1
  rcases rtcDeletedIndex_inv t h with hl | ⟨b, hl, hbchar, hl2⟩
  · have hle := scanInv_last_max (scanOf t) hinv hl _ hcloseMem
    omega
  · by_cases hjb : j + 1 = b
    · have h1' := scanInv_last_max (scanOf t) hinv hl _ hcloseMem
      have hb : b = u.length + 1 + v.length := by omega
      rw [hb, hcloseChar] at hbchar
      rcases hq with rfl | rfl <;> rcases hbchar with h' | h' <;>
        exact absurd h' (by decide)
    · have hjmem : (j + 1) ∈ (scanOf t).marks := by
        rcases Nat.lt_or_ge j (u.length + v.length) with hlt | hge
        · exact hspanMem (j + 1) (by omega) (by omega)
        · have hje : j + 1 = u.length + 1 + v.length := by omega
          rw [hje]
          exact hcloseMem
      obtain ⟨m2, hm2, hle⟩ := scanInv_last2_max (scanOf t) hinv hl (j + 1) hjmem hjb
      rw [hl2] at hm2
      have hmj : j = m2 := Option.some.inj hm2
      omega

/-- An index inside a line comment (the two slashes or the body) is never
the deleted index: the comment contributes no marks. -/
theorem rtc_line_comment_safe (u c w : Str)
    (hu : (rawScan u).mode = ScanMode.normal) (hc : '\n' ∉ c) (j : Nat)
    (hj1 : u.length ≤ j) (hj2 : j ≤ u.length + 1 + c.length) :
    rtcDeletedIndex (u ++ ['/', '/'] ++ c ++ ['\n'] ++ w) ≠ some j := by
  intro h
  set t := u ++ ['/', '/'] ++ c ++ ['\n'] ++ w with ht
  have hsplit : rawScan t = w.foldl scanStep
      (scanStep (c.foldl scanStep (scanStep (scanStep (rawScan u) '/') '/')) '\n') := by
    rw [ht]
    simp only [rawScan, List.foldl_append, List.foldl_cons, List.foldl_nil]
  have h0i : (rawScan u).i = u.length := rawScan_i u
  have h0b : ∀ x ∈ (rawScan u).marks, x < u.length := by
    obtain ⟨hb, _, _, _, _, _⟩ := rawScan_inv u
    intro x hx
    rw [← h0i]
    exact hb x hx
  have h1 := scanStep_normal_slash (rawScan u) hu
  have h2 := scanStep_slash_line (scanStep (rawScan u) '/') (rawScan u).i (by rw [h1])
  have h2eq : scanStep (scanStep (rawScan u) '/') '/'
      = { rawScan u with mode := ScanMode.line, i := (rawScan u).i + 1 + 1 } := by
    rw [h2, h1]
  have h3 := scan_line_seg c
    { rawScan u with mode := ScanMode.line, i := (rawScan u).i + 1 + 1 } rfl hc
  have h4eq : scanStep (c.foldl scanStep (scanStep (scanStep (rawScan u) '/') '/')) '\n'
      = { rawScan u with mode := ScanMode.normal, i := (rawScan u).i + 1 + 1 + c.length + 1 } := by
    rw [h2eq, h3, scanStep_line _ _ rfl, if_pos rfl]
  obtain ⟨g1, g2⟩ := scan_marks_ge w
    { rawScan u with mode := ScanMode.normal, i := (rawScan u).i + 1 + 1 + c.length + 1 }
    ((rawScan u).i + 1 + 1 + c.length + 1) (Nat.le_refl _)
    (fun p hp => ScanMode.noConfusion hp)
  obtain ⟨hmem, _⟩ := rtcDeletedIndex_mem_marks t h
  have hjraw : j ∈ (rawScan t).marks ∨
      ∃ p, (rawScan t).mode = ScanMode.slash p ∧ j = p := by
    rcases finalizeScan_marks (rawScan t) with hf | ⟨p, hpm, hf⟩
    · rw [scanOf, hf] at hmem
      exact Or.inl hmem
    · rw [scanOf, hf] at hmem
      rcases List.mem_append.mp hmem with hmem' | hmem'
      · exact Or.inl hmem'
      · exact Or.inr ⟨p, hpm, List.mem_singleton.mp hmem'⟩
  rcases hjraw with hjraw | ⟨p, hpm, rfl⟩
  · rw [hsplit, h4eq] at hjraw
    rcases g1 j hjraw with hj' | hge
    · exact absurd (h0b j hj') (by omega)
    · rw [h0i] at hge
      omega
  · rw [hsplit, h4eq] at hpm
    have := g2 j hpm
    rw [h0i] at this
    omega

/-- An index inside a block comment (delimiters included) is never the
deleted index. -/
theorem rtc_block_comment_safe (u c w : Str)
    (hu : (rawScan u).mode = ScanMode.normal)
    (hadj : ∀ k, k + 1 < c.length → ¬(c.getD k ' ' = '*' ∧ c.getD (k + 1) ' ' = '/'))
    (j : Nat) (hj1 : u.length ≤ j) (hj2 : j ≤ u.length + 3 + c.length) :
    rtcDeletedIndex (u ++ ['/', '*'] ++ c ++ ['*', '/'] ++ w) ≠ some j := by
  intro h
  set t := u ++ ['/', '*'] ++ c ++ ['*', '/'] ++ w with ht
  have hsplit : rawScan t = w.foldl scanStep
      (scanStep (scanStep
        (c.foldl scanStep (scanStep (scanStep (rawScan u) '/') '*')) '*') '/') := by
    rw [ht]
    simp only [rawScan, List.foldl_append, List.foldl_cons, List.foldl_nil]
  have h0i : (rawScan u).i = u.length := rawScan_i u
  have h0b : ∀ x ∈ (rawScan u).marks, x < u.length := by
    obtain ⟨hb, _, _, _, _, _⟩ := rawScan_inv u
    intro x hx
    rw [← h0i]
    exact hb x hx
  have h1 := scanStep_normal_slash (rawScan u) hu
  have h2 := scanStep_slash_block (scanStep (rawScan u) '/') (rawScan u).i (by rw [h1])
  have h2eq : scanStep (scanStep (rawScan u) '/') '*'
      = { rawScan u with mode := ScanMode.block, i := (rawScan u).i + 1 + 1 } := by
    rw [h2, h1]
  obtain ⟨b1, b2, b3, b4, b5⟩ := scan_block_seg c
    { rawScan u with mode := ScanMode.block, i := (rawScan u).i + 1 + 1 }
    (Or.inl rfl) (fun hmode => absurd hmode (fun hx => ScanMode.noConfusion hx)) hadj
  rw [h2eq] at hsplit
  set s3 := c.foldl scanStep
    { rawScan u with mode := ScanMode.block, i := (rawScan u).i + 1 + 1 } with hs3
  have h4 : scanStep s3 '*' = { s3 with mode := ScanMode.blockStar, i := s3.i + 1 } := by
    rcases b1 with hb | hb
    · rw [scanStep_block s3 '*' hb, if_pos rfl]
    · rw [scanStep_blockStar s3 '*' hb, if_neg (by decide), if_pos rfl, hb]
  have h5 : scanStep (scanStep s3 '*') '/'
      = { s3 with mode := ScanMode.normal, i := s3.i + 1 + 1 } := by
    rw [h4, scanStep_blockStar _ '/' rfl, if_pos rfl]
  obtain ⟨g1, g2⟩ := scan_marks_ge w
    { s3 with mode := ScanMode.normal, i := s3.i + 1 + 1 }
    (s3.i + 1 + 1) (Nat.le_refl _) (fun p hp => ScanMode.noConfusion hp)
  have hs3i : s3.i = u.length + 2 + c.length := by
    rw [b2]
    dsimp only
    rw [h0i]
  obtain ⟨hmem, _⟩ := rtcDeletedIndex_mem_marks t h
  have hjraw : j ∈ (rawScan t).marks ∨
      ∃ p, (rawScan t).mode = ScanMode.slash p ∧ j = p := by
    rcases finalizeScan_marks (rawScan t) with hf | ⟨p, hpm, hf⟩
    · rw [scanOf, hf] at hmem
      exact Or.inl hmem
    · rw [scanOf, hf] at hmem
      rcases List.mem_append.mp hmem with hmem' | hmem'
      · exact Or.inl hmem'
      · exact Or.inr ⟨p, hpm, List.mem_singleton.mp hmem'⟩
  rcases hjraw with hjraw | ⟨p, hpm, rfl⟩
  · rw [hsplit, h5] at hjraw
    rcases g1 j hjraw with hj' | hge
    · rw [b3] at hj'
      exact absurd (h0b j hj') (by omega)
    · omega
  · rw [hsplit, h5] at hpm
    have := g2 j hpm
    omega

/-- A comma separated from the closing brace only by whitespace and a line
comment is still detected and removed. -/
theorem rtc_comma_line_comment_removed (u ws1 c ws2 ws3 : Str)
    (hu : (rawScan u).mode = ScanMode.normal)
    (h1 : ∀ x ∈ ws1, jsIsSpace x = true) (hc : '\n' ∉ c)
    (h2 : ∀ x ∈ ws2, jsIsSpace x = true) (h3 : ∀ x ∈ ws3, jsIsSpace x = true) :
    removeTrailingComma
        (u ++ [','] ++ ws1 ++ ['/', '/'] ++ c ++ ['\n'] ++ ws2 ++ ['}'] ++ ws3)
      = u ++ ws1 ++ ['/', '/'] ++ c ++ ['\n'] ++ ws2 ++ ['}'] ++ ws3 := by
  set t := u ++ [','] ++ ws1 ++ ['/', '/'] ++ c ++ ['\n'] ++ ws2 ++ ['}'] ++ ws3 with ht
  have h0i : (rawScan u).i = u.length := rawScan_i u
  have hsplit : rawScan t = ws3.foldl scanStep (scanStep (ws2.foldl scanStep
      (scanStep (c.foldl scanStep (scanStep (scanStep (ws1.foldl scanStep
        (scanStep (rawScan u) ',')) '/') '/')) '\n')) '}') := by
    rw [ht]
    simp only [rawScan, List.foldl_append, List.foldl_cons, List.foldl_nil]
  have ht2 : t = u ++ ',' :: (ws1 ++ ['/', '/'] ++ c ++ ['\n'] ++ ws2 ++ ['}'] ++ ws3) := by
    rw [ht]
    simp [List.append_assoc]
  have ht3 : t = (u ++ [','] ++ ws1 ++ ['/', '/'] ++ c ++ ['\n'] ++ ws2) ++ '}' :: ws3 := by
    rw [ht]
    simp [List.append_assoc]
  set σ1 := scanStep (rawScan u) ',' with hσ1
  set σ2 := ws1.foldl scanStep σ1 with hσ2
  set σ3 := scanStep σ2 '/' with hσ3
  set σ4 := scanStep σ3 '/' with hσ4
  set σ5 := c.foldl scanStep σ4 with hσ5
  set σ6 := scanStep σ5 '\n' with hσ6
  set σ7 := ws2.foldl scanStep σ6 with hσ7
  set σ8 := scanStep σ7 '}' with hσ8
  set σ9 := ws3.foldl scanStep σ8 with hσ9
  have e1 : σ1 = { mark (rawScan u) (rawScan u).i with i := (rawScan u).i + 1 } := by
    rw [hσ1]
    exact scanStep_normal_mark (rawScan u) ',' hu (by decide) (by decide) (by decide)
  have f1m : σ1.mode = ScanMode.normal := by rw [e1]; exact hu
  have f1i : σ1.i = u.length + 1 := by
    rw [e1]
    dsimp only
    rw [h0i]
  have f1l : σ1.last = some u.length := by
    rw [e1]
    dsimp only [mark]
    rw [h0i]
  have e2 : σ2 = { σ1 with i := σ1.i + ws1.length } := by
    rw [hσ2]
    exact scan_ws_seg ws1 σ1 f1m h1
  have f2m : σ2.mode = ScanMode.normal := by rw [e2]; exact f1m
  have f2i : σ2.i = u.length + 1 + ws1.length := by rw [e2]; dsimp only; rw [f1i]
  have f2l : σ2.last = some u.length := by rw [e2]; exact f1l
  have e3 : σ3 = { σ2 with mode := ScanMode.slash σ2.i, i := σ2.i + 1 } := by
    rw [hσ3]
    exact scanStep_normal_slash σ2 f2m
  have f3m : σ3.mode = ScanMode.slash σ2.i := by rw [e3]
  have f3i : σ3.i = u.length + 1 + ws1.length + 1 := by rw [e3]; dsimp only; rw [f2i]
  have f3l : σ3.last = some u.length := by rw [e3]; exact f2l
  have e4 : σ4 = { σ3 with mode := ScanMode.line, i := σ3.i + 1 } := by
    rw [hσ4]
    exact scanStep_slash_line σ3 σ2.i f3m
  have f4m : σ4.mode = ScanMode.line := by rw [e4]
  have f4i : σ4.i = u.length + 1 + ws1.length + 1 + 1 := by rw [e4]; dsimp only; rw [f3i]
  have f4l : σ4.last = some u.length := by rw [e4]; exact f3l
  have e5 : σ5 = { σ4 with i := σ4.i + c.length } := by
    rw [hσ5]
    exact scan_line_seg c σ4 f4m hc
  have f5m : σ5.mode = ScanMode.line := by rw [e5]; exact f4m
  have f5i : σ5.i = u.length + 1 + ws1.length + 1 + 1 + c.length := by
    rw [e5]
    dsimp only
    rw [f4i]
  have f5l : σ5.last = some u.length := by rw [e5]; exact f4l
  have e6 : σ6 = { σ5 with mode := ScanMode.normal, i := σ5.i + 1 } := by
    rw [hσ6, scanStep_line σ5 '\n' f5m, if_pos rfl]
  have f6m : σ6.mode = ScanMode.normal := by rw [e6]
  have f6i : σ6.i = u.length + 1 + ws1.length + 1 + 1 + c.length + 1 := by
    rw [e6]
    dsimp only
    rw [f5i]
  have f6l : σ6.last = some u.length := by rw [e6]; exact f5l
  have e7 : σ7 = { σ6 with i := σ6.i + ws2.length } := by
    rw [hσ7]
    exact scan_ws_seg ws2 σ6 f6m h2
  have f7m : σ7.mode = ScanMode.normal := by rw [e7]; exact f6m
  have f7i : σ7.i = u.length + 1 + ws1.length + 1 + 1 + c.length + 1 + ws2.length := by
    rw [e7]
    dsimp only
    rw [f6i]
  have f7l : σ7.last = some u.length := by rw [e7]; exact f6l
  have e8 : σ8 = { mark σ7 σ7.i with i := σ7.i + 1 } := by
    rw [hσ8]
    exact scanStep_normal_mark σ7 '}' f7m (by decide) (by decide) (by decide)
  have f8m : σ8.mode = ScanMode.normal := by rw [e8]; exact f7m
  have f8l : σ8.last = some σ7.i := by
    rw [e8]
    dsimp only [mark]
  have f8l2 : σ8.last2 = some u.length := by
    rw [e8]
    dsimp only [mark]
    exact f7l
  have e9 : σ9 = { σ8 with i := σ8.i + ws3.length } := by
    rw [hσ9]
    exact scan_ws_seg ws3 σ8 f8m h3
  have f9m : σ9.mode = ScanMode.normal := by rw [e9]; exact f8m
  have f9l : σ9.last = some σ7.i := by rw [e9]; exact f8l
  have f9l2 : σ9.last2 = some u.length := by rw [e9]; exact f8l2
  have hfin : scanOf t = σ9 := by
    rw [scanOf, hsplit]
    exact finalizeScan_of_normal σ9 f9m
  have hlast : (scanOf t).last = some σ7.i := by rw [hfin]; exact f9l
  have hlast2 : (scanOf t).last2 = some u.length := by rw [hfin]; exact f9l2
  have hLlen : (u ++ [','] ++ ws1 ++ ['/', '/'] ++ c ++ ['\n'] ++ ws2).length = σ7.i := by
    rw [f7i]
    simp only [List.length_append, List.length_cons, List.length_nil]
  have hcharB : t.getD σ7.i ' ' = '}' := by
    rw [ht3, ← hLlen]
    exact getD_concat_at _ '}' ws3
  have hchar1 : t.getD u.length ' ' = ',' := by
    rw [ht2]
    exact getD_concat_at u ',' _
  have hdel : rtcDeletedIndex t = some u.length := by
    rw [rtcDeletedIndex, hlast]
    dsimp only
    rw [hcharB, if_neg (by decide), if_pos (Or.inl rfl), rtcSecondCase.eq_def, hlast2]
    dsimp only
    rw [hchar1, if_pos rfl]
  rw [removeTrailingComma_eq_deleted, hdel]
  dsimp only
  have htake : t.take u.length = u := by
    rw [ht2]
    exact List.take_left' rfl
  have hdrop : t.drop (u.length + 1)
      = ws1 ++ ['/', '/'] ++ c ++ ['\n'] ++ ws2 ++ ['}'] ++ ws3 := by
    have ht4 : t = (u ++ [','])
        ++ (ws1 ++ ['/', '/'] ++ c ++ ['\n'] ++ ws2 ++ ['}'] ++ ws3) := by
      rw [ht]
      simp [List.append_assoc]
    rw [ht4]
    refine List.drop_left' ?_
    simp
  rw [htake, hdrop]
  simp [List.append_assoc]

/-- C5 counterexample: in the document `",]` the comma is scanned inside an
unterminated string literal, yet `removeTrailingComma` deletes it. -/
theorem C5_string_comma_counterexample :
    (rawScan (str "\",]")).mode = ScanMode.strLit '"' false ∧
    removeTrailingComma (str "\",]") = str "\"]" := by decide

/-- C5 (amended): a deleted comma is always at the last meaningful index, or
at the second-to-last with a closing brace/bracket last; the only change is
the deletion of that comma; an index strictly inside a closed simple string
literal, or anywhere in a line or block comment, is never deleted; and a
comma separated from the closing brace only by whitespace and a line comment
is detected and removed. (Unterminated string literals are not protected:
see the counterexample.) -/
theorem C5_remove_comma_scanner (t : Str) :
    (∀ i, rtcDeletedIndex t = some i →
      t.getD i ' ' = ',' ∧ i ∈ (scanOf t).marks ∧
      (getLastMeaningfulCharacterIndex t = some i ∨
        ∃ b, getLastMeaningfulCharacterIndex t = some b ∧
          (t.getD b ' ' = '}' ∨ t.getD b ' ' = ']') ∧ (scanOf t).last2 = some i)) ∧
    (removeTrailingComma t = t ∨
      ∃ i, rtcDeletedIndex t = some i ∧
        removeTrailingComma t = t.take i ++ t.drop (i + 1)) ∧
    (∀ u v w q j, t = u ++ [q] ++ v ++ [q] ++ w → (q = '"' ∨ q = '\'') →
      (rawScan u).mode = ScanMode.normal → (∀ c ∈ v, c ≠ q ∧ c ≠ '\\') →
      u.length + 1 ≤ j → j ≤ u.length + v.length →
      rtcDeletedIndex t ≠ some j) ∧
    (∀ u c w j, t = u ++ ['/', '/'] ++ c ++ ['\n'] ++ w →
      (rawScan u).mode = ScanMode.normal → '\n' ∉ c →
      u.length ≤ j → j ≤ u.length + 1 + c.length →
      rtcDeletedIndex t ≠ some j) ∧
    (∀ u c w j, t = u ++ ['/', '*'] ++ c ++ ['*', '/'] ++ w →
      (rawScan u).mode = ScanMode.normal →
      (∀ k, k + 1 < c.length → ¬(c.getD k ' ' = '*' ∧ c.getD (k + 1) ' ' = '/')) →
      u.length ≤ j → j ≤ u.length + 3 + c.length →
      rtcDeletedIndex t ≠ some j) ∧
    (∀ u ws1 c ws2 ws3,
      t = u ++ [','] ++ ws1 ++ ['/', '/'] ++ c ++ ['\n'] ++ ws2 ++ ['}'] ++ ws3 →
      (rawScan u).mode = ScanMode.normal →
      (∀ x ∈ ws1, jsIsSpace x = true) → '\n' ∉ c →
      (∀ x ∈ ws2, jsIsSpace x = true) → (∀ x ∈ ws3, jsIsSpace x = true) →
      removeTrailingComma t
        = u ++ ws1 ++ ['/', '/'] ++ c ++ ['\n'] ++ ws2 ++ ['}'] ++ ws3) := by
  refine ⟨?_, ?_, ?_, ?_, ?_, ?_⟩
  · intro i h
    obtain ⟨hm, hc⟩ := rtcDeletedIndex_mem_marks t h
    exact ⟨hc, hm, rtcDeletedIndex_inv t h⟩
  · rw [removeTrailingComma_eq_deleted t]
    rcases Option.eq_none_or_eq_some (rtcDeletedIndex t) with h | ⟨i, h⟩
    · rw [h]
      exact Or.inl rfl
    · rw [h]
      exact Or.inr ⟨i, rfl, rfl⟩
  · intro u v w q j heq hq hu hv hj1 hj2
    rw [heq]
    exact rtc_string_safe u v w q hq hu hv j hj1 hj2
  · intro u c w j heq hu hcn hj1 hj2
    rw [heq]
    exact rtc_line_comment_safe u c w hu hcn j hj1 hj2
  · intro u c w j heq hu hadj hj1 hj2
    rw [heq]
    exact rtc_block_comment_safe u c w hu hadj j hj1 hj2
  · intro u ws1 c ws2 ws3 heq hu h1 hcn h2 h3
    rw [heq]
    exact rtc_comma_line_comment_removed u ws1 c ws2 ws3 hu h1 hcn h2 h3

/-- Witness for C5: the comma before the line comment in
`{"a": 1, // x\n}` is removed. -/
theorem C5_remove_comma_scanner_witness :
    removeTrailingComma (str "\x7b\"a\": 1, // x\n\x7d")
      = str "\x7b\"a\": 1" ++ [' '] ++ ['/', '/'] ++ str " x" ++ ['\n']
        ++ ([] : Str) ++ ['}'] ++ ([] : Str) ∧
    str "\x7b\"a\": 1" ++ [' '] ++ ['/', '/'] ++ str " x" ++ ['\n']
        ++ ([] : Str) ++ ['}'] ++ ([] : Str) = str "\x7b\"a\": 1 // x\n\x7d" :=
  ⟨((C5_remove_comma_scanner (str "\x7b\"a\": 1, // x\n\x7d")).2.2.2.2.2)
      (str "\x7b\"a\": 1") [' '] (str " x") [] []
      (by decide) (by decide) (by decide) (by decide) (by decide) (by decide),
    by decide⟩

/-! ### Claim C7 — the inherited overlay is key-sorted -/

/-- `sortSettings(settings)`: `Object.keys(settings).sort((a, b) =>
a.localeCompare(b)).reduce((acc, key) => { acc[key] = settings[key]; return
acc; }, {})`. The comparator `le` models the total preorder induced by
`localeCompare`. -/
def sortSettings {V : Type} (le : String → String → Prop) [DecidableRel le]
    (settings : Rec V) : Rec V :=
  ((recKeys settings).insertionSort le).foldl
    (fun acc key =>
      match List.lookup key settings with
      | some v => recInsert acc key v
      | none => acc) []

/-- `getInheritedSettings`: the diff of the parent overlay against the
current profile's overlay, sorted. -/
def getInheritedSettings {V W : Type} (le : String → String → Prop)
    [DecidableRel le] (parentProfileSettings : Rec V)
    (currentProfileSettings : Rec W) : Rec V :=
  sortSettings le (subtractSettings parentProfileSettings currentProfileSettings)

theorem lookup_isSome_of_mem (r : Rec V) (k : String) (h : k ∈ recKeys r) :
    ∃ v, List.lookup k r = some v := by
  induction r with
  | nil => simp [recKeys] at h
  | cons kv rest ih =>
    rw [lookup_cons']
    by_cases he : k = kv.1
    · rw [if_pos he]
      exact ⟨kv.2, rfl⟩
    · rw [if_neg he]
      refine ih ?_
      simp only [recKeys, List.map_cons, List.mem_cons] at h
      rcases h with h | h
      · exact absurd h he
      · exact h

/-- Folding JS assignment over fresh distinct keys present in the source
record produces exactly those keys, in order. -/
theorem recKeys_sortFold {V : Type} (s : Rec V) :
    ∀ (ks : List String) (acc : Rec V),
      (∀ k ∈ ks, containsKey s k = true) →
      (∀ k ∈ ks, containsKey acc k = false) →
      ks.Nodup →
      recKeys (ks.foldl (fun acc key =>
        match List.lookup key s with
        | some v => recInsert acc key v
        | none => acc) acc) = recKeys acc ++ ks := by
  intro ks
  induction ks with
  | nil =>
    intro acc _ _ _
    simp
  | cons k ks ih =>
    intro acc hs hacc hnd
    rw [List.foldl_cons]
    obtain ⟨v, hv⟩ := lookup_isSome_of_mem s k
      ((containsKey_eq_mem s k).mp (hs k (List.mem_cons_self k ks)))
    have hk : containsKey acc k = false := hacc k (List.mem_cons_self k ks)
    have hstep : (match List.lookup k s with
        | some v => recInsert acc k v
        | none => acc) = acc ++ [(k, v)] := by
      rw [hv]
      exact recInsert_of_not_containsKey acc k v hk
    rw [hstep]
    have hknotin : k ∉ ks := (List.nodup_cons.mp hnd).1
    have hrec : recKeys (acc ++ [(k, v)]) = recKeys acc ++ [k] := by
      rw [recKeys_append]
      rfl
    rw [ih (acc ++ [(k, v)])
      (fun k' hk' => hs k' (List.mem_cons_of_mem k hk'))
      (fun k' hk' => by
        rw [containsKey_false_iff, hrec]
        intro hmem
        rcases List.mem_append.mp hmem with hm | hm
        · exact (containsKey_false_iff acc k').mp
            (hacc k' (List.mem_cons_of_mem k hk')) hm
        · rw [List.mem_singleton.mp hm] at hk'
          exact hknotin hk')
      (List.nodup_cons.mp hnd).2]
    rw [hrec, List.append_assoc]
    rfl

/-- C7: for any total, transitive comparator (such as the order induced by
`localeCompare`) and any parent/current overlays with unique parent keys,
the inherited overlay `getInheritedSettings` has its keys sorted ascending,
and those keys are exactly the keys of the diff. -/
theorem C7_inherited_sorted {V W : Type} (le : String → String → Prop)
    [DecidableRel le] [IsTotal String le] [IsTrans String le]
    (parent : Rec V) (current : Rec W) (hnd : (recKeys parent).Nodup) :
    List.Sorted le (recKeys (getInheritedSettings le parent current)) ∧
    (recKeys (getInheritedSettings le parent current)).Perm
      (recKeys (subtractSettings parent current)) := by
  have hsub : (recKeys (subtractSettings parent current)).Nodup := by
    rw [subtract_eq_filter parent current hnd]
    have hsl : List.Sublist (parent.filter fun kv => !containsKey current kv.1)
        parent := List.filter_sublist _
    exact (hsl.map Prod.fst).nodup hnd
  have hkeys : recKeys (getInheritedSettings le parent current)
      = (recKeys (subtractSettings parent current)).insertionSort le := by
    rw [getInheritedSettings, sortSettings]
    have hfold := recKeys_sortFold (subtractSettings parent current)
      ((recKeys (subtractSettings parent current)).insertionSort le) []
      (fun k hk => (containsKey_eq_mem _ k).mpr
        ((List.perm_insertionSort le _).subset hk))
      (fun k _ => rfl)
      ((List.perm_insertionSort le _).nodup_iff.mpr hsub)
    simpa using hfold
  constructor
  · rw [hkeys]
    exact List.sorted_insertionSort le _
  · rw [hkeys]
    exact List.perm_insertionSort le _

/-- Witness for C7 with the standard string order and a concrete diff. -/
theorem C7_inherited_sorted_witness :
    (recKeys [("b", "1"), ("a", "2")]).Nodup ∧
    List.Sorted (· ≤ ·)
      (recKeys (getInheritedSettings (· ≤ ·)
        [("b", "1"), ("a", "2")] ([] : Rec String))) :=
  ⟨by decide,
    (C7_inherited_sorted (· ≤ ·) [("b", "1"), ("a", "2")] ([] : Rec String)
      (by decide)).1⟩

/-! ### Claim C3 — idempotence of the remove/insert pipeline -/

/-- `pat` occurs in `t` at position `j`. -/
def OccAt (pat t : Str) (j : Nat) : Prop := pat <+: t.drop j

/-- Bounded, decidable no-occurrence statement (used as a hypothesis a
witness can evaluate). -/
def NoOccB (pat t : Str) : Prop :=
  ∀ j ≤ t.length, pat.isPrefixOf (t.drop j) = false

instance noOccB_decidable (pat t : Str) : Decidable (NoOccB pat t) :=
  inferInstanceAs (Decidable (∀ j ≤ t.length, pat.isPrefixOf (t.drop j) = false))

theorem drop_append_le (X Y : Str) : ∀ (j : Nat), j ≤ X.length →
    (X ++ Y).drop j = X.drop j ++ Y := by
  induction X with
  | nil =>
    intro j hj
    have : j = 0 := Nat.le_zero.mp hj
    subst this
    rfl
  | cons c X ih =>
    intro j hj
    cases j with
    | zero => rfl
    | succ j =>
      rw [List.cons_append, List.drop_succ_cons, List.drop_succ_cons]
      exact ih j (Nat.le_of_succ_le_succ hj)

theorem drop_append_add (X Y : Str) (k : Nat) :
    (X ++ Y).drop (X.length + k) = Y.drop k := by
  rw [← List.drop_drop, List.drop_left]

theorem noOccB_occAt (pat t : Str) (h : NoOccB pat t) (hne : pat ≠ []) :
    ∀ j, ¬ OccAt pat t j := by
  intro j hocc
  by_cases hj : j ≤ t.length
  · have hb : pat.isPrefixOf (t.drop j) = true :=
      List.isPrefixOf_iff_prefix.mpr hocc
    rw [h j hj] at hb
    exact Bool.noConfusion hb
  · have hd : t.drop j = [] := List.drop_eq_nil_of_le (show t.length ≤ j by omega)
    rw [OccAt, hd] at hocc
    exact hne (List.prefix_nil.mp hocc)

theorem occAt_length (pat t : Str) (j : Nat) (hne : pat ≠ [])
    (h : OccAt pat t j) : j + pat.length ≤ t.length := by
  have h1 := h.length_le
  rw [List.length_drop] at h1
  have h2 : 1 ≤ pat.length := List.length_pos.mpr hne
  omega

theorem occAt_getD (pat t : Str) (j : Nat) (h : OccAt pat t j) :
    ∀ i, i < pat.length → t.getD (j + i) ' ' = pat.getD i ' ' := by
  intro i hi
  obtain ⟨rest, hrest⟩ := h
  have hdg : (t.drop j).getD i ' ' = pat.getD i ' ' := by
    rw [← hrest]
    exact getD_append_left' pat rest i hi ' '
  rw [← hdg, List.getD_eq_getElem?_getD, List.getD_eq_getElem?_getD,
    List.getElem?_drop]

/-- An occurrence covering position `n` forces the character there to be one
of the pattern's characters. -/
theorem occAt_covers (pat t : Str) (j n : Nat) (h : OccAt pat t j)
    (h1 : j ≤ n) (h2 : n < j + pat.length) : t.getD n ' ' ∈ pat := by
  have hch := occAt_getD pat t j h (n - j) (by omega)
  have hn : j + (n - j) = n := by omega
  rw [hn] at hch
  rw [hch]
  exact getD_mem' (by omega)

/-- A contained occurrence in the left part of an append. -/
theorem occAt_of_contained (pat X Y : Str) (j : Nat)
    (h : OccAt pat (X ++ Y) j) (hj : j ≤ X.length)
    (hlen : j + pat.length ≤ X.length) : OccAt pat X j := by
  rw [OccAt, drop_append_le X Y j hj] at h
  refine List.prefix_of_prefix_length_le h (List.prefix_append _ _) ?_
  rw [List.length_drop]
  omega

theorem occAt_mono_prefix (pat x y : Str) (j : Nat) (hxy : x <+: y)
    (h : OccAt pat x j) : OccAt pat y j := by
  obtain ⟨rest, hrest⟩ := hxy
  rw [OccAt, ← hrest]
  by_cases hj : j ≤ x.length
  · rw [drop_append_le x rest j hj]
    exact h.trans (List.prefix_append _ _)
  · have hd : x.drop j = [] := List.drop_eq_nil_of_le (by omega)
    rw [OccAt, hd] at h
    have : pat = [] := List.prefix_nil.mp h
    subst this
    exact List.nil_prefix

/-- Whitespace cannot start a marker occurrence: skip a whitespace run. -/
theorem noOccP_ws_append (pat τ Y : Str)
    (hws : ∀ c ∈ τ, jsIsSpace c = true)
    (hfirst : jsIsSpace (pat.getD 0 ' ') = false) (hne : pat ≠ [])
    (hY : ∀ j, ¬ OccAt pat Y j) : ∀ j, ¬ OccAt pat (τ ++ Y) j := by
  intro j hocc
  by_cases hj : j < τ.length
  · have hch := occAt_getD pat _ j hocc 0 (by
      cases pat with
      | nil => exact absurd rfl hne
      | cons c p => simp)
    rw [Nat.add_zero, getD_append_left' τ Y j hj ' '] at hch
    have : jsIsSpace (τ.getD j ' ') = true := hws _ (getD_mem' hj)
    rw [hch, hfirst] at this
    exact Bool.noConfusion this
  · have hj' : j = τ.length + (j - τ.length) := by omega
    rw [OccAt, hj', drop_append_add] at hocc
    exact hY (j - τ.length) hocc

/-- Occurrences cannot cross a newline if the pattern has none: skip a line. -/
theorem noOccP_line_append (pat X Y : Str) (hnl : '\n' ∉ pat)
    (hX : ∀ j, ¬ OccAt pat X j) (hY : ∀ j, ¬ OccAt pat Y j) :
    ∀ j, ¬ OccAt pat (X ++ ['\n'] ++ Y) j := by
  intro j hocc
  by_cases hj : j ≤ X.length
  · by_cases hlen : j + pat.length ≤ X.length
    · refine hX j (occAt_of_contained pat X (['\n'] ++ Y) j ?_ hj hlen)
      rw [← List.append_assoc]
      exact hocc
    · have hcov : ((X ++ ['\n']) ++ Y).getD X.length ' ' ∈ pat := by
        refine occAt_covers pat _ j X.length hocc hj (by omega)
      rw [getD_append_left' _ Y X.length (by simp) ' ',
        getD_concat_at X '\n' []] at hcov
      exact hnl hcov
  · have hj' : j = (X ++ ['\n']).length + (j - X.length - 1) := by
      simp only [List.length_append, List.length_cons, List.length_nil]
      omega
    rw [OccAt, hj', drop_append_add] at hocc
    exact hY (j - X.length - 1) hocc

/-- A pattern that ends its own line: its first occurrence after a known
clean prefix, a newline, and an indentation run is exactly there. -/
theorem indexOfAux_spec (pat : Str) : ∀ (s : Str) (q k : Nat),
    pat.isPrefixOf (s.drop k) = true →
    (∀ j, j < k → pat.isPrefixOf (s.drop j) = false) →
    indexOfAux pat s q = some (q + k) := by
  intro s
  induction s with
  | nil =>
    intro q k hk hlt
    cases k with
    | zero =>
      rw [List.drop_zero] at hk
      rw [indexOfAux, if_pos hk]
      rfl
    | succ k =>
      exfalso
      have h0 := hlt 0 (Nat.succ_pos k)
      rw [List.drop_nil] at hk h0
      rw [hk] at h0
      exact Bool.noConfusion h0
  | cons c rest ih =>
    intro q k hk hlt
    cases k with
    | zero =>
      rw [List.drop_zero] at hk
      rw [indexOfAux, if_pos hk]
      rfl
    | succ k =>
      have h0 := hlt 0 (Nat.succ_pos k)
      rw [List.drop_zero] at h0
      rw [indexOfAux, if_neg (by rw [h0]; exact Bool.noConfusion)]
      have := ih (q + 1) k
        (by rw [← List.drop_succ_cons (l := rest) (a := c)]; exact hk)
        (fun j hj => by
          have := hlt (j + 1) (by omega)
          rw [List.drop_succ_cons] at this
          exact this)
      rw [this]
      congr 1
      omega

theorem strIndexOf_eq_some (t pat : Str) (k : Nat)
    (hocc : OccAt pat t k) (hlt : ∀ j < k, ¬ OccAt pat t j) :
    strIndexOf t pat = some k := by
  rw [strIndexOf]
  have hspec := indexOfAux_spec pat t 0 k
    (List.isPrefixOf_iff_prefix.mpr hocc)
    (fun j hj => by
      cases hb : pat.isPrefixOf (t.drop j) with
      | false => rfl
      | true => exact absurd (List.isPrefixOf_iff_prefix.mp hb) (hlt j hj))
  rw [hspec, Nat.zero_add]

theorem indexOfAux_ne_none (pat : Str) : ∀ (s : Str) (q k : Nat),
    pat.isPrefixOf (s.drop k) = true → indexOfAux pat s q ≠ none := by
  intro s
  induction s with
  | nil =>
    intro q k hk
    rw [List.drop_nil] at hk
    rw [indexOfAux, if_pos hk]
    exact Option.some_ne_none q
  | cons c rest ih =>
    intro q k hk
    rw [indexOfAux]
    by_cases hp : pat.isPrefixOf (c :: rest) = true
    · rw [if_pos hp]
      exact Option.some_ne_none q
    · rw [if_neg hp]
      cases k with
      | zero =>
        rw [List.drop_zero] at hk
        exact absurd hk hp
      | succ k =>
        rw [List.drop_succ_cons] at hk
        exact ih (q + 1) k hk

theorem strIndexOf_none_noOcc (t pat : Str) (h : strIndexOf t pat = none) :
    ∀ j, ¬ OccAt pat t j := by
  intro j hocc
  exact indexOfAux_ne_none pat t 0 j (List.isPrefixOf_iff_prefix.mpr hocc) h

/-- The first occurrence of a newline-free, non-whitespace-leading marker
after a clean prefix, a newline, and an indentation run is exactly past
them. -/
theorem strIndexOf_marker (pat PRE0 τe POST : Str)
    (hne : pat ≠ []) (hnl : '\n' ∉ pat)
    (hfirst : jsIsSpace (pat.getD 0 ' ') = false)
    (hws : ∀ c ∈ τe, jsIsSpace c = true)
    (hPRE0 : ∀ j, ¬ OccAt pat PRE0 j) :
    strIndexOf (PRE0 ++ ['\n'] ++ τe ++ pat ++ POST) pat
      = some (PRE0.length + 1 + τe.length) := by
  apply strIndexOf_eq_some
  · have hlen : (PRE0 ++ ['\n'] ++ τe).length = PRE0.length + 1 + τe.length := by
      simp only [List.length_append, List.length_cons, List.length_nil]
    rw [OccAt, ← hlen, List.append_assoc (PRE0 ++ ['\n'] ++ τe) pat POST,
      List.drop_left]
    exact List.prefix_append pat POST
  · intro j hj hocc
    have ht : (PRE0 ++ ['\n'] ++ τe ++ pat ++ POST)
        = PRE0 ++ ('\n' :: (τe ++ (pat ++ POST))) := by
      simp [List.append_assoc]
    have hpat1 : 0 < pat.length := List.length_pos.mpr hne
    by_cases h1 : j + pat.length ≤ PRE0.length
    · rw [ht] at hocc
      exact hPRE0 j (occAt_of_contained pat PRE0 _ j hocc (by omega) h1)
    · by_cases h2 : j ≤ PRE0.length
      · have hcov := occAt_covers pat _ j PRE0.length hocc h2 (by omega)
        rw [ht, getD_concat_at PRE0 '\n' _] at hcov
        exact hnl hcov
      · have hj2 : j = (PRE0 ++ ['\n']).length + (j - PRE0.length - 1) := by
          simp only [List.length_append, List.length_cons, List.length_nil]
          omega
        have hch := occAt_getD pat _ j hocc 0 hpat1
        rw [Nat.add_zero] at hch
        have ht2 : (PRE0 ++ ['\n'] ++ τe ++ pat ++ POST)
            = (PRE0 ++ ['\n']) ++ (τe ++ (pat ++ POST)) := by
          simp [List.append_assoc]
        rw [ht2, hj2, getD_append_right'] at hch
        have hjlt : j - PRE0.length - 1 < τe.length := by omega
        rw [getD_append_left' τe _ _ hjlt ' '] at hch
        have hwsj : jsIsSpace (τe.getD (j - PRE0.length - 1) ' ') = true :=
          hws _ (getD_mem' hjlt)
        rw [hch, hfirst] at hwsj
        exact Bool.noConfusion hwsj

/-- Trailing whitespace is invisible to `trimEnd`. -/
theorem jsTrimEnd_append_ws (x w : Str) (h : ∀ c ∈ w, jsIsSpace c = true) :
    jsTrimEnd (x ++ w) = jsTrimEnd x := by
  rw [jsTrimEnd, jsTrimEnd, List.reverse_append,
    List.dropWhile_append_of_pos (fun a ha => h a (List.mem_reverse.mp ha))]

/-- `trimEnd` keeps a non-whitespace last character. -/
theorem jsTrimEnd_concat_nonws (x : Str) (c : Char) (h : jsIsSpace c = false) :
    jsTrimEnd (x ++ [c]) = x ++ [c] := by
  rw [jsTrimEnd, List.reverse_append, List.reverse_singleton,
    List.singleton_append, List.dropWhile_cons, h]
  simp

/-- A character absent from a string has no last index. -/
theorem lastIndexOfChar_none (c : Char) : ∀ y : Str, c ∉ y →
    lastIndexOfChar y c = none := by
  intro y
  induction y with
  | nil => intro _; rfl
  | cons d y ih =>
    intro hy
    rw [lastIndexOfChar, ih (fun h => hy (List.mem_cons_of_mem d h))]
    dsimp only
    rw [if_neg (by intro h; subst h; exact hy (List.mem_cons_self d y))]

/-- `lastIndexOf` finds the final occurrence of a character. -/
theorem lastIndexOfChar_append (x : Str) (c : Char) (y : Str) (hy : c ∉ y) :
    lastIndexOfChar (x ++ c :: y) c = some x.length := by
  induction x with
  | nil =>
    rw [List.nil_append, lastIndexOfChar, lastIndexOfChar_none c y hy]
    dsimp only
    rw [if_pos rfl]
    rfl
  | cons a x ih =>
    rw [List.cons_append, lastIndexOfChar, ih]
    rfl

/-- The sniffed indentation unit consists of whitespace only. -/
theorem findTabGo_all_ws (ls : List Str) :
    ∀ c ∈ findTabGo ls, jsIsSpace c = true := by
  induction ls with
  | nil =>
    intro c hc
    have he : findTabGo [] = [' ', ' ', ' ', ' '] := rfl
    rw [he] at hc
    simp only [List.mem_cons, List.not_mem_nil, or_false] at hc
    rcases hc with rfl | rfl | rfl | rfl <;> rfl
  | cons line rest ih =>
    intro c hc
    rw [findTabGo.eq_def] at hc
    dsimp only at hc
    by_cases h1 : jsTrim line = []
    · rw [if_pos h1] at hc
      exact ih c hc
    · rw [if_neg h1] at hc
      cases line with
      | nil => exact ih c hc
      | cons ch lrest =>
        dsimp only at hc
        by_cases h2 : ch = '\t'
        · rw [if_pos h2] at hc
          have hct : c = '\t' := by simpa using hc
          subst hct
          rfl
        · rw [if_neg h2] at hc
          by_cases h3 : ch = ' '
          · rw [if_pos h3] at hc
            have hcs : c = ' ' := List.eq_of_mem_replicate hc
            subst hcs
            rfl
          · rw [if_neg h3] at hc
            exact ih c hc

theorem findTabValue_all_ws (raw : Str) :
    ∀ c ∈ findTabValue raw, jsIsSpace c = true :=
  findTabGo_all_ws (splitLines raw)

/-- The rendered overlay entries, as spliced between the warning and end
marker lines by `buildInheritedSettingsBlock`. -/
def entriesText (flattened : List (Str × Str)) (tab : Str) : Str :=
  List.intercalate (str ",\n")
    (flattened.map (fun kv => tab ++ ['"'] ++ kv.1 ++ str "\": " ++ kv.2))

theorem buildInheritedSettingsBlock_eq (flattened : List (Str × Str)) (tab : Str) :
    buildInheritedSettingsBlock flattened tab
      = tab ++ INHERITED_SETTINGS_START_MARKER ++ ['\n'] ++
        tab ++ WARNING_COMMENT ++ ['\n'] ++
        tab ++ WARNING_EXPLAIN ++ ['\n'] ++
        entriesText flattened tab ++
        (if (entriesText flattened tab).isEmpty then [] else ['\n']) ++
        tab ++ INHERITED_SETTINGS_END_MARKER ++ ['\n'] := rfl

theorem intercalate_cons_ne_nil (sep a : Str) (l : List Str) (ha : a ≠ []) :
    List.intercalate sep (a :: l) ≠ [] := by
  rw [List.intercalate]
  intro he
  rw [List.flatten_eq_nil_iff] at he
  apply ha
  apply he
  cases l with
  | nil =>
    rw [List.intersperse_singleton]
    exact List.mem_singleton_self a
  | cons b bs =>
    rw [List.intersperse_cons_cons]
    exact List.mem_cons_self _ _

/-- A nonempty overlay renders to nonempty entry text. -/
theorem entriesText_ne_nil (flattened : List (Str × Str)) (tab : Str)
    (h : flattened ≠ []) : entriesText flattened tab ≠ [] := by
  match flattened with
  | [] => exact absurd rfl h
  | kv :: rest =>
    rw [entriesText, List.map_cons]
    refine intercalate_cons_ne_nil _ _ _ ?_
    intro he
    have hq : '"' ∈ (tab ++ ['"'] ++ kv.1 ++ str "\": " ++ kv.2) := by
      simp
    rw [he] at hq
    exact List.not_mem_nil _ hq

/-- Writing a nonempty overlay into a canonical marker-free document
`Bm ++ cm ++ "\n}\n"` (last meaningful character `cm`, needing a comma)
splices the block right before the closing brace. -/
theorem write_on_canonical (o : List (Str × Str)) (Bm : Str) (cm : Char)
    (ho : o ≠ [])
    (hXmode : (rawScan (Bm ++ [cm])).mode = ScanMode.normal)
    (hXlast : (rawScan (Bm ++ [cm])).last = some Bm.length)
    (hcm0 : jsIsSpace cm = false) (hcm1 : ¬(cm = '{')) (hcm2 : ¬(cm = ',')) :
    writeInheritedSettings (Bm ++ [cm] ++ ['\n', '}', '\n']) o
      = Bm ++ [cm] ++ [','] ++ ['\n']
        ++ buildInheritedSettingsBlock o
            (findTabValue (Bm ++ [cm] ++ ['\n', '}', '\n']))
        ++ ['}', '\n'] := by
  have hoe : o.isEmpty = false := by
    cases o with
    | nil => exact absurd rfl ho
    | cons a l => rfl
  rw [writeInheritedSettings, if_neg (show ¬(o.isEmpty = true) by
    rw [hoe]; decide)]
  have hsplit : splitRawSettingsByClosingBrace (Bm ++ [cm] ++ ['\n', '}', '\n'])
      = (Bm ++ [cm] ++ ['\n'], ['}', '\n']) := by
    rw [splitRawSettingsByClosingBrace]
    have hd2 : Bm ++ [cm] ++ ['\n', '}', '\n']
        = (Bm ++ [cm] ++ ['\n']) ++ '}' :: ['\n'] := by
      simp
    rw [hd2, lastIndexOfChar_append _ '}' ['\n'] (by decide)]
    dsimp only
    rw [List.take_left, List.drop_left]
  dsimp only
  rw [hsplit]
  dsimp only
  have hmlast : getLastMeaningfulCharacterIndex (Bm ++ [cm] ++ ['\n'])
      = some Bm.length := by
    have hsc : rawScan (Bm ++ [cm] ++ ['\n'])
        = scanStep (rawScan (Bm ++ [cm])) '\n' := by
      rw [rawScan, List.foldl_append, List.foldl_cons, List.foldl_nil]
      rfl
    have hstep := scanStep_normal_ws (rawScan (Bm ++ [cm])) '\n' hXmode (by decide)
    rw [getLastMeaningfulCharacterIndex, scanOf, hsc, hstep,
      finalizeScan_of_normal
        { rawScan (Bm ++ [cm]) with i := (rawScan (Bm ++ [cm])).i + 1 } hXmode]
    exact hXlast
  rw [insertBeforeClose, hmlast]
  dsimp only
  have hchar : (Bm ++ [cm] ++ ['\n']).getD Bm.length ' ' = cm := by
    have hb : Bm ++ [cm] ++ ['\n'] = Bm ++ cm :: ['\n'] := by simp
    rw [hb]
    exact getD_concat_at Bm cm ['\n']
  rw [hchar]
  have hany : (Bm ++ [cm] ++ ['\n']).any (fun c => !jsIsSpace c) = true := by
    rw [List.any_eq_true]
    refine ⟨cm, by simp, ?_⟩
    rw [hcm0]
    rfl
  have hNC : ((Bm ++ [cm] ++ ['\n']).any (fun c => !jsIsSpace c)
      && !(decide (cm = '{')) && !(decide (cm = ','))) = true := by
    rw [hany, decide_eq_false hcm1, decide_eq_false hcm2]
    rfl
  rw [if_pos hNC]
  have htake1 : (Bm ++ [cm] ++ ['\n']).take (Bm.length + 1) = Bm ++ [cm] :=
    List.take_left' (by simp)
  have hdrop1 : (Bm ++ [cm] ++ ['\n']).drop (Bm.length + 1) = ['\n'] :=
    List.drop_left' (by simp)
  rw [htake1, hdrop1]
  have hrepl : replaceTrailingWsWithNewline ['\n'] = ['\n'] := by decide
  rw [hrepl]

/-- A comma-free marker absent from the original document does not occur in
the document's opening segment with the inserted comma. -/
theorem noOcc_A1 (pat : Str) (Bm : Str) (cm : Char)
    (hne : pat ≠ []) (hcomma : ',' ∉ pat)
    (hd : strIndexOf (Bm ++ [cm] ++ ['\n', '}', '\n']) pat = none) :
    ∀ j, ¬ OccAt pat (Bm ++ [cm] ++ [',']) j := by
  intro j hocc
  have hp1 : 0 < pat.length := List.length_pos.mpr hne
  have hlen := occAt_length pat _ j hne hocc
  have hlenA : (Bm ++ [cm] ++ [',']).length = Bm.length + 2 := by simp
  rw [hlenA] at hlen
  by_cases hcont : j + pat.length ≤ (Bm ++ [cm]).length
  · have h1 : OccAt pat (Bm ++ [cm]) j :=
      occAt_of_contained pat (Bm ++ [cm]) [','] j hocc
        (Nat.le_trans (Nat.le_add_right _ _) hcont) hcont
    have h2 : OccAt pat (Bm ++ [cm] ++ ['\n', '}', '\n']) j :=
      occAt_mono_prefix pat (Bm ++ [cm]) _ j ⟨['\n', '}', '\n'], rfl⟩ h1
    exact strIndexOf_none_noOcc _ pat hd j h2
  · have hlX : (Bm ++ [cm]).length = Bm.length + 1 := by simp
    rw [hlX] at hcont
    have hcov := occAt_covers pat _ j (Bm.length + 1) hocc (by omega) (by omega)
    have hch : (Bm ++ [cm] ++ [',']).getD (Bm.length + 1) ' ' = ',' := by
      rw [show Bm ++ [cm] ++ [','] = (Bm ++ [cm]) ++ ',' :: [] from rfl, ← hlX]
      exact getD_concat_at _ ',' []
    rw [hch] at hcov
    exact hcomma hcov

/-- Removing from the spliced document recovers the canonical original. -/
theorem remove_spliced (Bm : Str) (cm : Char) (τ E : Str)
    (hτws : ∀ c ∈ τ, jsIsSpace c = true)
    (hSMd : strIndexOf (Bm ++ [cm] ++ ['\n', '}', '\n'])
        INHERITED_SETTINGS_START_MARKER = none)
    (hEMd : strIndexOf (Bm ++ [cm] ++ ['\n', '}', '\n'])
        INHERITED_SETTINGS_END_MARKER = none)
    (hXmode : (rawScan (Bm ++ [cm])).mode = ScanMode.normal)
    (hXlast : (rawScan (Bm ++ [cm])).last = some Bm.length)
    (hEEM : NoOccB INHERITED_SETTINGS_END_MARKER E) :
    removeInheritedSettingsFromFile
        (Bm ++ [cm] ++ [','] ++ ['\n']
          ++ (τ ++ INHERITED_SETTINGS_START_MARKER ++ ['\n']
              ++ τ ++ WARNING_COMMENT ++ ['\n']
              ++ τ ++ WARNING_EXPLAIN ++ ['\n']
              ++ E ++ ['\n']
              ++ τ ++ INHERITED_SETTINGS_END_MARKER ++ ['\n'])
          ++ ['}', '\n'])
      = (Bm ++ [cm] ++ ['\n', '}', '\n'], false) := by
  have hSMne : INHERITED_SETTINGS_START_MARKER ≠ ([] : Str) := by decide
  have hEMne : INHERITED_SETTINGS_END_MARKER ≠ ([] : Str) := by decide
  have hSMnl : '\n' ∉ INHERITED_SETTINGS_START_MARKER := by decide
  have hEMnl : '\n' ∉ INHERITED_SETTINGS_END_MARKER := by decide
  have hSMfirst : jsIsSpace (INHERITED_SETTINGS_START_MARKER.getD 0 ' ') = false := by
    decide
  have hEMfirst : jsIsSpace (INHERITED_SETTINGS_END_MARKER.getD 0 ' ') = false := by
    decide
  have hA1SM := noOcc_A1 INHERITED_SETTINGS_START_MARKER Bm cm hSMne (by decide) hSMd
  have hA1EM := noOcc_A1 INHERITED_SETTINGS_END_MARKER Bm cm hEMne (by decide) hEMd
  have hE' : ∀ j, ¬ OccAt INHERITED_SETTINGS_END_MARKER E j :=
    noOccB_occAt _ E hEEM hEMne
  have hSMbody : ∀ j, ¬ OccAt INHERITED_SETTINGS_END_MARKER
      (τ ++ INHERITED_SETTINGS_START_MARKER) j :=
    noOccP_ws_append _ τ _ hτws hEMfirst hEMne
      (noOccB_occAt _ _ (by decide) hEMne)
  have hW1body : ∀ j, ¬ OccAt INHERITED_SETTINGS_END_MARKER
      (τ ++ WARNING_COMMENT) j :=
    noOccP_ws_append _ τ _ hτws hEMfirst hEMne
      (noOccB_occAt _ _ (by decide) hEMne)
  have hW2body : ∀ j, ¬ OccAt INHERITED_SETTINGS_END_MARKER
      (τ ++ WARNING_EXPLAIN) j :=
    noOccP_ws_append _ τ _ hτws hEMfirst hEMne
      (noOccB_occAt _ _ (by decide) hEMne)
  have hseg1 := noOccP_line_append INHERITED_SETTINGS_END_MARKER
    (τ ++ WARNING_EXPLAIN) E hEMnl hW2body hE'
  have hseg2 := noOccP_line_append INHERITED_SETTINGS_END_MARKER
    (τ ++ WARNING_COMMENT) _ hEMnl hW1body hseg1
  have hseg3 := noOccP_line_append INHERITED_SETTINGS_END_MARKER
    (τ ++ INHERITED_SETTINGS_START_MARKER) _ hEMnl hSMbody hseg2
  have hseg4 := noOccP_line_append INHERITED_SETTINGS_END_MARKER
    (Bm ++ [cm] ++ [',']) _ hEMnl hA1EM hseg3
  have hPRE0E : ∀ j, ¬ OccAt INHERITED_SETTINGS_END_MARKER
      (Bm ++ [cm] ++ [','] ++ ['\n']
        ++ τ ++ INHERITED_SETTINGS_START_MARKER ++ ['\n']
        ++ τ ++ WARNING_COMMENT ++ ['\n']
        ++ τ ++ WARNING_EXPLAIN ++ ['\n'] ++ E) j := by
    intro j h
    refine hseg4 j ?_
    have hassoc : Bm ++ [cm] ++ [','] ++ ['\n']
        ++ τ ++ INHERITED_SETTINGS_START_MARKER ++ ['\n']
        ++ τ ++ WARNING_COMMENT ++ ['\n']
        ++ τ ++ WARNING_EXPLAIN ++ ['\n'] ++ E
        = (Bm ++ [cm] ++ [',']) ++ ['\n']
          ++ ((τ ++ INHERITED_SETTINGS_START_MARKER) ++ ['\n']
            ++ ((τ ++ WARNING_COMMENT) ++ ['\n']
              ++ ((τ ++ WARNING_EXPLAIN) ++ ['\n'] ++ E))) := by
      simp [List.append_assoc]
    rw [hassoc] at h
    exact h
  have hWS : Bm ++ [cm] ++ [','] ++ ['\n']
      ++ (τ ++ INHERITED_SETTINGS_START_MARKER ++ ['\n']
          ++ τ ++ WARNING_COMMENT ++ ['\n']
          ++ τ ++ WARNING_EXPLAIN ++ ['\n']
          ++ E ++ ['\n']
          ++ τ ++ INHERITED_SETTINGS_END_MARKER ++ ['\n'])
      ++ ['}', '\n']
      = (Bm ++ [cm] ++ [',']) ++ ['\n'] ++ τ ++ INHERITED_SETTINGS_START_MARKER
        ++ (['\n'] ++ τ ++ WARNING_COMMENT ++ ['\n'] ++ τ ++ WARNING_EXPLAIN
          ++ ['\n'] ++ E ++ ['\n'] ++ τ ++ INHERITED_SETTINGS_END_MARKER
          ++ ['\n'] ++ ['}', '\n']) := by
    simp [List.append_assoc]
  have hsIdx : strIndexOf
      (Bm ++ [cm] ++ [','] ++ ['\n']
        ++ (τ ++ INHERITED_SETTINGS_START_MARKER ++ ['\n']
            ++ τ ++ WARNING_COMMENT ++ ['\n']
            ++ τ ++ WARNING_EXPLAIN ++ ['\n']
            ++ E ++ ['\n']
            ++ τ ++ INHERITED_SETTINGS_END_MARKER ++ ['\n'])
        ++ ['}', '\n']) INHERITED_SETTINGS_START_MARKER
      = some ((Bm ++ [cm] ++ [',']).length + 1 + τ.length) := by
    rw [hWS]
    exact strIndexOf_marker _ _ _ _ hSMne hSMnl hSMfirst hτws hA1SM
  have hWE : Bm ++ [cm] ++ [','] ++ ['\n']
      ++ (τ ++ INHERITED_SETTINGS_START_MARKER ++ ['\n']
          ++ τ ++ WARNING_COMMENT ++ ['\n']
          ++ τ ++ WARNING_EXPLAIN ++ ['\n']
          ++ E ++ ['\n']
          ++ τ ++ INHERITED_SETTINGS_END_MARKER ++ ['\n'])
      ++ ['}', '\n']
      = (Bm ++ [cm] ++ [','] ++ ['\n']
          ++ τ ++ INHERITED_SETTINGS_START_MARKER ++ ['\n']
          ++ τ ++ WARNING_COMMENT ++ ['\n']
          ++ τ ++ WARNING_EXPLAIN ++ ['\n'] ++ E)
        ++ ['\n'] ++ τ ++ INHERITED_SETTINGS_END_MARKER
        ++ ['\n', '}', '\n'] := by
    simp [List.append_assoc]
  have heIdx : strIndexOf
      (Bm ++ [cm] ++ [','] ++ ['\n']
        ++ (τ ++ INHERITED_SETTINGS_START_MARKER ++ ['\n']
            ++ τ ++ WARNING_COMMENT ++ ['\n']
            ++ τ ++ WARNING_EXPLAIN ++ ['\n']
            ++ E ++ ['\n']
            ++ τ ++ INHERITED_SETTINGS_END_MARKER ++ ['\n'])
        ++ ['}', '\n']) INHERITED_SETTINGS_END_MARKER
      = some ((Bm ++ [cm] ++ [','] ++ ['\n']
          ++ τ ++ INHERITED_SETTINGS_START_MARKER ++ ['\n']
          ++ τ ++ WARNING_COMMENT ++ ['\n']
          ++ τ ++ WARNING_EXPLAIN ++ ['\n'] ++ E).length + 1 + τ.length) := by
    rw [hWE]
    exact strIndexOf_marker _ _ _ _ hEMne hEMnl hEMfirst hτws hPRE0E
  rw [removeInheritedSettingsFromFile, hsIdx, heIdx]
  dsimp only
  rw [if_neg (by
    simp only [List.length_append, List.length_cons, List.length_nil]
    omega)]
  have htake : (Bm ++ [cm] ++ [','] ++ ['\n']
      ++ (τ ++ INHERITED_SETTINGS_START_MARKER ++ ['\n']
          ++ τ ++ WARNING_COMMENT ++ ['\n']
          ++ τ ++ WARNING_EXPLAIN ++ ['\n']
          ++ E ++ ['\n']
          ++ τ ++ INHERITED_SETTINGS_END_MARKER ++ ['\n'])
      ++ ['}', '\n']).take ((Bm ++ [cm] ++ [',']).length + 1 + τ.length)
      = (Bm ++ [cm] ++ [',']) ++ ['\n'] ++ τ := by
    have hW2 : Bm ++ [cm] ++ [','] ++ ['\n']
        ++ (τ ++ INHERITED_SETTINGS_START_MARKER ++ ['\n']
            ++ τ ++ WARNING_COMMENT ++ ['\n']
            ++ τ ++ WARNING_EXPLAIN ++ ['\n']
            ++ E ++ ['\n']
            ++ τ ++ INHERITED_SETTINGS_END_MARKER ++ ['\n'])
        ++ ['}', '\n']
        = ((Bm ++ [cm] ++ [',']) ++ ['\n'] ++ τ)
          ++ (INHERITED_SETTINGS_START_MARKER
            ++ (['\n'] ++ τ ++ WARNING_COMMENT ++ ['\n'] ++ τ ++ WARNING_EXPLAIN
              ++ ['\n'] ++ E ++ ['\n'] ++ τ ++ INHERITED_SETTINGS_END_MARKER
              ++ ['\n'] ++ ['}', '\n'])) := by
      simp [List.append_assoc]
    rw [hW2]
    exact List.take_left' (by
      simp only [List.length_append, List.length_cons, List.length_nil]
      try omega)
  have hdrop : (Bm ++ [cm] ++ [','] ++ ['\n']
      ++ (τ ++ INHERITED_SETTINGS_START_MARKER ++ ['\n']
          ++ τ ++ WARNING_COMMENT ++ ['\n']
          ++ τ ++ WARNING_EXPLAIN ++ ['\n']
          ++ E ++ ['\n']
          ++ τ ++ INHERITED_SETTINGS_END_MARKER ++ ['\n'])
      ++ ['}', '\n']).drop
        ((Bm ++ [cm] ++ [','] ++ ['\n']
          ++ τ ++ INHERITED_SETTINGS_START_MARKER ++ ['\n']
          ++ τ ++ WARNING_COMMENT ++ ['\n']
          ++ τ ++ WARNING_EXPLAIN ++ ['\n'] ++ E).length + 1 + τ.length
          + INHERITED_SETTINGS_END_MARKER.length)
      = ['\n', '}', '\n'] := by
    have hW3 : Bm ++ [cm] ++ [','] ++ ['\n']
        ++ (τ ++ INHERITED_SETTINGS_START_MARKER ++ ['\n']
            ++ τ ++ WARNING_COMMENT ++ ['\n']
            ++ τ ++ WARNING_EXPLAIN ++ ['\n']
            ++ E ++ ['\n']
            ++ τ ++ INHERITED_SETTINGS_END_MARKER ++ ['\n'])
        ++ ['}', '\n']
        = ((Bm ++ [cm] ++ [','] ++ ['\n']
            ++ τ ++ INHERITED_SETTINGS_START_MARKER ++ ['\n']
            ++ τ ++ WARNING_COMMENT ++ ['\n']
            ++ τ ++ WARNING_EXPLAIN ++ ['\n'] ++ E)
          ++ ['\n'] ++ τ ++ INHERITED_SETTINGS_END_MARKER)
          ++ ['\n', '}', '\n'] := by
      simp [List.append_assoc]
    rw [hW3]
    exact List.drop_left' (by
      simp only [List.length_append, List.length_cons, List.length_nil]
      try omega)
  rw [htake, hdrop]
  have hbt : jsTrimEnd ((Bm ++ [cm] ++ [',']) ++ ['\n'] ++ τ)
      = Bm ++ [cm] ++ [','] := by
    have h1 : (Bm ++ [cm] ++ [',']) ++ ['\n'] ++ τ
        = (Bm ++ [cm] ++ [',']) ++ (['\n'] ++ τ) := by
      rw [List.append_assoc]
    rw [h1, jsTrimEnd_append_ws (Bm ++ [cm] ++ [',']) (['\n'] ++ τ) (fun c hc => by
      rcases List.mem_append.mp hc with hc | hc
      · rw [List.mem_singleton.mp hc]
        decide
      · exact hτws c hc)]
    exact jsTrimEnd_concat_nonws (Bm ++ [cm]) ',' (by decide)
  have hat : jsTrimEnd ['\n', '}', '\n'] = ['\n', '}'] := by decide
  rw [hbt, hat]
  have h0i : (rawScan (Bm ++ [cm])).i = Bm.length + 1 := by
    rw [rawScan_i]
    simp
  have hsc : rawScan ((Bm ++ [cm] ++ [',']) ++ ['\n', '}'])
      = scanStep (scanStep (scanStep (rawScan (Bm ++ [cm])) ',') '\n') '}' := by
    have hT : (Bm ++ [cm] ++ [',']) ++ ['\n', '}']
        = (Bm ++ [cm]) ++ [',', '\n', '}'] := by
      simp
    rw [hT, rawScan, List.foldl_append, List.foldl_cons, List.foldl_cons,
      List.foldl_cons, List.foldl_nil]
    rfl
  have ea := scanStep_normal_mark (rawScan (Bm ++ [cm])) ','
    hXmode (by decide) (by decide) (by decide)
  have fam : (scanStep (rawScan (Bm ++ [cm])) ',').mode = ScanMode.normal := by
    rw [ea]
    exact hXmode
  have fai : (scanStep (rawScan (Bm ++ [cm])) ',').i = Bm.length + 2 := by
    rw [ea]
    dsimp only
    rw [h0i]
  have fal : (scanStep (rawScan (Bm ++ [cm])) ',').last = some (Bm.length + 1) := by
    rw [ea]
    dsimp only [mark]
    rw [h0i]
  have fal2 : (scanStep (rawScan (Bm ++ [cm])) ',').last2 = some Bm.length := by
    rw [ea]
    dsimp only [mark]
    exact hXlast
  have eb := scanStep_normal_ws (scanStep (rawScan (Bm ++ [cm])) ',') '\n'
    fam (by decide)
  have fbm : (scanStep (scanStep (rawScan (Bm ++ [cm])) ',') '\n').mode
      = ScanMode.normal := by
    rw [eb]
    exact fam
  have fbi : (scanStep (scanStep (rawScan (Bm ++ [cm])) ',') '\n').i
      = Bm.length + 3 := by
    rw [eb]
    dsimp only
    rw [fai]
  have fbl : (scanStep (scanStep (rawScan (Bm ++ [cm])) ',') '\n').last
      = some (Bm.length + 1) := by
    rw [eb]
    exact fal
  have ec := scanStep_normal_mark (scanStep (scanStep (rawScan (Bm ++ [cm])) ',') '\n')
    '}' fbm (by decide) (by decide) (by decide)
  have fcm : (scanStep (scanStep (scanStep (rawScan (Bm ++ [cm])) ',') '\n') '}').mode
      = ScanMode.normal := by
    rw [ec]
    exact fbm
  have fcl : (scanStep (scanStep (scanStep (rawScan (Bm ++ [cm])) ',') '\n') '}').last
      = some (Bm.length + 3) := by
    rw [ec]
    dsimp only [mark]
    rw [fbi]
  have fcl2 : (scanStep (scanStep (scanStep (rawScan (Bm ++ [cm])) ',') '\n') '}').last2
      = some (Bm.length + 1) := by
    rw [ec]
    dsimp only [mark]
    exact fbl
  have hfinT : scanOf ((Bm ++ [cm] ++ [',']) ++ ['\n', '}'])
      = scanStep (scanStep (scanStep (rawScan (Bm ++ [cm])) ',') '\n') '}' := by
    rw [scanOf, hsc]
    exact finalizeScan_of_normal _ fcm
  have hlastT : (scanOf ((Bm ++ [cm] ++ [',']) ++ ['\n', '}'])).last
      = some (Bm.length + 3) := by
    rw [hfinT]
    exact fcl
  have hlast2T : (scanOf ((Bm ++ [cm] ++ [',']) ++ ['\n', '}'])).last2
      = some (Bm.length + 1) := by
    rw [hfinT]
    exact fcl2
  have hch3 : ((Bm ++ [cm] ++ [',']) ++ ['\n', '}']).getD (Bm.length + 3) ' '
      = '}' := by
    have h1 : (Bm ++ [cm] ++ [',']) ++ ['\n', '}']
        = (Bm ++ [cm] ++ [','] ++ ['\n']) ++ '}' :: [] := by
      simp
    have h2 : (Bm ++ [cm] ++ [','] ++ ['\n']).length = Bm.length + 3 := by
      simp
    rw [h1, ← h2]
    exact getD_concat_at _ '}' []
  have hch1 : ((Bm ++ [cm] ++ [',']) ++ ['\n', '}']).getD (Bm.length + 1) ' '
      = ',' := by
    have h1 : (Bm ++ [cm] ++ [',']) ++ ['\n', '}']
        = (Bm ++ [cm]) ++ ',' :: ['\n', '}'] := by
      simp
    have h2 : (Bm ++ [cm]).length = Bm.length + 1 := by
      simp
    rw [h1, ← h2]
    exact getD_concat_at _ ',' _
  have hdel : rtcDeletedIndex ((Bm ++ [cm] ++ [',']) ++ ['\n', '}'])
      = some (Bm.length + 1) := by
    rw [rtcDeletedIndex, hlastT]
    dsimp only
    rw [hch3, if_neg (by decide), if_pos (Or.inl rfl), rtcSecondCase.eq_def,
      hlast2T]
    dsimp only
    rw [hch1, if_pos rfl]
  have hrtc : removeTrailingComma ((Bm ++ [cm] ++ [',']) ++ ['\n', '}'])
      = Bm ++ [cm] ++ ['\n', '}'] := by
    rw [removeTrailingComma_eq_deleted, hdel]
    dsimp only
    have htk : ((Bm ++ [cm] ++ [',']) ++ ['\n', '}']).take (Bm.length + 1)
        = Bm ++ [cm] := by
      have h1 : (Bm ++ [cm] ++ [',']) ++ ['\n', '}']
          = (Bm ++ [cm]) ++ [',', '\n', '}'] := by
        simp
      rw [h1]
      exact List.take_left' (by simp)
    have hdp : ((Bm ++ [cm] ++ [',']) ++ ['\n', '}']).drop (Bm.length + 2)
        = ['\n', '}'] := by
      exact List.drop_left' (by simp)
    rw [htk, hdp]
  rw [hrtc]
  have hsuf : (['}'] : Str).isSuffixOf (Bm ++ [cm] ++ ['\n', '}']) = true := by
    refine List.isSuffixOf_iff_suffix.mpr ⟨Bm ++ [cm] ++ ['\n'], ?_⟩
    simp
  rw [if_pos hsuf]
  refine congrArg (fun x => (x, false)) ?_
  simp

/-- Removing right after writing recovers the canonical document exactly,
with no warning. -/
theorem remove_write_roundtrip (o : List (Str × Str)) (Bm : Str) (cm : Char)
    (ho : o ≠ [])
    (hSMd : strIndexOf (Bm ++ [cm] ++ ['\n', '}', '\n'])
        INHERITED_SETTINGS_START_MARKER = none)
    (hEMd : strIndexOf (Bm ++ [cm] ++ ['\n', '}', '\n'])
        INHERITED_SETTINGS_END_MARKER = none)
    (hXmode : (rawScan (Bm ++ [cm])).mode = ScanMode.normal)
    (hXlast : (rawScan (Bm ++ [cm])).last = some Bm.length)
    (hcm0 : jsIsSpace cm = false) (hcm1 : ¬(cm = '{')) (hcm2 : ¬(cm = ','))
    (hEEM : NoOccB INHERITED_SETTINGS_END_MARKER
        (entriesText o (findTabValue (Bm ++ [cm] ++ ['\n', '}', '\n'])))) :
    removeInheritedSettingsFromFile
        (writeInheritedSettings (Bm ++ [cm] ++ ['\n', '}', '\n']) o)
      = (Bm ++ [cm] ++ ['\n', '}', '\n'], false) := by
  rw [write_on_canonical o Bm cm ho hXmode hXlast hcm0 hcm1 hcm2,
    buildInheritedSettingsBlock_eq]
  have hEne : (entriesText o
      (findTabValue (Bm ++ [cm] ++ ['\n', '}', '\n']))).isEmpty = false := by
    cases hEs : entriesText o (findTabValue (Bm ++ [cm] ++ ['\n', '}', '\n'])) with
    | nil => exact absurd hEs (entriesText_ne_nil o _ ho)
    | cons a l => rfl
  rw [hEne, if_neg (show ¬((false : Bool) = true) by decide)]
  exact remove_spliced Bm cm _ _ (findTabValue_all_ws _) hSMd hEMd hXmode hXlast hEEM

set_option maxRecDepth 8192

/-- C3 counterexample: on the two-character document `{}` the remove/insert
pipeline is not idempotent — the second application appends an extra
newline (the first application's output does not end in `}` plus newline of
the canonical shape the inserter expects). -/
theorem C3_idempotence_counterexample :
    applyInheritedSettingsToText
        (applyInheritedSettingsToText (str "\x7b\x7d") [(str "b", str "\"2\"")])
        [(str "b", str "\"2\"")]
      ≠ applyInheritedSettingsToText (str "\x7b\x7d") [(str "b", str "\"2\"")] := by
  decide

/-- C3 (amended): on canonical settings documents `Bm ++ cm ++ "\n}\n"` —
marker-free, scanning to default mode with last meaningful character `cm`
(not `{` or `,`) right before the final newline-brace-newline, and with an
overlay whose rendered entries do not contain the end marker — the
remove-then-insert pipeline is idempotent: applying it twice yields the
same document as applying it once. (Unrestricted idempotence fails: see
the counterexample.) -/
theorem C3_pipeline_idempotent (o : List (Str × Str)) (Bm : Str) (cm : Char)
    (ho : o ≠ [])
    (hSMd : strIndexOf (Bm ++ [cm] ++ ['\n', '}', '\n'])
        INHERITED_SETTINGS_START_MARKER = none)
    (hEMd : strIndexOf (Bm ++ [cm] ++ ['\n', '}', '\n'])
        INHERITED_SETTINGS_END_MARKER = none)
    (hXmode : (rawScan (Bm ++ [cm])).mode = ScanMode.normal)
    (hXlast : (rawScan (Bm ++ [cm])).last = some Bm.length)
    (hcm0 : jsIsSpace cm = false) (hcm1 : ¬(cm = '{')) (hcm2 : ¬(cm = ','))
    (hEEM : NoOccB INHERITED_SETTINGS_END_MARKER
        (entriesText o (findTabValue (Bm ++ [cm] ++ ['\n', '}', '\n'])))) :
    applyInheritedSettingsToText
        (applyInheritedSettingsToText (Bm ++ [cm] ++ ['\n', '}', '\n']) o) o
      = applyInheritedSettingsToText (Bm ++ [cm] ++ ['\n', '}', '\n']) o := by
  have hrem : removeInheritedSettingsFromFile (Bm ++ [cm] ++ ['\n', '}', '\n'])
      = (Bm ++ [cm] ++ ['\n', '}', '\n'], false) := by
    rw [removeInheritedSettingsFromFile, hSMd, hEMd]
  have h1 : applyInheritedSettingsToText (Bm ++ [cm] ++ ['\n', '}', '\n']) o
      = writeInheritedSettings (Bm ++ [cm] ++ ['\n', '}', '\n']) o := by
    rw [applyInheritedSettingsToText, hrem]
  rw [h1, applyInheritedSettingsToText,
    remove_write_roundtrip o Bm cm ho hSMd hEMd hXmode hXlast hcm0 hcm1 hcm2 hEEM]

/-- Witness for C3 on the document `{\n    "a": 1\n}\n` with overlay
`{"b": "x"}`. -/
theorem C3_pipeline_idempotent_witness :
    applyInheritedSettingsToText
        (applyInheritedSettingsToText
          (str "\x7b\n    \"a\": " ++ ['1'] ++ ['\n', '}', '\n'])
          [(str "b", str "\"x\"")])
        [(str "b", str "\"x\"")]
      = applyInheritedSettingsToText
          (str "\x7b\n    \"a\": " ++ ['1'] ++ ['\n', '}', '\n'])
          [(str "b", str "\"x\"")] :=
  C3_pipeline_idempotent [(str "b", str "\"x\"")] (str "\x7b\n    \"a\": ") '1'
    (by decide) (by decide) (by decide) (by decide) (by decide)
    (by decide) (by decide) (by decide) (by decide)
